import Mathlib

/-!
Verification of the mobius.py repository (files `src/ouverture.py`,
`src/aston.py`) against its natural-language specification.

The development shallowly embeds the Python code: pure functions become Lean
functions, the filesystem used by `save_function` becomes an explicit
association list threaded through the operations, machine-level hashing
(`hashlib.sha256`) is embedded as an executable SHA-256 over byte lists
(`Nat` values below 256), and the Python `ast` node universe — an external
collaborator of the repository — is embedded as a closed tagged union of the
node shapes the code manipulates.
-/

namespace Mobius

/-! ### Bytes and SHA-256 (embedding of `hashlib.sha256(...).hexdigest()`) -/

/-- Truncation to a 32-bit word. -/
def w32 (x : Nat) : Nat := x % 4294967296

/-- Right rotation of a 32-bit word by `n` bits. -/
def rotr (n x : Nat) : Nat := w32 ((x >>> n) ||| (x <<< (32 - n)))

/-- The SHA-256 round constants (decimal). -/
def sha256K : List Nat :=
  [1116352408, 1899447441, 3049323471, 3921009573, 961987163, 1508970993,
   2453635748, 2870763221, 3624381080, 310598401, 607225278, 1426881987,
   1925078388, 2162078206, 2614888103, 3248222580, 3835390401, 4022224774,
   264347078, 604807628, 770255983, 1249150122, 1555081692, 1996064986,
   2554220882, 2821834349, 2952996808, 3210313671, 3336571891, 3584528711,
   113926993, 338241895, 666307205, 773529912, 1294757372, 1396182291,
   1695183700, 1986661051, 2177026350, 2456956037, 2730485921, 2820302411,
   3259730800, 3345764771, 3516065817, 3600352804, 4094571909, 275423344,
   430227734, 506948616, 659060556, 883997877, 958139571, 1322822218,
   1537002063, 1747873779, 1955562222, 2024104815, 2227730452, 2361852424,
   2428436474, 2756734187, 3204031479, 3329325298]

/-- The SHA-256 initial hash state (decimal). -/
def sha256H0 : List Nat :=
  [1779033703, 3144134277, 1013904242, 2773480762,
   1359893119, 2600822924, 528734635, 1541459225]

/-- Big-endian bytes (most significant first) of a natural number, `k` bytes. -/
def beBytes : Nat → Nat → List Nat
  | 0, _ => []
  | k + 1, n => (n >>> (8 * k)) % 256 :: beBytes k n

/-- SHA-256 message padding: append `0x80`, zeros, then the 8-byte big-endian
bit length, reaching a multiple of 64 bytes. -/
def sha256Pad (msg : List Nat) : List Nat :=
  let len := msg.length
  let zeros := (64 - ((len + 9) % 64)) % 64
  msg ++ (0x80 :: List.replicate zeros 0) ++ beBytes 8 (len * 8)

/-- Split a byte list into 64-byte blocks (fueled; the fuel is the length). -/
def chunksGo : Nat → List Nat → List (List Nat)
  | 0, _ => []
  | _ + 1, [] => []
  | fuel + 1, l => l.take 64 :: chunksGo fuel (l.drop 64)

def chunks64 (l : List Nat) : List (List Nat) := chunksGo l.length l

/-- The first 16 32-bit words (big-endian) of a 64-byte block. -/
def blockWords (b : List Nat) : List Nat :=
  (List.range 16).map fun i =>
    (b.getD (4 * i) 0) <<< 24 ||| (b.getD (4 * i + 1) 0) <<< 16 |||
    (b.getD (4 * i + 2) 0) <<< 8 ||| b.getD (4 * i + 3) 0

def ssig0 (x : Nat) : Nat := rotr 7 x ^^^ rotr 18 x ^^^ (x >>> 3)

def ssig1 (x : Nat) : Nat := rotr 17 x ^^^ rotr 19 x ^^^ (x >>> 10)

def bsig0 (x : Nat) : Nat := rotr 2 x ^^^ rotr 13 x ^^^ rotr 22 x

def bsig1 (x : Nat) : Nat := rotr 6 x ^^^ rotr 11 x ^^^ rotr 25 x

/-- Extend the 16-word schedule to 64 words. -/
def extendW : Nat → List Nat → List Nat
  | 0, ws => ws
  | n + 1, ws =>
    let k := ws.length
    extendW n (ws ++ [w32 (ssig1 (ws.getD (k - 2) 0) + ws.getD (k - 7) 0 +
                           ssig0 (ws.getD (k - 15) 0) + ws.getD (k - 16) 0)])

/-- One SHA-256 round: state is the 8-tuple as a list `[a,b,c,d,e,f,g,h]`. -/
def sha256Round (st : List Nat) (kw : Nat × Nat) : List Nat :=
  let a := st.getD 0 0
  let b := st.getD 1 0
  let c := st.getD 2 0
  let d := st.getD 3 0
  let e := st.getD 4 0
  let f := st.getD 5 0
  let g := st.getD 6 0
  let h := st.getD 7 0
  let t1 := w32 (h + bsig1 e + ((e &&& f) ^^^ ((4294967295 ^^^ e) &&& g)) + kw.1 + kw.2)
  let t2 := w32 (bsig0 a + ((a &&& b) ^^^ (a &&& c) ^^^ (b &&& c)))
  [w32 (t1 + t2), a, b, c, w32 (d + t1), e, f, g]

/-- Compress one 64-byte block into the running hash state. -/
def sha256Block (st : List Nat) (block : List Nat) : List Nat :=
  let ws := extendW 48 (blockWords block)
  let fin := (sha256K.zip ws).foldl (fun s kw => sha256Round s (kw.1, kw.2)) st
  (List.range 8).map fun i => w32 (st.getD i 0 + fin.getD i 0)

/-- SHA-256 digest of a byte list, as the eight 32-bit state words. -/
def sha256Words (msg : List Nat) : List Nat :=
  (chunks64 (sha256Pad msg)).foldl sha256Block sha256H0

/-- Lowercase hexadecimal digit characters. -/
def hexDigit : Nat → Char
  | 0 => '0' | 1 => '1' | 2 => '2' | 3 => '3' | 4 => '4'
  | 5 => '5' | 6 => '6' | 7 => '7' | 8 => '8' | 9 => '9'
  | 10 => 'a' | 11 => 'b' | 12 => 'c' | 13 => 'd' | 14 => 'e'
  | _ => 'f'

/-- Eight lowercase hex characters of one 32-bit word. -/
def wordHexChars (w : Nat) : List Char :=
  [hexDigit ((w >>> 28) % 16), hexDigit ((w >>> 24) % 16),
   hexDigit ((w >>> 20) % 16), hexDigit ((w >>> 16) % 16),
   hexDigit ((w >>> 12) % 16), hexDigit ((w >>> 8) % 16),
   hexDigit ((w >>> 4) % 16), hexDigit (w % 16)]

/-- `hashlib.sha256(bytes).hexdigest()`: 64 lowercase hex characters. -/
def sha256hex (msg : List Nat) : String :=
  String.mk ((sha256Words msg).map wordHexChars).flatten

/-- UTF-8 bytes of one character (embedding of Python `str.encode("utf-8")`). -/
def charBytes (c : Char) : List Nat :=
  let n := c.toNat
  if n < 0x80 then [n]
  else if n < 0x800 then [0xC0 ||| (n >>> 6), 0x80 ||| (n &&& 0x3F)]
  else if n < 0x10000 then
    [0xE0 ||| (n >>> 12), 0x80 ||| ((n >>> 6) &&& 0x3F), 0x80 ||| (n &&& 0x3F)]
  else
    [0xF0 ||| (n >>> 18), 0x80 ||| ((n >>> 12) &&& 0x3F),
     0x80 ||| ((n >>> 6) &&& 0x3F), 0x80 ||| (n &&& 0x3F)]

/-- UTF-8 encoding of a string as a byte list. -/
def utf8 (s : String) : List Nat := (s.data.map charBytes).flatten

/-- `ouverture.compute_hash`: SHA-256 hex digest of the UTF-8 encoded code. -/
def compute_hash (code : String) : String := sha256hex (utf8 code)

/-! ### Decimal rendering (embedding of Python `str`/f-string number formatting) -/

def digitChar : Nat → Char
  | 0 => '0' | 1 => '1' | 2 => '2' | 3 => '3' | 4 => '4'
  | 5 => '5' | 6 => '6' | 7 => '7' | 8 => '8' | _ => '9'

/-- Fueled decimal digits accumulator (most significant first). -/
def natStrGo : Nat → Nat → List Char → List Char
  | 0, _, acc => acc
  | fuel + 1, n, acc =>
    if n < 10 then digitChar n :: acc
    else natStrGo fuel (n / 10) (digitChar (n % 10) :: acc)

/-- Decimal rendering of a natural number. -/
def natStr (n : Nat) : String := String.mk (natStrGo (n + 1) n [])

/-- Little-endian decimal digit characters (proof-side companion of
`natStrGo`, defined by well-founded recursion). -/
def coreR (n : Nat) : List Char :=
  if h : n < 10 then [digitChar n]
  else digitChar (n % 10) :: coreR (n / 10)
decreasing_by exact Nat.div_lt_self (Nat.lt_of_lt_of_le (by norm_num) (Nat.not_lt.mp h)) (by norm_num)

/-- Decimal rendering of an integer (Python `str` on `int`). -/
def intStr (n : Int) : String :=
  if n < 0 then "-" ++ natStr (-n).toNat else natStr n.toNat

/-! ### Python string comparison (code-point lexicographic) -/

/-- Strict lexicographic comparison of code-point lists. -/
def strListLT : List Char → List Char → Bool
  | [], [] => false
  | [], _ :: _ => true
  | _ :: _, [] => false
  | a :: xs, b :: ys =>
    if a.toNat < b.toNat then true
    else if b.toNat < a.toNat then false
    else strListLT xs ys

/-- Python `a < b` on strings. -/
def strLT (a b : String) : Bool := strListLT a.data b.data

/-- Python `a <= b` on strings. -/
def strLE (a b : String) : Bool := !(strLT b a)

/-- The ordering used by Python `sorted` on strings, as a relation. -/
def strOrd (a b : String) : Prop := strLE a b = true

instance : DecidableRel strOrd := fun a b => instDecidableEqBool (strLE a b) true

/-! ### Python dictionaries as insertion-ordered association lists -/

/-- Dictionary lookup (`d[k]` / `d.get(k)`): the unique binding of `k`. -/
def dlookup {β : Type} : List (String × β) → String → Option β
  | [], _ => none
  | (k', v) :: rest, k => if k' = k then some v else dlookup rest k

/-- Dictionary assignment `d[k] = v`: replaces an existing binding in place
(Python dicts keep the original insertion position) or appends a new one. -/
def dictSet {β : Type} : List (String × β) → String → β → List (String × β)
  | [], k, v => [(k, v)]
  | (k', v') :: rest, k, v =>
    if k' = k then (k, v) :: rest else (k', v') :: dictSet rest k v

/-! ### Embedding of the Python `ast` nodes manipulated by `ouverture.py`

The Python `ast` module is an external collaborator (the spec puts the
source-language parser out of scope and asks for "an exhaustive match over a
closed tagged-union of node kinds"); the constructors below are the node
shapes the repository's visitors inspect: `Name`, `arg`, `FunctionDef`,
`Import`/`ImportFrom` with aliases, `Constant`, and generic expression and
statement forms that only carry children. -/

inductive Lit where
  | pynone
  | pybool (b : Bool)
  | pyint (n : Int)
  | pystr (s : String)

inductive Exp where
  | name (id : String)
  | constant (v : Lit)
  | binop (left : Exp) (op : String) (right : Exp)
  | call (func : Exp) (args : List Exp)
  | attribute (value : Exp) (attr : String)

inductive Stm where
  | ret (value : Option Exp)
  | assign (targets : List Exp) (value : Exp)
  | exprStmt (value : Exp)
  | passStmt
  | ifStmt (test : Exp) (body : List Stm) (orelse : List Stm)

structure PyArg where
  arg : String

structure ImportAlias where
  name : String
  asname : Option String

structure FunctionDef where
  name : String
  args : List PyArg
  body : List Stm

inductive TopStmt where
  | imp (names : List ImportAlias)
  | impFrom (module : Option String) (names : List ImportAlias) (level : Nat)
  | fndef (f : FunctionDef)
  | topStm (s : Stm)

structure Module where
  body : List TopStmt

/-- Models `set(dir(builtins))` (`PYTHON_BUILTINS` in `ouverture.py`): the
front end's built-in name set, an external configuration value; embedded as a
representative finite list. -/
def PYTHON_BUILTINS : List String :=
  ["abs", "all", "any", "bool", "bytes", "callable", "chr", "dict", "dir",
   "divmod", "enumerate", "filter", "float", "format", "frozenset", "getattr",
   "hasattr", "hash", "hex", "id", "input", "int", "isinstance", "issubclass",
   "iter", "len", "list", "map", "max", "min", "next", "object", "oct",
   "open", "ord", "pow", "print", "range", "repr", "reversed", "round",
   "set", "setattr", "slice", "sorted", "staticmethod", "str", "sum",
   "super", "tuple", "type", "vars", "zip",
   "True", "False", "None", "Exception", "ValueError", "TypeError"]

/-- The name an import alias binds: `alias.asname if alias.asname else alias.name`. -/
def aliasBound (a : ImportAlias) : String := a.asname.getD a.name

/-- The imported-name collection loop of `create_name_mapping` (lines 144-151). -/
def importedNames : List TopStmt → List String
  | [] => []
  | .imp names :: rest => names.map aliasBound ++ importedNames rest
  | .impFrom _ names _ :: rest => names.map aliasBound ++ importedNames rest
  | _ :: rest => importedNames rest

/-! `ast.walk` occurrences of `Name` ids and `arg` names inside a function
(the collection loop of `create_name_mapping`, lines 163-168); only the set of
collected names matters downstream, so the traversal order is immaterial. -/

mutual
def namesExp : Exp → List String
  | .name id => [id]
  | .constant _ => []
  | .binop l _ r => namesExp l ++ namesExp r
  | .call f args => namesExp f ++ namesExpList args
  | .attribute v _ => namesExp v
def namesExpList : List Exp → List String
  | [] => []
  | e :: es => namesExp e ++ namesExpList es
end

mutual
def namesStm : Stm → List String
  | .ret none => []
  | .ret (some e) => namesExp e
  | .assign ts v => namesExpList ts ++ namesExp v
  | .exprStmt e => namesExp e
  | .passStmt => []
  | .ifStmt t b o => namesExp t ++ namesStmList b ++ namesStmList o
def namesStmList : List Stm → List String
  | [] => []
  | s :: ss => namesStm s ++ namesStmList ss
end

/-- All `Name` ids and `arg` names occurring in `ast.walk(function_def)`. -/
def occNames (f : FunctionDef) : List String :=
  f.args.map PyArg.arg ++ namesStmList f.body

/-- The exclusion test of the collection loop: imported names, built-ins and
ouverture aliases are never renamed. -/
def isExcluded (imported aliases : List String) (n : String) : Bool :=
  imported.contains n || PYTHON_BUILTINS.contains n || aliases.contains n

/-- The canonical designator `_ouverture_v_<counter>`. -/
def ouv (i : Nat) : String := "_ouverture_v_" ++ natStr i

/-- Assign designators `ouv i, ouv (i+1), ...` to a list of names in order
(the `for name in sorted(all_names)` loop of `create_name_mapping`). -/
def numberFrom : Nat → List String → List (String × String)
  | _, [] => []
  | i, n :: rest => (n, ouv i) :: numberFrom (i + 1) rest

/-- The collection loop of `create_name_mapping`: every `Name`/`arg`
occurrence that is not imported, not a built-in and not an ouverture alias. -/
def collectedNames (f : FunctionDef) (imps : List TopStmt)
    (ouverture_aliases : List String) : List String :=
  (occNames f).filter fun n => ¬ isExcluded (importedNames imps) ouverture_aliases n

/-- `sorted(all_names)` of `create_name_mapping`: the collected names with
the function name discarded, as a duplicate-free ascending list. -/
def sortedLocals (f : FunctionDef) (imps : List TopStmt)
    (ouverture_aliases : List String) : List String :=
  List.insertionSort strOrd
    ((collectedNames f imps ouverture_aliases).filter fun n => n ≠ f.name).dedup

/-- `ouverture.create_name_mapping`: function name maps to `_ouverture_v_0`;
the remaining collected names (imported names, built-ins and aliases
excluded, the function name discarded) get sequential designators in
ascending sorted order; returns `(forward_mapping, reverse_mapping)`. -/
def create_name_mapping (f : FunctionDef) (imps : List TopStmt)
    (ouverture_aliases : List String) :
    List (String × String) × List (String × String) :=
  let numbered := numberFrom 1 (sortedLocals f imps ouverture_aliases)
  ((f.name, ouv 0) :: numbered, (ouv 0, f.name) :: numbered.map fun p => (p.2, p.1))

/-! ### `ASTNormalizer` (renames `Name`, `arg` and `FunctionDef` nodes) -/

/-- Apply a name mapping to one identifier, leaving unmapped names alone. -/
def mapName (m : List (String × String)) (n : String) : String :=
  match dlookup m n with
  | some v => v
  | none => n

mutual
def normExp (m : List (String × String)) : Exp → Exp
  | .name id => .name (mapName m id)
  | .constant v => .constant v
  | .binop l op r => .binop (normExp m l) op (normExp m r)
  | .call f args => .call (normExp m f) (normExpList m args)
  | .attribute v a => .attribute (normExp m v) a
def normExpList (m : List (String × String)) : List Exp → List Exp
  | [] => []
  | e :: es => normExp m e :: normExpList m es
end

def normArg (m : List (String × String)) (a : PyArg) : PyArg := ⟨mapName m a.arg⟩

mutual
def normStm (m : List (String × String)) : Stm → Stm
  | .ret none => .ret none
  | .ret (some e) => .ret (some (normExp m e))
  | .assign ts v => .assign (normExpList m ts) (normExp m v)
  | .exprStmt e => .exprStmt (normExp m e)
  | .passStmt => .passStmt
  | .ifStmt t b o => .ifStmt (normExp m t) (normStmList m b) (normStmList m o)
def normStmList (m : List (String × String)) : List Stm → List Stm
  | [] => []
  | s :: ss => normStm m s :: normStmList m ss
end

def normFunctionDef (m : List (String × String)) (f : FunctionDef) : FunctionDef :=
  ⟨mapName m f.name, f.args.map (normArg m), normStmList m f.body⟩

def normTop (m : List (String × String)) : TopStmt → TopStmt
  | .imp names => .imp names
  | .impFrom md names l => .impFrom md names l
  | .fndef f => .fndef (normFunctionDef m f)
  | .topStm s => .topStm (normStm m s)

def normModule (m : List (String × String)) (mo : Module) : Module :=
  ⟨mo.body.map (normTop m)⟩

/-! ### `sort_imports` -/

def isImportNode : TopStmt → Bool
  | .imp _ => true
  | .impFrom _ _ _ => true
  | _ => false

/-- Lexicographic comparison of string lists (Python tuple comparison). -/
def listLE : List String → List String → Bool
  | [], _ => true
  | _ :: _, [] => false
  | a :: xs, b :: ys => if strLT a b then true else if strLT b a then false else listLE xs ys

/-- Comparison of sort keys: Python compares the key tuples
`('import', names)` / `('from', module, names)` lexicographically. -/
def keyLE (k1 k2 : String × String × List String) : Bool :=
  if strLT k1.1 k2.1 then true
  else if strLT k2.1 k1.1 then false
  else if strLT k1.2.1 k2.2.1 then true
  else if strLT k2.2.1 k1.2.1 then false
  else listLE k1.2.2 k2.2.2

/-- The `import_key` function of `sort_imports`. -/
def import_key : TopStmt → String × String × List String
  | .imp names =>
    ("import", "", List.insertionSort strOrd (names.map ImportAlias.name))
  | .impFrom md names _ =>
    ("from", md.getD "", List.insertionSort strOrd (names.map ImportAlias.name))
  | _ => ("", "", [])

/-- `ouverture.sort_imports`: stable-sorts the import statements by their key
and moves them in front of the other top-level nodes. -/
def sort_imports (tree : Module) : Module :=
  let imports := tree.body.filter isImportNode
  let other_nodes := tree.body.filter fun t => ¬ isImportNode t
  ⟨List.insertionSort (fun a b => keyLE (import_key a) (import_key b)) imports ++ other_nodes⟩

/-! ### `extract_function_def` -/

/-- The scanning loop of `extract_function_def`: accumulates imports, raises
on a second function definition, raises if none was found. -/
def extractGo : List TopStmt → List TopStmt → Option FunctionDef →
    Except String (FunctionDef × List TopStmt)
  | [], _, none => .error "No function definition found in file"
  | [], imps, some f => .ok (f, imps)
  | .imp ns :: rest, imps, st => extractGo rest (imps ++ [.imp ns]) st
  | .impFrom md ns l :: rest, imps, st => extractGo rest (imps ++ [.impFrom md ns l]) st
  | .fndef f :: rest, imps, none => extractGo rest imps (some f)
  | .fndef _ :: _, _, some _ => .error "Only one function definition is allowed per file"
  | .topStm _ :: rest, imps, st => extractGo rest imps st

/-- `ouverture.extract_function_def`. -/
def extract_function_def (tree : Module) : Except String (FunctionDef × List TopStmt) :=
  extractGo tree.body [] none

/-! ### `extract_docstring` -/

/-- Drop the leading docstring statement (a bare string constant) if present. -/
def stripDoc : List Stm → List Stm
  | .exprStmt (.constant (.pystr _)) :: rest => rest
  | b => b

/-- Models `ast.get_docstring` on the embedded nodes (without the stdlib's
`inspect.cleandoc` whitespace normalization, which the claims do not touch);
`extract_docstring` turns a missing docstring into `""`. -/
def get_docstring (f : FunctionDef) : String :=
  match f.body with
  | .exprStmt (.constant (.pystr s)) :: _ => s
  | _ => ""

/-- `ouverture.extract_docstring`: returns the docstring (or `""`) and a copy
of the function without it. -/
def extract_docstring (f : FunctionDef) : String × FunctionDef :=
  (get_docstring f, ⟨f.name, f.args, stripDoc f.body⟩)

/-! ### `rewrite_ouverture_imports` and `replace_ouverture_calls` -/

/-- The per-import alias loop: strips `as` aliases and records
`imported_function_hash -> alias` for aliased names. -/
def rewriteAliases : List ImportAlias → List ImportAlias × List (String × String)
  | [] => ([], [])
  | a :: rest =>
    let (ns, am) := rewriteAliases rest
    (⟨a.name, none⟩ :: ns,
     match a.asname with
     | some asn => (a.name, asn) :: am
     | none => am)

/-- `ouverture.rewrite_ouverture_imports`: rewrites `from ouverture import h as x`
to `from couverture import h` and returns the alias mapping (the
`isinstance(imp, ast.ImportFrom) and imp.module == 'ouverture'` test). -/
def rewrite_ouverture_imports : List TopStmt → List TopStmt × List (String × String)
  | [] => ([], [])
  | .impFrom md names lv :: rest =>
    if md = some "ouverture" then
      let (newNames, am1) := rewriteAliases names
      let (rs, am2) := rewrite_ouverture_imports rest
      (.impFrom (some "couverture") newNames 0 :: rs, am1 ++ am2)
    else
      let (rs, am) := rewrite_ouverture_imports rest
      (.impFrom md names lv :: rs, am)
  | .imp ns :: rest =>
    let (rs, am) := rewrite_ouverture_imports rest
    (.imp ns :: rs, am)
  | .fndef f :: rest =>
    let (rs, am) := rewrite_ouverture_imports rest
    (.fndef f :: rs, am)
  | .topStm s :: rest =>
    let (rs, am) := rewrite_ouverture_imports rest
    (.topStm s :: rs, am)

/-- The alias scan of `OuvertureCallReplacer.visit_Name`: the first
`(func_hash, alias)` pair whose alias equals the name. -/
def findAlias : List (String × String) → String → Option String
  | [], _ => none
  | (h, al) :: rest, id => if id = al then some h else findAlias rest id

mutual
def replaceExp (am : List (String × String)) : Exp → Exp
  | .name id =>
    match findAlias am id with
    | some h => .attribute (.name h) "_ouverture_v_0"
    | none => .name id
  | .constant v => .constant v
  | .binop l op r => .binop (replaceExp am l) op (replaceExp am r)
  | .call f args => .call (replaceExp am f) (replaceExpList am args)
  | .attribute v a => .attribute (replaceExp am v) a
def replaceExpList (am : List (String × String)) : List Exp → List Exp
  | [] => []
  | e :: es => replaceExp am e :: replaceExpList am es
end

mutual
def replaceStm (am : List (String × String)) : Stm → Stm
  | .ret none => .ret none
  | .ret (some e) => .ret (some (replaceExp am e))
  | .assign ts v => .assign (replaceExpList am ts) (replaceExp am v)
  | .exprStmt e => .exprStmt (replaceExp am e)
  | .passStmt => .passStmt
  | .ifStmt t b o => .ifStmt (replaceExp am t) (replaceStmList am b) (replaceStmList am o)
def replaceStmList (am : List (String × String)) : List Stm → List Stm
  | [] => []
  | s :: ss => replaceStm am s :: replaceStmList am ss
end

def replaceFunctionDef (am : List (String × String)) (f : FunctionDef) : FunctionDef :=
  ⟨f.name, f.args, replaceStmList am f.body⟩

def replaceTop (am : List (String × String)) : TopStmt → TopStmt
  | .imp names => .imp names
  | .impFrom md names l => .impFrom md names l
  | .fndef f => .fndef (replaceFunctionDef am f)
  | .topStm s => .topStm (replaceStm am s)

/-- `ouverture.replace_ouverture_calls` (the `OuvertureCallReplacer` pass). -/
def replace_ouverture_calls (am : List (String × String)) (mo : Module) : Module :=
  ⟨mo.body.map (replaceTop am)⟩

/-! ### Re-rendering (models `ast.unparse`, an external stdlib collaborator;
a deterministic function of the location-free tree) -/

def commaSep (l : List String) : String := String.intercalate ", " l

def unparseLit : Lit → String
  | .pynone => "None"
  | .pybool true => "True"
  | .pybool false => "False"
  | .pyint n => intStr n
  | .pystr s => "'" ++ s ++ "'"

mutual
def unparseExp : Exp → String
  | .name id => id
  | .constant v => unparseLit v
  | .binop l op r => unparseExp l ++ " " ++ op ++ " " ++ unparseExp r
  | .call f args => unparseExp f ++ "(" ++ commaSep (unparseExpList args) ++ ")"
  | .attribute v a => unparseExp v ++ "." ++ a
def unparseExpList : List Exp → List String
  | [] => []
  | e :: es => unparseExp e :: unparseExpList es
end

mutual
def unparseStm : Stm → List String
  | .ret none => ["return"]
  | .ret (some e) => ["return " ++ unparseExp e]
  | .assign ts v => [String.intercalate " = " (unparseExpList ts) ++ " = " ++ unparseExp v]
  | .exprStmt e => [unparseExp e]
  | .passStmt => ["pass"]
  | .ifStmt t b o =>
    ("if " ++ unparseExp t ++ ":") :: (unparseStmList b).map (fun x => "    " ++ x) ++
      (if o.isEmpty then [] else "else:" :: (unparseStmList o).map fun x => "    " ++ x)
def unparseStmList : List Stm → List String
  | [] => []
  | s :: ss => unparseStm s ++ unparseStmList ss
end

def unparseAlias (a : ImportAlias) : String :=
  a.name ++ match a.asname with
            | some s => " as " ++ s
            | none => ""

def unparseTop : TopStmt → List String
  | .imp names => ["import " ++ commaSep (names.map unparseAlias)]
  | .impFrom md names _ => ["from " ++ md.getD "" ++ " import " ++ commaSep (names.map unparseAlias)]
  | .fndef f =>
    ("def " ++ f.name ++ "(" ++ commaSep (f.args.map PyArg.arg) ++ "):") ::
      (unparseStmList f.body).map fun x => "    " ++ x
  | .topStm s => unparseStm s

def unparse (mo : Module) : String :=
  String.intercalate "\n" (mo.body.map unparseTop).flatten

/-! ### `normalize_ast` -/

/-- The result record of `normalize_ast`: `(normalized_code_with_docstring,
normalized_code_without_docstring, docstring, name_mapping, alias_mapping)`. -/
structure Normalized where
  withDoc : String
  withoutDoc : String
  docstring : String
  name_mapping : List (String × String)
  alias_mapping : List (String × String)

/-- The rewritten import list of `rewrite_ouverture_imports`. -/
def rewrittenImports (imports0 : List TopStmt) : List TopStmt :=
  (rewrite_ouverture_imports imports0).1

/-- The alias mapping of `rewrite_ouverture_imports`. -/
def aliasMapOf (imports0 : List TopStmt) : List (String × String) :=
  (rewrite_ouverture_imports imports0).2

/-- The forward mapping `normalize_ast` builds. -/
def fwdMap (f : FunctionDef) (imports0 : List TopStmt) : List (String × String) :=
  (create_name_mapping f (rewrittenImports imports0)
    ((aliasMapOf imports0).map Prod.snd)).1

/-- The reverse mapping `normalize_ast` builds. -/
def revMap (f : FunctionDef) (imports0 : List TopStmt) : List (String × String) :=
  (create_name_mapping f (rewrittenImports imports0)
    ((aliasMapOf imports0).map Prod.snd)).2

/-- The successful branch of `normalize_ast`, given the extracted function
and import statements: splits the docstring, rewrites ouverture imports and
calls, renames via `create_name_mapping`, and re-renders the with-docstring
and without-docstring modules. -/
def normCore (function_def : FunctionDef) (imports0 : List TopStmt) : Normalized :=
  { withDoc :=
      unparse (normModule (fwdMap function_def imports0)
        (replace_ouverture_calls (aliasMapOf imports0)
          ⟨rewrittenImports imports0 ++ [.fndef function_def]⟩))
    withoutDoc :=
      unparse (normModule (fwdMap function_def imports0)
        (replace_ouverture_calls (aliasMapOf imports0)
          ⟨rewrittenImports imports0 ++ [.fndef (extract_docstring function_def).2]⟩))
    docstring := (extract_docstring function_def).1
    name_mapping := revMap function_def imports0
    alias_mapping := aliasMapOf imports0 }

/-- `ouverture.normalize_ast`: sorts imports, extracts the unique function
definition (propagating its `ValueError`), and runs `normCore`.
(`clear_locations` and `ast.fix_missing_locations` act on source positions,
which the location-free embedding does not carry; the `lang` parameter is
unused in the source as well.) -/
def normalize_ast (tree : Module) (lang : String) : Except String Normalized :=
  let _ := lang
  match extract_function_def (sort_imports tree) with
  | .error e => .error e
  | .ok (function_def, imports0) => .ok (normCore function_def imports0)

/-! ### `save_function` (the filesystem as an insertion-ordered path map) -/

/-- The JSON record written by `save_function`; structural equality of two
records coincides with byte equality of their `json.dump` serializations,
since the serializer is deterministic on insertion-ordered dictionaries. -/
structure StoredData where
  version : Nat
  hash : String
  normalized_code : String
  docstrings : List (String × String)
  name_mappings : List (String × List (String × String))
  alias_mappings : List (String × List (String × String))
deriving DecidableEq

abbrev Store := List (String × StoredData)

/-- The object path `.ouverture/objects/<hash[:2]>/<hash[2:]>.json`. -/
def jsonPath (hash_value : String) : String :=
  ".ouverture/objects/" ++ String.mk (hash_value.data.take 2) ++ "/" ++
    String.mk (hash_value.data.drop 2) ++ ".json"

/-- `ouverture.save_function`: loads the existing record if present (fresh
record with `version 0` otherwise), overwrites the language's docstring, name
mapping and alias mapping, and writes the record back. -/
def save_function (fs : Store) (hash_value lang normalized_code docstring : String)
    (name_mapping alias_mapping : List (String × String)) : Store :=
  let json_path := jsonPath hash_value
  let data :=
    match dlookup fs json_path with
    | some d => d
    | none =>
      { version := 0
        hash := hash_value
        normalized_code := normalized_code
        docstrings := []
        name_mappings := []
        alias_mappings := [] }
  let data :=
    { data with
      docstrings := dictSet data.docstrings lang docstring
      name_mappings := dictSet data.name_mappings lang name_mapping
      alias_mappings := dictSet data.alias_mappings lang alias_mapping }
  dictSet fs json_path data

/-! ### `add_function` -/

inductive AddError where
  | missingLang
  | badLang (lang : String)
  | fileNotFound (p : String)
  | parseFailed
  | normalizeFailed (msg : String)
deriving DecidableEq

/-- Split a character list (given reversed) at the first separator found,
returning the original-order pieces. -/
def splitRev (c : Char) : List Char → List Char → Option (List Char × List Char)
  | [], _ => none
  | x :: rest, acc =>
    if x = c then some (rest.reverse, acc) else splitRev c rest (x :: acc)

/-- Python `s.rsplit(c, 1)` when `c` occurs in `s`: split at the last
occurrence. -/
def rsplitLast (s : String) (c : Char) : Option (String × String) :=
  match splitRev c s.data.reverse [] with
  | some (l, r) => some (String.mk l, String.mk r)
  | none => none

/-- `ouverture.add_function`: validates the `path@lang` argument (a missing
`@` or a language code whose length differs from 3 is rejected before any
file or store access), reads the file from `files`, parses it through the
front end `parse` (an external collaborator), normalizes, hashes the
without-docstring rendering, and saves.  Each `sys.exit(1)` branch becomes an
`AddError`. -/
def add_function (parse : String → Option Module) (files : List (String × String))
    (fs : Store) (file_path_with_lang : String) : Except AddError Store :=
  match rsplitLast file_path_with_lang '@' with
  | none => .error .missingLang
  | some (file_path, lang) =>
    if lang.data.length ≠ 3 then .error (.badLang lang)
    else
      match dlookup files file_path with
      | none => .error (.fileNotFound file_path)
      | some source_code =>
        match parse source_code with
        | none => .error .parseFailed
        | some tree =>
          match normalize_ast tree lang with
          | .error e => .error (.normalizeFailed e)
          | .ok r =>
            let hash_value := compute_hash r.withoutDoc
            .ok (save_function fs hash_value lang r.withDoc r.docstring
                  r.name_mapping r.alias_mapping)

/-! ### Consistent renaming of a unit (the relation quantified over by the
identifier-invariance property): the function name, parameter names and
`Name` occurrences are mapped through `σ`; imports and other top-level
statements are untouched. -/

mutual
def renameExp (σ : String → String) : Exp → Exp
  | .name id => .name (σ id)
  | .constant v => .constant v
  | .binop l op r => .binop (renameExp σ l) op (renameExp σ r)
  | .call f args => .call (renameExp σ f) (renameExpList σ args)
  | .attribute v a => .attribute (renameExp σ v) a
def renameExpList (σ : String → String) : List Exp → List Exp
  | [] => []
  | e :: es => renameExp σ e :: renameExpList σ es
end

mutual
def renameStm (σ : String → String) : Stm → Stm
  | .ret none => .ret none
  | .ret (some e) => .ret (some (renameExp σ e))
  | .assign ts v => .assign (renameExpList σ ts) (renameExp σ v)
  | .exprStmt e => .exprStmt (renameExp σ e)
  | .passStmt => .passStmt
  | .ifStmt t b o => .ifStmt (renameExp σ t) (renameStmList σ b) (renameStmList σ o)
def renameStmList (σ : String → String) : List Stm → List Stm
  | [] => []
  | s :: ss => renameStm σ s :: renameStmList σ ss
end

def renameFunc (σ : String → String) (f : FunctionDef) : FunctionDef :=
  ⟨σ f.name, f.args.map (fun a => ⟨σ a.arg⟩), renameStmList σ f.body⟩

def renameTop (σ : String → String) : TopStmt → TopStmt
  | .fndef f => .fndef (renameFunc σ f)
  | t => t

def renameModule (σ : String → String) (m : Module) : Module :=
  ⟨m.body.map (renameTop σ)⟩

/-! ### Helpers used in claim statements -/

def isFnDef : TopStmt → Bool
  | .fndef _ => true
  | _ => false

/-- Number of top-level function definitions in a module body. -/
def countFnDefs (body : List TopStmt) : Nat := (body.filter isFnDef).length

/-- The top-level function definitions of a module body, in order. -/
def fnDefsOf : List TopStmt → List FunctionDef
  | [] => []
  | .fndef f :: rest => f :: fnDefsOf rest
  | .imp _ :: rest => fnDefsOf rest
  | .impFrom _ _ _ :: rest => fnDefsOf rest
  | .topStm _ :: rest => fnDefsOf rest

/-- The import statements of a module body, in order. -/
def importsOf (body : List TopStmt) : List TopStmt := body.filter isImportNode

/-- The sorted import list that `normalize_ast` feeds to
`create_name_mapping` (after `sort_imports` and extraction). -/
def sortedImportsOf (m : Module) : List TopStmt :=
  List.insertionSort (fun a b => keyLE (import_key a) (import_key b))
    (m.body.filter isImportNode)

/-- `true` when no import is `from ouverture import ...`, so the alias
machinery of `rewrite_ouverture_imports` is inert. -/
def noOuvImports : List TopStmt → Bool
  | [] => true
  | .impFrom (some m) _ _ :: rest => m ≠ "ouverture" && noOuvImports rest
  | .impFrom none _ _ :: rest => noOuvImports rest
  | .imp _ :: rest => noOuvImports rest
  | .fndef _ :: rest => noOuvImports rest
  | .topStm _ :: rest => noOuvImports rest

/-- The leading docstring statement of a unit built from an optional
docstring text. -/
def docStmts : Option String → List Stm
  | some s => [.exprStmt (.constant (.pystr s))]
  | none => []

/-- A function unit with the given optional docstring in front of `body`. -/
def fnWithDoc (name : String) (args : List PyArg) (doc : Option String)
    (body : List Stm) : FunctionDef :=
  ⟨name, args, docStmts doc ++ body⟩

/-- The names whose renaming the identifier-invariance property constrains:
the function's name and every `Name`/`arg` occurrence in it. -/
def nameDomain (f : FunctionDef) : List String := f.name :: occNames f

/-! ## Embedding of `aston.py`

`ast_to_aston` is generic over tagged tree nodes (`ast.iter_fields`): a node
has a type label and an ordered field map whose values are `None`, scalars,
single child nodes, or lists mixing child nodes and raw scalars — embedded as
the closed union below (floats excluded: the claims do not involve them). -/

inductive AScalar where
  | anull
  | abool (b : Bool)
  | aint (n : Int)
  | astr (s : String)
deriving DecidableEq

mutual
inductive ANode where
  | node (type : String) (fields : List AField)
inductive AField where
  | scalar (name : String) (v : AScalar)
  | child (name : String) (c : ANode)
  | seq (name : String) (items : List AItem)
inductive AItem where
  | inode (c : ANode)
  | ival (v : AScalar)
end

def fieldName : AField → String
  | .scalar n _ => n
  | .child n _ => n
  | .seq n _ => n

/-! ### Canonical JSON (embedding of `json.dumps(obj, sort_keys=True,
ensure_ascii=False)`) -/

inductive JVal where
  | jnull
  | jbool (b : Bool)
  | jint (n : Int)
  | jstr (s : String)
  | jarr (xs : List JVal)

def scalarJ : AScalar → JVal
  | .anull => .jnull
  | .abool b => .jbool b
  | .aint n => .jint n
  | .astr s => .jstr s

/-- JSON string escaping with `ensure_ascii=False`: only the quote, the
backslash and control characters are escaped. -/
def escChar (c : Char) : List Char :=
  if c = '"' then ['\\', '"']
  else if c = '\\' then ['\\', '\\']
  else if c = '\n' then ['\\', 'n']
  else if c = '\t' then ['\\', 't']
  else if c = '\r' then ['\\', 'r']
  else if c.toNat = 8 then ['\\', 'b']
  else if c.toNat = 12 then ['\\', 'f']
  else if c.toNat < 32 then
    ['\\', 'u', '0', '0', hexDigit (c.toNat / 16), hexDigit (c.toNat % 16)]
  else [c]

def jsonStr (s : String) : String :=
  "\"" ++ String.mk (s.data.map escChar).flatten ++ "\""

mutual
def jdump : JVal → String
  | .jnull => "null"
  | .jbool true => "true"
  | .jbool false => "false"
  | .jint n => intStr n
  | .jstr s => jsonStr s
  | .jarr xs => "[" ++ commaSep (jdumpList xs) ++ "]"
def jdumpList : List JVal → List String
  | [] => []
  | v :: vs => jdump v :: jdumpList vs
end

/-- `json.dumps` of an object with `sort_keys=True`: entries sorted by key,
`", "` and `": "` separators. -/
def jdumpObj (pairs : List (String × JVal)) : String :=
  let sortedPairs := List.insertionSort (fun a b : String × JVal => strOrd a.1 b.1) pairs
  "\x7b" ++ commaSep (sortedPairs.map fun p => jsonStr p.1 ++ ": " ++ jdump p.2) ++ "\x7d"

/-! ### `ast_to_aston` -/

/-- One emitted quad `(content_hash, key, index, value)`. -/
structure Quad where
  h : String
  key : String
  idx : Option Nat
  val : AScalar
deriving DecidableEq

/-- The `field_data` entries of `ast_to_aston`: `('scalar', value)` or
`('list', list_items)`, child nodes already replaced by their hashes. -/
inductive FieldEnc where
  | fscalar (v : AScalar)
  | flist (items : List AScalar)

/-- The `for i, item_value in enumerate(data)` quad loop. -/
def seqQuads (h f : String) : Nat → List AScalar → List Quad
  | _, [] => []
  | i, v :: rest => ⟨h, f, some i, v⟩ :: seqQuads h f (i + 1) rest

/-- The `node_tuples` loop over `field_data`. -/
def fieldQuads (h : String) : List (String × FieldEnc) → List Quad
  | [] => []
  | (f, .fscalar v) :: rest => ⟨h, f, none, v⟩ :: fieldQuads h rest
  | (f, .flist vs) :: rest => seqQuads h f 0 vs ++ fieldQuads h rest

mutual
/-- `aston.ast_to_aston`: returns `(content_hash, all_tuples)`; children are
encoded first (their quads precede the node's own), the node's hash is the
SHA-256 of the canonical JSON of its field map with children replaced by
their hashes, and the node's own quads are the `_type` quad followed by one
quad per scalar field (`index` null) and one per list position. -/
def ast_to_aston : ANode → String × List Quad
  | .node ty fields =>
    let (obj, fdata, childTuples) := astonFields fields [("_type", .jstr ty)]
    let canonical := jdumpObj obj
    let content_hash := sha256hex (utf8 canonical)
    (content_hash,
     childTuples ++ ⟨content_hash, "_type", none, .astr ty⟩ :: fieldQuads content_hash fdata)
termination_by structural n => n

/-- The field loop: threads the JSON object (a Python dict, so assignment via
`dictSet`), collects `field_data` and the child quads in order. -/
def astonFields :
    List AField → List (String × JVal) → List (String × JVal) × List (String × FieldEnc) × List Quad
  | [], obj => (obj, [], [])
  | .scalar f v :: rest, obj =>
    let (o, fd, ts) := astonFields rest (dictSet obj f (scalarJ v))
    (o, (f, .fscalar v) :: fd, ts)
  | .child f c :: rest, obj =>
    let (ch, cts) := ast_to_aston c
    let (o, fd, ts) := astonFields rest (dictSet obj f (.jstr ch))
    (o, (f, .fscalar (.astr ch)) :: fd, cts ++ ts)
  | .seq f items :: rest, obj =>
    let (vals, its) := astonItems items
    let (o, fd, ts) := astonFields rest (dictSet obj f (.jarr (vals.map scalarJ)))
    (o, (f, .flist vals) :: fd, its ++ ts)
termination_by structural fs _ => fs

/-- The list-field loop: child items contribute their hash, raw items their
value; child quads are accumulated in order. -/
def astonItems : List AItem → List AScalar × List Quad
  | [] => ([], [])
  | .inode c :: rest =>
    let (ch, cts) := ast_to_aston c
    let (vs, ts) := astonItems rest
    (.astr ch :: vs, cts ++ ts)
  | .ival v :: rest =>
    let (vs, ts) := astonItems rest
    (v :: vs, ts)
termination_by structural its => its
end

/-- A node's content hash. -/
def nodeHash (n : ANode) : String := (ast_to_aston n).1

/-! ### Claim-shaped restatements of the quad layout (for the emission-order
property): a node's own quads, and the concatenated encodings of its
descendants in field order. -/

def itemVal : AItem → AScalar
  | .inode c => .astr (nodeHash c)
  | .ival v => v

def fieldOwn (h : String) : AField → List Quad
  | .scalar f v => [⟨h, f, none, v⟩]
  | .child f c => [⟨h, f, none, .astr (nodeHash c)⟩]
  | .seq f items => seqQuads h f 0 (items.map itemVal)

/-- The quads belonging to the node itself: the `_type` quad, then its
fields' quads with every child value replaced by the child's content hash,
indexed exactly at list-field positions. -/
def ownQuads (n : ANode) : List Quad :=
  match n with
  | .node ty fields =>
    ⟨nodeHash n, "_type", none, .astr ty⟩ :: (fields.map (fieldOwn (nodeHash n))).flatten

/-- The encoding quads an item contributes (a child's full encoding). -/
def itemDescFn : AItem → List Quad
  | .inode c => (ast_to_aston c).2
  | .ival _ => []

/-- The `field_data` entry a field produces. -/
def fieldEncOf : AField → FieldEnc
  | .scalar _ v => .fscalar v
  | .child _ c => .fscalar (.astr (nodeHash c))
  | .seq _ items => .flist (items.map itemVal)

def fieldDesc : AField → List Quad
  | .scalar _ _ => []
  | .child _ c => (ast_to_aston c).2
  | .seq _ items => (items.map itemDescFn).flatten

/-- The full encodings of all the node's descendants, in field order. -/
def descQuads (n : ANode) : List Quad :=
  match n with
  | .node _ fields => (fields.map fieldDesc).flatten

/-! ### Structural identity (the relation of the purely-structural-hash
property): same type label, same field names, equal scalar values, and
recursively structurally identical children in the same order. -/

mutual
def structEqN : ANode → ANode → Bool
  | .node t1 f1, .node t2 f2 => t1 == t2 && structEqFs f1 f2
termination_by structural x _ => x
def structEqFs : List AField → List AField → Bool
  | [], [] => true
  | f :: fs, g :: gs => structEqF f g && structEqFs fs gs
  | _, _ => false
termination_by structural x _ => x
def structEqF : AField → AField → Bool
  | .scalar n1 v1, .scalar n2 v2 => n1 == n2 && v1 == v2
  | .child n1 c1, .child n2 c2 => n1 == n2 && structEqN c1 c2
  | .seq n1 i1, .seq n2 i2 => n1 == n2 && structEqIs i1 i2
  | _, _ => false
termination_by structural x _ => x
def structEqIs : List AItem → List AItem → Bool
  | [], [] => true
  | i :: is_, j :: js => structEqI i j && structEqIs is_ js
  | _, _ => false
termination_by structural x _ => x
def structEqI : AItem → AItem → Bool
  | .inode a, .inode b => structEqN a b
  | .ival a, .ival b => a == b
  | _, _ => false
termination_by structural x _ => x
end

/-! ### The decoder `aston_read`

Modelled from the spec: `aston_read` is code of this repository that is not
under `src/` (the fuzz test imports it from `aston.py`, where it is absent).
Spec §4.2: "group quads by `node_hash`, infer each field's shape from whether
indices are present, and resolve child references transitively. Decoding
fails loudly with `SchemaError` if a referenced child hash is missing from
the quad set — partial reconstruction is not permitted."  A value is a child
reference when it has the shape of a content hash — per spec §6 "content
hashes are always exactly 64 lowercase hex characters". -/

def isHexChar (c : Char) : Bool :=
  (('0' ≤ c) && (c ≤ '9')) || (('a' ≤ c) && (c ≤ 'f'))

/-- Whether a quad value has the shape of a content hash (a child reference). -/
def isHashRef : AScalar → Bool
  | .astr s => s.data.length == 64 && s.data.all isHexChar
  | _ => false

/-- The quads of one node: group by `node_hash`. -/
def groupOf (qs : List Quad) (h : String) : List Quad := qs.filter fun q => q.h == h

/-- The field keys of a group in first-occurrence (emission) order. -/
def groupKeys (g : List Quad) : List String :=
  ((g.map Quad.key).dedup).filter fun k => k ≠ "_type"

/-- Rebuild one field from its quads; `rec` resolves child references. -/
def buildField (rec : String → Except String ANode) (k : String) (fq : List Quad) :
    Except String AField :=
  if fq.all fun q => q.idx = none then
    match fq with
    | [q] =>
      match q.val with
      | .astr s =>
        if isHashRef (.astr s) then (rec s).map fun c => .child k c
        else pure (.scalar k (.astr s))
      | v => pure (.scalar k v)
    | _ => .error "SchemaError: malformed scalar field"
  else
    (buildItems rec fq 0 fq.length).map fun items => .seq k items
where
  /-- Rebuild the positions `i, i+1, ...` of a sequence field (`n` of them). -/
  buildItems (rec : String → Except String ANode) (fq : List Quad) :
      Nat → Nat → Except String (List AItem)
    | _, 0 => pure []
    | i, n + 1 =>
      match fq.find? fun q => q.idx == some i with
      | none => .error "SchemaError: missing sequence index"
      | some q =>
        match q.val with
        | .astr s =>
          if isHashRef (.astr s) then do
            let c ← rec s
            let rest ← buildItems rec fq (i + 1) n
            pure (.inode c :: rest)
          else do
            let rest ← buildItems rec fq (i + 1) n
            pure (.ival (.astr s) :: rest)
        | v => do
          let rest ← buildItems rec fq (i + 1) n
          pure (.ival v :: rest)

/-- Rebuild the fields named by `ks` from the group `g`. -/
def buildFields (rec : String → Except String ANode) (g : List Quad) :
    List String → Except String (List AField)
  | [] => pure []
  | k :: rest => do
    let f ← buildField rec k (g.filter fun q => q.key == k)
    let fs ← buildFields rec g rest
    pure (f :: fs)

/-- Rebuild the node with hash `h` from the quad set, recursion bounded by
fuel (structural, so one fuel unit per tree level). -/
def buildNode (qs : List Quad) : Nat → String → Except String ANode
  | 0, h => .error ("SchemaError: missing node " ++ h)
  | fuel + 1, h =>
    let g := groupOf qs h
    match g.find? fun q => q.key == "_type" && q.idx == none with
    | none => .error ("SchemaError: missing node " ++ h)
    | some tq =>
      match tq.val with
      | .astr ty =>
        (buildFields (buildNode qs fuel) g (groupKeys g)).map fun fields => .node ty fields
      | _ => .error "SchemaError: malformed type quad"

/-- Modelled from the spec: the decoder `aston_read` (absent from `src/`).
Deduplicates the quad sequence into a quad set, takes the root from the last
quad (root quads come last), and rebuilds the tree, failing with a
`SchemaError` message whenever a referenced child hash has no quads. -/
def aston_read (quads : List Quad) : Except String ANode :=
  match quads.getLast? with
  | none => .error "SchemaError: empty quad sequence"
  | some q => buildNode quads.dedup quads.length q.h

/-! ### Side conditions for the round trip (decidable per concrete tree) -/

mutual
/-- Well-formed trees: duplicate-free field names, no field named `_type`,
no empty sequence field (an empty sequence emits no quads at all, so no
decoder can see it in the flat format), and no scalar string anywhere shaped
like a content hash (such a scalar would be indistinguishable from a child
reference in the flat quad format). -/
def wfN : ANode → Bool
  | .node _ fields =>
    decide ((fields.map fieldName).Nodup) &&
    (fields.map fieldName).all (fun k => k ≠ "_type") && wfFs fields
def wfFs : List AField → Bool
  | [] => true
  | .scalar _ v :: rest => !isHashRef v && wfFs rest
  | .child _ c :: rest => wfN c && wfFs rest
  | .seq _ items :: rest => !items.isEmpty && wfIs items && wfFs rest
def wfIs : List AItem → Bool
  | [] => true
  | .inode c :: rest => wfN c && wfIs rest
  | .ival v :: rest => !isHashRef v && wfIs rest
end

mutual
/-- Nesting depth of a node (1 for a leaf). -/
def depthN : ANode → Nat
  | .node _ fields => depthFs fields + 1
def depthFs : List AField → Nat
  | [] => 0
  | .scalar _ _ :: rest => depthFs rest
  | .child _ c :: rest => max (depthN c) (depthFs rest)
  | .seq _ items :: rest => max (depthIs items) (depthFs rest)
def depthIs : List AItem → Nat
  | [] => 0
  | .inode c :: rest => max (depthN c) (depthIs rest)
  | .ival _ :: rest => depthIs rest
end

/-- The content hashes referenced by the root's own quads (its direct
children, in field order). -/
def rootChildHashes : ANode → List String
  | .node _ fields =>
    (fields.map fun f =>
      match f with
      | .child _ c => [nodeHash c]
      | .seq _ items =>
        (items.map fun it =>
          match it with
          | .inode c => [nodeHash c]
          | .ival _ => []).flatten
      | .scalar _ _ => []).flatten

/-- A quad list that interleaves copies of a fixed block `B` (all of whose
quads carry the target hash) with segments free of the target hash. -/
inductive SegList (tgt : String) (B : List Quad) : List Quad → Prop where
  | nil : SegList tgt B []
  | seg (A L) : (∀ q ∈ A, q.h ≠ tgt) → SegList tgt B L → SegList tgt B (A ++ L)
  | block (L) : SegList tgt B L → SegList tgt B (B ++ L)

/-- Concatenations of copies of a fixed block. -/
inductive Reps (B : List Quad) : List Quad → Prop where
  | nil : Reps B []
  | block (L) : Reps B L → Reps B (B ++ L)

mutual
/-- All subtrees of a node (the node itself included). -/
def subtreesN (n : ANode) : List ANode :=
  match n with
  | .node _ fields => n :: subtreesFs fields
def subtreesFs : List AField → List ANode
  | [] => []
  | .scalar _ _ :: rest => subtreesFs rest
  | .child _ c :: rest => subtreesN c ++ subtreesFs rest
  | .seq _ items :: rest => subtreesIs items ++ subtreesFs rest
def subtreesIs : List AItem → List ANode
  | [] => []
  | .inode c :: rest => subtreesN c ++ subtreesIs rest
  | .ival _ :: rest => subtreesIs rest
end

def pairwiseB {α : Type} (p : α → α → Bool) : List α → Bool
  | [] => true
  | x :: rest => rest.all (p x) && pairwiseB p rest

/-- SHA-256 collision-freeness on the tree's subtrees: structurally distinct
subtrees have distinct content hashes (decidable for a concrete tree; with a
real hash function this cannot hold universally, and decoding actually
depends on it). -/
def collisionFree (t : ANode) : Bool :=
  pairwiseB (fun a b => !(nodeHash a == nodeHash b) || structEqN a b) (subtreesN t)

/-! ## Theorems

### Decimal rendering is injective -/

theorem coreR_small {n : Nat} (h : n < 10) : coreR n = [digitChar n] := by
  rw [coreR, dif_pos h]

theorem coreR_big {n : Nat} (h : ¬ n < 10) :
    coreR n = digitChar (n % 10) :: coreR (n / 10) := by
  conv_lhs => rw [coreR]
  rw [dif_neg h]

theorem natStrGo_eq (fuel : Nat) :
    ∀ n acc, n < fuel → natStrGo fuel n acc = (coreR n).reverse ++ acc := by
  induction fuel with
  | zero => intro n acc h; omega
  | succ fuel ih =>
    intro n acc h
    by_cases h10 : n < 10
    · rw [natStrGo, if_pos h10, coreR_small h10]
      rfl
    · have hdiv : n / 10 < n :=
        Nat.div_lt_self (by omega) (by norm_num)
      rw [natStrGo, if_neg h10, ih _ _ (by omega), coreR_big h10]
      simp

theorem coreR_ne_nil (n : Nat) : coreR n ≠ [] := by
  by_cases h : n < 10
  · rw [coreR_small h]; simp
  · rw [coreR_big h]; simp

theorem digitChar_inj : ∀ a < 10, ∀ b < 10, digitChar a = digitChar b → a = b := by decide

theorem coreR_inj : ∀ n m : Nat, coreR n = coreR m → n = m := by
  intro n
  induction n using Nat.strong_induction_on with
  | _ n ih =>
    intro m h
    by_cases hn : n < 10 <;> by_cases hm : m < 10
    · rw [coreR_small hn, coreR_small hm] at h
      exact digitChar_inj n hn m hm (List.cons.injEq .. ▸ h).1
    · rw [coreR_small hn, coreR_big hm] at h
      exact absurd ((List.cons.injEq .. ▸ h).2).symm (coreR_ne_nil _)
    · rw [coreR_big hn, coreR_small hm] at h
      exact absurd ((List.cons.injEq .. ▸ h).2) (coreR_ne_nil _)
    · rw [coreR_big hn, coreR_big hm] at h
      have h1 := digitChar_inj (n % 10) (Nat.mod_lt _ (by norm_num)) (m % 10)
        (Nat.mod_lt _ (by norm_num)) (List.cons.injEq .. ▸ h).1
      have h2 := ih (n / 10) (Nat.div_lt_self (by omega) (by norm_num))
        (m / 10) ((List.cons.injEq .. ▸ h).2)
      omega

theorem natStr_inj {n m : Nat} (h : natStr n = natStr m) : n = m := by
  have h2 := congrArg String.data h
  rw [natStr, natStr] at h2
  simp only [String.data] at h2
  rw [natStrGo_eq _ _ _ (by omega), natStrGo_eq _ _ _ (by omega)] at h2
  simp only [List.append_nil] at h2
  exact coreR_inj _ _ (List.reverse_injective h2)

theorem ouv_inj {i j : Nat} (h : ouv i = ouv j) : i = j := by
  have h2 := congrArg String.data h
  rw [ouv, ouv, String.data_append, String.data_append] at h2
  exact natStr_inj (congrArg String.mk (List.append_cancel_left h2))

/-! ### Dictionary lemmas -/

theorem dlookup_dictSet_self {β : Type} (d : List (String × β)) (k : String) (v : β) :
    dlookup (dictSet d k v) k = some v := by
  induction d with
  | nil => simp [dictSet, dlookup]
  | cons p rest ih =>
    obtain ⟨k', v'⟩ := p
    rw [dictSet]
    by_cases h : k' = k
    · rw [if_pos h, dlookup, if_pos rfl]
    · rw [if_neg h, dlookup, if_neg h]
      exact ih

theorem dlookup_dictSet_ne {β : Type} (d : List (String × β)) (k k' : String) (v : β)
    (h : k ≠ k') : dlookup (dictSet d k v) k' = dlookup d k' := by
  induction d with
  | nil => simp [dictSet, dlookup, h]
  | cons p rest ih =>
    obtain ⟨k0, v0⟩ := p
    rw [dictSet]
    by_cases hp : k0 = k
    · rw [if_pos hp, dlookup, if_neg h, dlookup, hp, if_neg h]
    · rw [if_neg hp, dlookup, dlookup]
      by_cases hp' : k0 = k'
      · rw [if_pos hp', if_pos hp']
      · rw [if_neg hp', if_neg hp']
        exact ih

theorem dictSet_dictSet_same {β : Type} (d : List (String × β)) (k : String) (v : β) :
    dictSet (dictSet d k v) k v = dictSet d k v := by
  induction d with
  | nil => simp [dictSet]
  | cons p rest ih =>
    obtain ⟨k0, v0⟩ := p
    rw [dictSet]
    by_cases h : k0 = k
    · rw [if_pos h, dictSet, if_pos rfl]
    · rw [if_neg h, dictSet, if_neg h, ih]

theorem filter_key_nil {β : Type} (s : List (String × β)) (k : String)
    (h : k ∉ s.map Prod.fst) : s.filter (fun p => p.1 == k) = [] := by
  induction s with
  | nil => rfl
  | cons p rest ih =>
    simp only [List.map_cons, List.mem_cons] at h
    push_neg at h
    rw [List.filter_cons_of_neg, ih h.2]
    simp only [beq_iff_eq]
    exact fun hc => h.1 hc.symm

theorem dictSet_filter_self {β : Type} (s : List (String × β)) (k : String) (v : β)
    (hnd : (s.map Prod.fst).Nodup) :
    (dictSet s k v).filter (fun p => p.1 == k) = [(k, v)] := by
  induction s with
  | nil => simp [dictSet]
  | cons p rest ih =>
    obtain ⟨k0, v0⟩ := p
    simp only [List.map_cons, List.nodup_cons] at hnd
    rw [dictSet]
    by_cases h : k0 = k
    · rw [if_pos h, List.filter_cons_of_pos (by simp), filter_key_nil rest k (h ▸ hnd.1)]
    · rw [if_neg h, List.filter_cons_of_neg (by simp [h]), ih hnd.2]

/-! ### C8 and C9: `save_function` -/

/-- C8: calling `save_function` twice with identical arguments leaves exactly
one stored record for the hash, and the second call is a no-op: the store
after the second call is identical (hence the record's content is
byte-identical to its content after the first call), never an error. -/
theorem C8_save_idempotent (fs : Store) (hash_value lang normalized_code docstring : String)
    (name_mapping alias_mapping : List (String × String))
    (hnd : (fs.map Prod.fst).Nodup) :
    save_function (save_function fs hash_value lang normalized_code docstring
        name_mapping alias_mapping) hash_value lang normalized_code docstring
      name_mapping alias_mapping =
      save_function fs hash_value lang normalized_code docstring
        name_mapping alias_mapping ∧
    ((save_function fs hash_value lang normalized_code docstring
        name_mapping alias_mapping).filter
      fun p => p.1 == jsonPath hash_value).length = 1 := by
  cases hd : dlookup fs (jsonPath hash_value) with
  | none =>
    constructor
    · simp only [save_function, hd, dlookup_dictSet_self, dictSet_dictSet_same,
        dictSet_dictSet_same]
    · simp only [save_function, hd]
      rw [dictSet_filter_self _ _ _ hnd]
      rfl
  | some d0 =>
    constructor
    · simp only [save_function, hd, dlookup_dictSet_self, dictSet_dictSet_same,
        dictSet_dictSet_same]
    · simp only [save_function, hd]
      rw [dictSet_filter_self _ _ _ hnd]
      rfl

/-- C8 witness. -/
theorem C8_save_idempotent_witness :
    save_function (save_function [] "ab12" "eng" "code" "doc" [] [])
        "ab12" "eng" "code" "doc" [] [] =
      save_function [] "ab12" "eng" "code" "doc" [] [] ∧
    ((save_function [] "ab12" "eng" "code" "doc" [] []).filter
      fun p => p.1 == jsonPath "ab12").length = 1 :=
  C8_save_idempotent [] "ab12" "eng" "code" "doc" [] [] (by decide)

/-- C9: when a record already exists for the hash, `save_function` keeps the
stored `version`, `hash` and `normalized_code` (its `normalized_code`
argument is ignored), and the docstring, name-mapping and alias-mapping
entries of every other language are unchanged. -/
theorem C9_save_frame (fs : Store) (h lang code doc : String)
    (nm am : List (String × String)) (d0 : StoredData)
    (hd : dlookup fs (jsonPath h) = some d0) :
    ∃ d', dlookup (save_function fs h lang code doc nm am) (jsonPath h) = some d' ∧
      d'.version = d0.version ∧ d'.hash = d0.hash ∧
      d'.normalized_code = d0.normalized_code ∧
      (∀ l, l ≠ lang →
        dlookup d'.docstrings l = dlookup d0.docstrings l ∧
        dlookup d'.name_mappings l = dlookup d0.name_mappings l ∧
        dlookup d'.alias_mappings l = dlookup d0.alias_mappings l) ∧
      (∀ code2, save_function fs h lang code2 doc nm am =
        save_function fs h lang code doc nm am) := by
  refine ⟨{ d0 with
      docstrings := dictSet d0.docstrings lang doc
      name_mappings := dictSet d0.name_mappings lang nm
      alias_mappings := dictSet d0.alias_mappings lang am }, ?_, rfl, rfl, rfl, ?_, ?_⟩
  · simp only [save_function, hd, dlookup_dictSet_self]
  · intro l hl
    exact ⟨dlookup_dictSet_ne _ _ _ _ (Ne.symm hl),
      dlookup_dictSet_ne _ _ _ _ (Ne.symm hl),
      dlookup_dictSet_ne _ _ _ _ (Ne.symm hl)⟩
  · intro code2
    simp only [save_function, hd]

/-- C9 witness. -/
theorem C9_save_frame_witness :
    ∃ d', dlookup (save_function [(jsonPath "ab12",
        { version := 0, hash := "ab12", normalized_code := "orig",
          docstrings := [("spa", "d")], name_mappings := [("spa", [])],
          alias_mappings := [("spa", [])] })] "ab12" "eng" "new" "doc" [] [])
        (jsonPath "ab12") = some d' ∧
      d'.version = 0 ∧ d'.hash = "ab12" ∧ d'.normalized_code = "orig" ∧
      (∀ l, l ≠ "eng" →
        dlookup d'.docstrings l = dlookup [("spa", "d")] l ∧
        dlookup d'.name_mappings l = dlookup [("spa", ([] : List (String × String)))] l ∧
        dlookup d'.alias_mappings l = dlookup [("spa", ([] : List (String × String)))] l) ∧
      (∀ code2, save_function [(jsonPath "ab12",
        { version := 0, hash := "ab12", normalized_code := "orig",
          docstrings := [("spa", "d")], name_mappings := [("spa", [])],
          alias_mappings := [("spa", [])] })] "ab12" "eng" code2 "doc" [] [] =
        save_function [(jsonPath "ab12",
        { version := 0, hash := "ab12", normalized_code := "orig",
          docstrings := [("spa", "d")], name_mappings := [("spa", [])],
          alias_mappings := [("spa", [])] })] "ab12" "eng" "new" "doc" [] []) :=
  C9_save_frame [(jsonPath "ab12",
        { version := 0, hash := "ab12", normalized_code := "orig",
          docstrings := [("spa", "d")], name_mappings := [("spa", [])],
          alias_mappings := [("spa", [])] })] "ab12" "eng" "new" "doc" [] []
    { version := 0, hash := "ab12", normalized_code := "orig",
      docstrings := [("spa", "d")], name_mappings := [("spa", [])],
      alias_mappings := [("spa", [])] } (by rfl)

/-! ### C6: language-code validation in `add_function` -/

/-- C6 counterexample: the language code `"engl"` has length 4, inside the
3–256 range the claim asserts is accepted, the file exists and parses to a
valid unit, yet `add_function` rejects it with the language validation
error. -/
theorem C6_counterexample :
    3 ≤ ("engl" : String).data.length ∧ ("engl" : String).data.length ≤ 256 ∧
    add_function (fun _ => some ⟨[.fndef ⟨ "f", [⟨"a"⟩], [.ret (some (.name "a"))]⟩]⟩)
      [("f.py", "def f(a): return a")] [] "f.py@engl" = .error (.badLang "engl") :=
  ⟨by decide, by decide, by rfl⟩

/-- C6 (amended): `add_function` accepts a language code if and only if its
length is exactly 3; a code of any other length is rejected with the
language validation error before any file or store access — the rejection is
the same for every `parse` front end, file table and store. -/
theorem C6_lang_validation (parse : String → Option Module)
    (files : List (String × String)) (fs : Store) (arg file_path lang : String)
    (hsplit : rsplitLast arg '@' = some (file_path, lang)) :
    (lang.data.length ≠ 3 →
      add_function parse files fs arg = .error (.badLang lang)) ∧
    (lang.data.length = 3 →
      ∀ l, add_function parse files fs arg ≠ .error (.badLang l)) := by
  constructor
  · intro hlen
    rw [add_function, hsplit]
    dsimp only
    rw [if_pos hlen]
  · intro hlen l
    rw [add_function, hsplit]
    dsimp only
    rw [if_neg (by omega)]
    cases hf : dlookup files file_path with
    | none => simp [hf]
    | some src =>
      cases hp : parse src with
      | none => simp [hf, hp]
      | some tree =>
        cases hn : normalize_ast tree lang with
        | error e => simp [hf, hp, hn]
        | ok r => simp [hf, hp, hn]

/-- C6 witness: a 2-character code is rejected, a 3-character code is never
rejected by the language check. -/
theorem C6_lang_validation_witness :
    ((("ab" : String).data.length ≠ 3 →
      add_function (fun _ => none) [] [] "f.py@ab" = .error (.badLang "ab")) ∧
    (("ab" : String).data.length = 3 →
      ∀ l, add_function (fun _ => none) [] [] "f.py@ab" ≠ .error (.badLang l))) ∧
    ((("eng" : String).data.length ≠ 3 →
      add_function (fun _ => none) [] [] "f.py@eng" = .error (.badLang "eng")) ∧
    (("eng" : String).data.length = 3 →
      ∀ l, add_function (fun _ => none) [] [] "f.py@eng" ≠ .error (.badLang l))) :=
  ⟨C6_lang_validation (fun _ => none) [] [] "f.py@ab" "f.py" "ab" (by rfl),
   C6_lang_validation (fun _ => none) [] [] "f.py@eng" "f.py" "eng" (by rfl)⟩

/-! ### Extraction lemmas (shared by C7, C2 and C1) -/

theorem countFnDefs_nil : countFnDefs [] = 0 := rfl

theorem countFnDefs_cons_fn (f : FunctionDef) (rest : List TopStmt) :
    countFnDefs (.fndef f :: rest) = countFnDefs rest + 1 := by
  simp [countFnDefs, isFnDef, List.filter_cons]

theorem countFnDefs_cons_other (t : TopStmt) (h : isFnDef t = false) (rest : List TopStmt) :
    countFnDefs (t :: rest) = countFnDefs rest := by
  simp [countFnDefs, List.filter_cons, h]

theorem countFnDefs_cons_imp (ns : List ImportAlias) (rest : List TopStmt) :
    countFnDefs (.imp ns :: rest) = countFnDefs rest :=
  countFnDefs_cons_other (.imp ns) rfl rest

theorem countFnDefs_cons_impFrom (md : Option String) (ns : List ImportAlias) (l : Nat)
    (rest : List TopStmt) :
    countFnDefs (.impFrom md ns l :: rest) = countFnDefs rest :=
  countFnDefs_cons_other (.impFrom md ns l) rfl rest

theorem countFnDefs_cons_topStm (s : Stm) (rest : List TopStmt) :
    countFnDefs (.topStm s :: rest) = countFnDefs rest :=
  countFnDefs_cons_other (.topStm s) rfl rest

theorem countFnDefs_append (a b : List TopStmt) :
    countFnDefs (a ++ b) = countFnDefs a + countFnDefs b := by
  simp [countFnDefs, List.filter_append]

theorem importsOf_cons_imp (ns : List ImportAlias) (rest : List TopStmt) :
    importsOf (.imp ns :: rest) = .imp ns :: importsOf rest := by
  simp [importsOf, List.filter_cons, isImportNode]

theorem importsOf_cons_impFrom (md : Option String) (ns : List ImportAlias) (l : Nat)
    (rest : List TopStmt) :
    importsOf (.impFrom md ns l :: rest) = .impFrom md ns l :: importsOf rest := by
  simp [importsOf, List.filter_cons, isImportNode]

theorem importsOf_cons_other (t : TopStmt) (h : isImportNode t = false)
    (rest : List TopStmt) : importsOf (t :: rest) = importsOf rest := by
  simp [importsOf, List.filter_cons, h]

theorem importsOf_cons_fndef (f : FunctionDef) (rest : List TopStmt) :
    importsOf (.fndef f :: rest) = importsOf rest :=
  importsOf_cons_other (.fndef f) rfl rest

theorem importsOf_cons_topStm (s : Stm) (rest : List TopStmt) :
    importsOf (.topStm s :: rest) = importsOf rest :=
  importsOf_cons_other (.topStm s) rfl rest

theorem extractGo_done (rest : List TopStmt) :
    ∀ acc f, countFnDefs rest = 0 →
      extractGo rest acc (some f) = .ok (f, acc ++ importsOf rest) := by
  induction rest with
  | nil => intro acc f _; simp [extractGo, importsOf]
  | cons t r ih =>
    intro acc f h
    cases t with
    | imp ns =>
      rw [extractGo, ih _ _ (by rwa [countFnDefs_cons_imp] at h),
        importsOf_cons_imp]
      simp
    | impFrom md ns l =>
      rw [extractGo, ih _ _ (by rwa [countFnDefs_cons_impFrom] at h),
        importsOf_cons_impFrom]
      simp
    | fndef g => rw [countFnDefs_cons_fn] at h; omega
    | topStm s =>
      rw [extractGo, ih _ _ (by rwa [countFnDefs_cons_topStm] at h),
        importsOf_cons_topStm]

theorem extractGo_second (rest : List TopStmt) :
    ∀ acc f, countFnDefs rest ≠ 0 →
      extractGo rest acc (some f) =
        .error "Only one function definition is allowed per file" := by
  induction rest with
  | nil => intro acc f h; exact absurd rfl h
  | cons t r ih =>
    intro acc f h
    cases t with
    | imp ns => rw [extractGo, ih _ _ (by rwa [countFnDefs_cons_imp] at h)]
    | impFrom md ns l =>
      rw [extractGo, ih _ _ (by rwa [countFnDefs_cons_impFrom] at h)]
    | fndef g => rw [extractGo]
    | topStm s => rw [extractGo, ih _ _ (by rwa [countFnDefs_cons_topStm] at h)]

theorem extractGo_none_empty (rest : List TopStmt) :
    ∀ acc, countFnDefs rest = 0 →
      extractGo rest acc none = .error "No function definition found in file" := by
  induction rest with
  | nil => intro acc _; rfl
  | cons t r ih =>
    intro acc h
    cases t with
    | imp ns => rw [extractGo, ih _ (by rwa [countFnDefs_cons_imp] at h)]
    | impFrom md ns l => rw [extractGo, ih _ (by rwa [countFnDefs_cons_impFrom] at h)]
    | fndef g => rw [countFnDefs_cons_fn] at h; omega
    | topStm s => rw [extractGo, ih _ (by rwa [countFnDefs_cons_topStm] at h)]

theorem extract_split (A : List TopStmt) :
    ∀ acc (f : FunctionDef) (B : List TopStmt), countFnDefs A = 0 → countFnDefs B = 0 →
      extractGo (A ++ .fndef f :: B) acc none =
        .ok (f, acc ++ importsOf A ++ importsOf B) := by
  induction A with
  | nil =>
    intro acc f B _ hB
    rw [List.nil_append, extractGo, extractGo_done _ _ _ hB]
    simp [importsOf]
  | cons t r ih =>
    intro acc f B hA hB
    cases t with
    | imp ns =>
      rw [countFnDefs_cons_imp] at hA
      rw [List.cons_append, extractGo, ih _ _ _ hA hB, importsOf_cons_imp]
      simp
    | impFrom md ns l =>
      rw [countFnDefs_cons_impFrom] at hA
      rw [List.cons_append, extractGo, ih _ _ _ hA hB, importsOf_cons_impFrom]
      simp
    | fndef g => rw [countFnDefs_cons_fn] at hA; omega
    | topStm s =>
      rw [countFnDefs_cons_topStm] at hA
      rw [List.cons_append, extractGo, ih _ _ _ hA hB, importsOf_cons_topStm]

theorem extract_split_err (A : List TopStmt) :
    ∀ acc (f : FunctionDef) (B : List TopStmt), countFnDefs A = 0 → countFnDefs B ≠ 0 →
      extractGo (A ++ .fndef f :: B) acc none =
        .error "Only one function definition is allowed per file" := by
  induction A with
  | nil =>
    intro acc f B _ hB
    rw [List.nil_append, extractGo, extractGo_second _ _ _ hB]
  | cons t r ih =>
    intro acc f B hA hB
    cases t with
    | imp ns =>
      rw [countFnDefs_cons_imp] at hA
      rw [List.cons_append, extractGo, ih _ _ _ hA hB]
    | impFrom md ns l =>
      rw [countFnDefs_cons_impFrom] at hA
      rw [List.cons_append, extractGo, ih _ _ _ hA hB]
    | fndef g => rw [countFnDefs_cons_fn] at hA; omega
    | topStm s =>
      rw [countFnDefs_cons_topStm] at hA
      rw [List.cons_append, extractGo, ih _ _ _ hA hB]

theorem count_pos_split (body : List TopStmt) (h : countFnDefs body ≠ 0) :
    ∃ A f B, body = A ++ .fndef f :: B ∧ countFnDefs A = 0 ∧
      countFnDefs B + 1 = countFnDefs body := by
  induction body with
  | nil => exact absurd rfl h
  | cons t r ih =>
    cases ht : isFnDef t with
    | true =>
      cases t with
      | fndef g => exact ⟨[], g, r, rfl, rfl, (countFnDefs_cons_fn g r).symm⟩
      | imp ns => simp [isFnDef] at ht
      | impFrom md ns l => simp [isFnDef] at ht
      | topStm s => simp [isFnDef] at ht
    | false =>
      rw [countFnDefs_cons_other _ ht] at h
      obtain ⟨A, f, B, hb, hA, hB⟩ := ih h
      exact ⟨t :: A, f, B, by rw [hb, List.cons_append],
        by rw [countFnDefs_cons_other t ht]; exact hA,
        by rw [countFnDefs_cons_other t ht]; exact hB⟩

theorem fnDefsOf_nil_iff (body : List TopStmt) :
    fnDefsOf body = [] ↔ countFnDefs body = 0 := by
  induction body with
  | nil => simp [fnDefsOf, countFnDefs]
  | cons t r ih =>
    cases t with
    | fndef g => simp [fnDefsOf, countFnDefs_cons_fn]
    | imp ns => rw [fnDefsOf, countFnDefs_cons_imp]; exact ih
    | impFrom md ns l => rw [fnDefsOf, countFnDefs_cons_impFrom]; exact ih
    | topStm s => rw [fnDefsOf, countFnDefs_cons_topStm]; exact ih

theorem fnDefsOf_single_split (body : List TopStmt) (f : FunctionDef) :
    fnDefsOf body = [f] →
      ∃ A B, body = A ++ .fndef f :: B ∧ countFnDefs A = 0 ∧ countFnDefs B = 0 := by
  induction body with
  | nil => intro h; simp [fnDefsOf] at h
  | cons t r ih =>
    intro h
    cases t with
    | fndef g =>
      rw [fnDefsOf] at h
      obtain ⟨hg, hr⟩ := List.cons.injEq .. ▸ h
      exact ⟨[], r, by simp [hg], rfl, (fnDefsOf_nil_iff r).mp hr⟩
    | imp ns =>
      obtain ⟨A, B, hb, hA, hB⟩ := ih (by rwa [fnDefsOf] at h)
      exact ⟨.imp ns :: A, B, by rw [hb, List.cons_append],
        by rw [countFnDefs_cons_imp]; exact hA, hB⟩
    | impFrom md ns l =>
      obtain ⟨A, B, hb, hA, hB⟩ := ih (by rwa [fnDefsOf] at h)
      exact ⟨.impFrom md ns l :: A, B, by rw [hb, List.cons_append],
        by rw [countFnDefs_cons_impFrom]; exact hA, hB⟩
    | topStm s =>
      obtain ⟨A, B, hb, hA, hB⟩ := ih (by rwa [fnDefsOf] at h)
      exact ⟨.topStm s :: A, B, by rw [hb, List.cons_append],
        by rw [countFnDefs_cons_topStm]; exact hA, hB⟩

theorem importsOf_append (a b : List TopStmt) :
    importsOf (a ++ b) = importsOf a ++ importsOf b := by
  simp [importsOf, List.filter_append]

theorem countFnDefs_filter_nonimport (body : List TopStmt) :
    countFnDefs (body.filter fun t => ¬ isImportNode t) = countFnDefs body := by
  induction body with
  | nil => rfl
  | cons t r ih =>
    cases t with
    | imp ns =>
      rw [List.filter_cons_of_neg (by simp [isImportNode]), countFnDefs_cons_imp]
      exact ih
    | impFrom md ns l =>
      rw [List.filter_cons_of_neg (by simp [isImportNode]), countFnDefs_cons_impFrom]
      exact ih
    | fndef f =>
      rw [List.filter_cons_of_pos (by simp [isImportNode]), countFnDefs_cons_fn,
        countFnDefs_cons_fn, ih]
    | topStm s =>
      rw [List.filter_cons_of_pos (by simp [isImportNode]), countFnDefs_cons_topStm,
        countFnDefs_cons_topStm]
      exact ih

theorem countFnDefs_imports_zero (l : List TopStmt) (h : ∀ t ∈ l, isImportNode t = true) :
    countFnDefs l = 0 := by
  induction l with
  | nil => rfl
  | cons t r ih =>
    have ht := h t (List.mem_cons_self t r)
    cases t with
    | imp ns => rw [countFnDefs_cons_imp]; exact ih fun x hx => h x (List.mem_cons_of_mem _ hx)
    | impFrom md ns lv =>
      rw [countFnDefs_cons_impFrom]
      exact ih fun x hx => h x (List.mem_cons_of_mem _ hx)
    | fndef f => simp [isFnDef, isImportNode] at ht
    | topStm s => simp [isFnDef, isImportNode] at ht

theorem countFnDefs_sort_imports (m : Module) :
    countFnDefs (sort_imports m).body = countFnDefs m.body := by
  rw [sort_imports]
  dsimp only
  rw [countFnDefs_append, countFnDefs_imports_zero, countFnDefs_filter_nonimport]
  · omega
  · intro t ht
    rw [List.mem_insertionSort] at ht
    exact List.of_mem_filter ht

theorem normalize_err_iff (tree : Module) (lang : String) :
    (∃ e, normalize_ast tree lang = .error e) ↔
      (∃ e, extract_function_def (sort_imports tree) = .error e) := by
  cases h : extract_function_def (sort_imports tree) with
  | error e =>
    exact iff_of_true ⟨e, by simp [normalize_ast, h]⟩ ⟨e, rfl⟩
  | ok p =>
    obtain ⟨f, I⟩ := p
    refine iff_of_false ?_ ?_
    · rintro ⟨e, he⟩
      rw [normalize_ast] at he
      simp only [h] at he
      exact Except.noConfusion he
    · rintro ⟨e, he⟩
      exact Except.noConfusion he

theorem extract_err_iff (m : Module) :
    (∃ e, extract_function_def m = .error e) ↔ countFnDefs m.body ≠ 1 := by
  constructor
  · intro ⟨e, he⟩ h1
    obtain ⟨A, f, B, hb, hA, hB⟩ := count_pos_split m.body (by omega)
    rw [hb, countFnDefs_append, countFnDefs_cons_fn] at h1
    rw [extract_function_def, hb, extract_split A [] f B hA (by omega)] at he
    exact absurd he (by simp)
  · intro h1
    by_cases h0 : countFnDefs m.body = 0
    · exact ⟨_, by rw [extract_function_def, extractGo_none_empty _ _ h0]⟩
    · obtain ⟨A, f, B, hb, hA, hB⟩ := count_pos_split m.body h0
      exact ⟨_, by rw [extract_function_def, hb, extract_split_err A [] f B hA (by omega)]⟩

/-! ### C7 -/

/-- C7: canonicalization fails with a validation error if and only if the
module does not contain exactly one top-level function definition (both when
none is present and when more than one is); when exactly one is present,
`extract_function_def` returns that definition together with the
module's import statements. -/
theorem C7_exactly_one_function (tree : Module) (lang : String) :
    ((∃ e, normalize_ast tree lang = .error e) ↔ countFnDefs tree.body ≠ 1) ∧
    (∀ f, fnDefsOf tree.body = [f] →
      extract_function_def tree = .ok (f, importsOf tree.body)) := by
  constructor
  · rw [normalize_err_iff, extract_err_iff, countFnDefs_sort_imports]
  · intro f hf
    obtain ⟨A, B, hb, hA, hB⟩ := fnDefsOf_single_split tree.body f hf
    rw [extract_function_def, hb, extract_split A [] f B hA hB, importsOf_append,
      importsOf_cons_fndef]
    simp

/-- C7 witness: a module with exactly one function definition and one import
extracts that definition with the import; one with none fails. -/
theorem C7_exactly_one_function_witness :
    extract_function_def ⟨[.imp [⟨"os", none⟩],
        .fndef ⟨ "f", [⟨"a"⟩], [.ret (some (.name "a"))]⟩]⟩ =
      .ok (⟨"f", [⟨"a"⟩], [.ret (some (.name "a"))]⟩, [.imp [⟨"os", none⟩]]) ∧
    (∃ e, normalize_ast ⟨[.imp [⟨"os", none⟩]]⟩ "eng" = .error e) :=
  ⟨by
    have h := (C7_exactly_one_function ⟨[.imp [⟨"os", none⟩],
        .fndef ⟨ "f", [⟨"a"⟩], [.ret (some (.name "a"))]⟩]⟩ "eng").2
      ⟨"f", [⟨"a"⟩], [.ret (some (.name "a"))]⟩ (by rfl)
    simpa [importsOf, isImportNode] using h,
   (C7_exactly_one_function ⟨[.imp [⟨"os", none⟩]]⟩ "eng").1.mpr (by decide)⟩

/-! ### The string order used by `sorted` -/

theorem strListLT_asymm : ∀ x y, strListLT x y = true → strListLT y x = false := by
  intro x
  induction x with
  | nil =>
    intro y h
    cases y with
    | nil => rfl
    | cons c zs => rfl
  | cons a xs ih =>
    intro y h
    cases y with
    | nil => simp [strListLT] at h
    | cons b ys =>
      rw [strListLT] at h ⊢
      by_cases hab : a.toNat < b.toNat
      · rw [if_neg (by omega), if_pos hab]
      · rw [if_neg hab] at h
        by_cases hba : b.toNat < a.toNat
        · rw [if_pos hba] at h
          exact absurd h (by simp)
        · rw [if_neg hba] at h
          rw [if_neg hba, if_neg hab]
          exact ih ys h

theorem strListLT_le_trans :
    ∀ x y z, strListLT y x = false → strListLT z y = false → strListLT z x = false := by
  intro x
  induction x with
  | nil =>
    intro y z _ _
    cases z with
    | nil => rfl
    | cons c zs => rfl
  | cons a xs ih =>
    intro y z h1 h2
    cases y with
    | nil => simp [strListLT] at h1
    | cons b ys =>
      cases z with
      | nil => simp [strListLT] at h2
      | cons c zs =>
        rw [strListLT] at h1 h2 ⊢
        by_cases hba : b.toNat < a.toNat
        · rw [if_pos hba] at h1
          exact absurd h1 (by simp)
        · rw [if_neg hba] at h1
          by_cases hcb : c.toNat < b.toNat
          · rw [if_pos hcb] at h2
            exact absurd h2 (by simp)
          · rw [if_neg hcb] at h2
            by_cases hca : c.toNat < a.toNat
            · omega
            · rw [if_neg hca]
              by_cases hac : a.toNat < c.toNat
              · rw [if_pos hac]
              · rw [if_neg hac]
                have hab : ¬ a.toNat < b.toNat := by omega
                have hbc : ¬ b.toNat < c.toNat := by omega
                rw [if_neg hab] at h1
                rw [if_neg hbc] at h2
                exact ih ys zs h1 h2

theorem strOrd_total (a b : String) : strOrd a b ∨ strOrd b a := by
  rw [strOrd, strOrd, strLE, strLE]
  cases h : strLT b a
  · left; rfl
  · right
    rw [strLT] at h ⊢
    rw [strListLT_asymm _ _ h]
    rfl

theorem strOrd_trans (a b c : String) (h1 : strOrd a b) (h2 : strOrd b c) : strOrd a c := by
  rw [strOrd, strLE] at h1 h2 ⊢
  rw [strLT] at h1 h2 ⊢
  simp only [Bool.not_eq_true'] at h1 h2 ⊢
  exact strListLT_le_trans a.data b.data c.data h1 h2

instance : IsTotal String strOrd := ⟨strOrd_total⟩

instance : IsTrans String strOrd := ⟨strOrd_trans⟩

/-! ### `numberFrom` lookup lemmas -/

theorem numberFrom_lookup_inv : ∀ (L : List String) (i : Nat) (k v : String),
    dlookup (numberFrom i L) k = some v →
      ∃ j, ∃ hj : j < L.length, k = L.get ⟨j, hj⟩ ∧ v = ouv (i + j) := by
  intro L
  induction L with
  | nil => intro i k v h; simp [numberFrom, dlookup] at h
  | cons a rest ih =>
    intro i k v h
    rw [numberFrom, dlookup] at h
    by_cases ha : a = k
    · rw [if_pos ha] at h
      exact ⟨0, by simp, by simp [ha.symm], by simpa using (Option.some.injEq .. ▸ h).symm⟩
    · rw [if_neg ha] at h
      obtain ⟨j, hj, hk, hv⟩ := ih (i + 1) k v h
      exact ⟨j + 1, by simpa using hj, by simpa using hk, by rw [hv]; congr 1; omega⟩

theorem numberFrom_lookup_get (L : List String) (hnd : L.Nodup) :
    ∀ (i : Nat) (j : Nat) (hj : j < L.length),
      dlookup (numberFrom i L) (L.get ⟨j, hj⟩) = some (ouv (i + j)) := by
  induction L with
  | nil => intro i j hj; simp at hj
  | cons a rest ih =>
    intro i j hj
    rw [numberFrom, dlookup]
    match j with
    | 0 =>
      rw [if_pos (by simp), Nat.add_zero]
    | j' + 1 =>
      have hmem : rest.get ⟨j', by simpa using hj⟩ ∈ rest := List.get_mem ..
      rw [List.nodup_cons] at hnd
      rw [if_neg ?_]
      · have := ih hnd.2 (i + 1) j' (by simpa using hj)
        simp only [List.get_cons_succ]
        rw [this]
        congr 2
        omega
      · simp only [List.get_cons_succ]
        exact fun hc => hnd.1 (hc ▸ hmem)

theorem numberFrom_swap_lookup_inv : ∀ (L : List String) (i : Nat) (v x : String),
    dlookup ((numberFrom i L).map (fun p => (p.2, p.1))) v = some x →
      ∃ j, ∃ hj : j < L.length, v = ouv (i + j) ∧ x = L.get ⟨j, hj⟩ := by
  intro L
  induction L with
  | nil => intro i v x h; simp [numberFrom, dlookup] at h
  | cons a rest ih =>
    intro i v x h
    rw [numberFrom, List.map_cons, dlookup] at h
    by_cases ha : ouv i = v
    · rw [if_pos ha] at h
      exact ⟨0, by simp, by simpa using ha.symm,
        by simpa using (Option.some.injEq .. ▸ h).symm⟩
    · rw [if_neg ha] at h
      obtain ⟨j, hj, hv, hx⟩ := ih (i + 1) v x h
      exact ⟨j + 1, by simpa using hj, by rw [hv]; congr 1; omega, by simpa using hx⟩

theorem numberFrom_swap_lookup_get (L : List String) :
    ∀ (i : Nat) (j : Nat) (hj : j < L.length),
      dlookup ((numberFrom i L).map (fun p => (p.2, p.1))) (ouv (i + j)) =
        some (L.get ⟨j, hj⟩) := by
  induction L with
  | nil => intro i j hj; simp at hj
  | cons a rest ih =>
    intro i j hj
    rw [numberFrom, List.map_cons, dlookup]
    match j with
    | 0 => rw [if_pos (by rw [Nat.add_zero])]; simp
    | j' + 1 =>
      rw [if_neg ?_]
      · have := ih (i + 1) j' (by simpa using hj)
        simp only [List.get_cons_succ]
        rw [show i + (j' + 1) = i + 1 + j' by omega]
        exact this
      · intro hc
        have := ouv_inj hc
        omega

theorem sortedLocals_nodup (f : FunctionDef) (imps : List TopStmt) (al : List String) :
    (sortedLocals f imps al).Nodup :=
  (List.perm_insertionSort strOrd _).nodup_iff.mpr (List.nodup_dedup _)

theorem sortedLocals_not_fname (f : FunctionDef) (imps : List TopStmt) (al : List String) :
    f.name ∉ sortedLocals f imps al := by
  intro h
  rw [sortedLocals, List.mem_insertionSort, List.mem_dedup] at h
  have := List.of_mem_filter h
  simp at this

theorem sortedLocals_sorted (f : FunctionDef) (imps : List TopStmt) (al : List String) :
    List.Sorted strOrd (sortedLocals f imps al) :=
  List.sorted_insertionSort strOrd _

/-! ### C10 -/

/-- C10: the mappings returned by `create_name_mapping` are exact mutual
inverses: the forward mapping sends the function name to `_ouverture_v_0`,
assigns the remaining collected names the designators `_ouverture_v_1` …
`_ouverture_v_n` in ascending sorted order of the original names, is
injective, and the reverse mapping inverts it on every mapped name (in both
directions). -/
theorem C10_name_mapping (f : FunctionDef) (imps : List TopStmt) (al : List String) :
    dlookup (create_name_mapping f imps al).1 f.name = some (ouv 0) ∧
    List.Sorted strOrd (sortedLocals f imps al) ∧
    (∀ j (hj : j < (sortedLocals f imps al).length),
      dlookup (create_name_mapping f imps al).1 ((sortedLocals f imps al).get ⟨j, hj⟩) =
        some (ouv (j + 1))) ∧
    (∀ a b v, dlookup (create_name_mapping f imps al).1 a = some v →
      dlookup (create_name_mapping f imps al).1 b = some v → a = b) ∧
    (∀ x v, dlookup (create_name_mapping f imps al).1 x = some v →
      dlookup (create_name_mapping f imps al).2 v = some x) ∧
    (∀ v x, dlookup (create_name_mapping f imps al).2 v = some x →
      dlookup (create_name_mapping f imps al).1 x = some v) := by
  have hnd := sortedLocals_nodup f imps al
  have hnf := sortedLocals_not_fname f imps al
  have fwdChar : ∀ k v, dlookup (create_name_mapping f imps al).1 k = some v →
      (k = f.name ∧ v = ouv 0) ∨
      ∃ j, ∃ hj : j < (sortedLocals f imps al).length,
        k = (sortedLocals f imps al).get ⟨j, hj⟩ ∧ v = ouv (1 + j) := by
    intro k v h
    rw [create_name_mapping] at h
    dsimp only at h
    rw [dlookup] at h
    by_cases hk : f.name = k
    · rw [if_pos hk] at h
      exact Or.inl ⟨hk.symm, by simpa using (Option.some.injEq .. ▸ h).symm⟩
    · rw [if_neg hk] at h
      exact Or.inr (numberFrom_lookup_inv _ 1 k v h)
  refine ⟨?_, sortedLocals_sorted f imps al, ?_, ?_, ?_, ?_⟩
  · rw [create_name_mapping]
    dsimp only
    rw [dlookup, if_pos rfl]
  · intro j hj
    have hne : f.name ≠ (sortedLocals f imps al).get ⟨j, hj⟩ :=
      fun hc => hnf (hc ▸ List.get_mem ..)
    rw [create_name_mapping]
    dsimp only
    rw [dlookup, if_neg hne, numberFrom_lookup_get _ hnd 1 j hj]
    congr 2
    omega
  · intro a b v ha hb
    rcases fwdChar a v ha with ⟨hka, hva⟩ | ⟨j1, hj1, hka, hva⟩ <;>
      rcases fwdChar b v hb with ⟨hkb, hvb⟩ | ⟨j2, hj2, hkb, hvb⟩
    · rw [hka, hkb]
    · exact absurd (ouv_inj (hva.symm.trans hvb)) (by omega)
    · exact absurd (ouv_inj (hva.symm.trans hvb)) (by omega)
    · have : j1 = j2 := by have := ouv_inj (hva.symm.trans hvb); omega
      subst this
      rw [hka, hkb]
  · intro x v h
    rcases fwdChar x v h with ⟨hk, hv⟩ | ⟨j, hj, hk, hv⟩
    · rw [hk, hv, create_name_mapping]
      dsimp only
      rw [dlookup, if_pos rfl]
    · rw [hk, hv, create_name_mapping]
      dsimp only
      rw [dlookup, if_neg (fun hc => by have := ouv_inj hc; omega),
        numberFrom_swap_lookup_get _ 1 j hj]
  · intro v x h
    rw [create_name_mapping] at h
    dsimp only at h
    rw [dlookup] at h
    by_cases hv : ouv 0 = v
    · rw [if_pos hv] at h
      have hx : x = f.name := by simpa using (Option.some.injEq .. ▸ h).symm
      rw [hx, ← hv, create_name_mapping]
      dsimp only
      rw [dlookup, if_pos rfl]
    · rw [if_neg hv] at h
      obtain ⟨j, hj, hvv, hx⟩ := numberFrom_swap_lookup_inv _ 1 v x h
      have hne : f.name ≠ (sortedLocals f imps al).get ⟨j, hj⟩ :=
        fun hc => hnf (hc ▸ List.get_mem ..)
      rw [hx, hvv, create_name_mapping]
      dsimp only
      rw [dlookup, if_neg hne, numberFrom_lookup_get _ hnd 1 j hj]

/-- C10 witness: on `def f(b, a): return a + b` the forward mapping sends
`f` to `_ouverture_v_0`, the sorted locals `a`, `b` to `_ouverture_v_1`,
`_ouverture_v_2`, and the reverse mapping inverts the forward one. -/
theorem C10_name_mapping_witness :
    dlookup (create_name_mapping ⟨"f", [⟨"b"⟩, ⟨"a"⟩],
        [.ret (some (.binop (.name "a") "+" (.name "b")))]⟩ [] []).1 "f" =
      some (ouv 0) ∧
    (∀ x v, dlookup (create_name_mapping ⟨"f", [⟨"b"⟩, ⟨"a"⟩],
        [.ret (some (.binop (.name "a") "+" (.name "b")))]⟩ [] []).1 x = some v →
      dlookup (create_name_mapping ⟨"f", [⟨"b"⟩, ⟨"a"⟩],
        [.ret (some (.binop (.name "a") "+" (.name "b")))]⟩ [] []).2 v = some x) ∧
    dlookup (create_name_mapping ⟨"f", [⟨"b"⟩, ⟨"a"⟩],
        [.ret (some (.binop (.name "a") "+" (.name "b")))]⟩ [] []).1 "a" =
      some "_ouverture_v_1" ∧
    dlookup (create_name_mapping ⟨"f", [⟨"b"⟩, ⟨"a"⟩],
        [.ret (some (.binop (.name "a") "+" (.name "b")))]⟩ [] []).1 "b" =
      some "_ouverture_v_2" := by
  refine ⟨(C10_name_mapping ⟨"f", [⟨"b"⟩, ⟨"a"⟩],
      [.ret (some (.binop (.name "a") "+" (.name "b")))]⟩ [] []).1,
    (C10_name_mapping ⟨"f", [⟨"b"⟩, ⟨"a"⟩],
      [.ret (some (.binop (.name "a") "+" (.name "b")))]⟩ [] []).2.2.2.2.1, ?_, ?_⟩
  · have h := (C10_name_mapping ⟨"f", [⟨"b"⟩, ⟨"a"⟩],
      [.ret (some (.binop (.name "a") "+" (.name "b")))]⟩ [] []).2.2.1 0 (by decide)
    exact (by decide : (sortedLocals ⟨"f", [⟨"b"⟩, ⟨"a"⟩],
      [.ret (some (.binop (.name "a") "+" (.name "b")))]⟩ [] []).get ⟨0, by decide⟩ = "a") ▸
        (by decide : ouv (0 + 1) = "_ouverture_v_1") ▸ h
  · have h := (C10_name_mapping ⟨"f", [⟨"b"⟩, ⟨"a"⟩],
      [.ret (some (.binop (.name "a") "+" (.name "b")))]⟩ [] []).2.2.1 1 (by decide)
    exact (by decide : (sortedLocals ⟨"f", [⟨"b"⟩, ⟨"a"⟩],
      [.ret (some (.binop (.name "a") "+" (.name "b")))]⟩ [] []).get ⟨1, by decide⟩ = "b") ▸
        (by decide : ouv (1 + 1) = "_ouverture_v_2") ▸ h

/-! ### Pipeline evaluation lemmas (shared by C2 and C1) -/

theorem importsOf_filter_nonimport (l : List TopStmt) :
    importsOf (l.filter fun t => ¬ isImportNode t) = [] := by
  induction l with
  | nil => rfl
  | cons t r ih =>
    by_cases h : isImportNode t
    · rw [List.filter_cons_of_neg (by simp [h])]
      exact ih
    · rw [List.filter_cons_of_pos (by simp [h]), importsOf_cons_other t (by simpa using h)]
      exact ih

theorem importsOf_all (l : List TopStmt) (h : ∀ t ∈ l, isImportNode t = true) :
    importsOf l = l :=
  List.filter_eq_self.mpr h

theorem sortedImportsOf_decomp (pre post : List TopStmt) (f : FunctionDef) :
    sortedImportsOf ⟨pre ++ .fndef f :: post⟩ =
      List.insertionSort (fun a b => keyLE (import_key a) (import_key b))
        (importsOf pre ++ importsOf post) := by
  rw [sortedImportsOf]
  congr 1
  show (pre ++ TopStmt.fndef f :: post).filter isImportNode = _
  rw [List.filter_append, List.filter_cons_of_neg (by simp [isImportNode])]
  rfl

theorem extract_sorted_decomp (pre post : List TopStmt) (f : FunctionDef)
    (hpre : countFnDefs pre = 0) (hpost : countFnDefs post = 0) :
    extract_function_def (sort_imports ⟨pre ++ .fndef f :: post⟩) =
      .ok (f, sortedImportsOf ⟨pre ++ .fndef f :: post⟩) := by
  have hIs : ∀ t ∈ List.insertionSort (fun a b => keyLE (import_key a) (import_key b))
      ((pre ++ TopStmt.fndef f :: post).filter isImportNode), isImportNode t = true := by
    intro t ht
    rw [List.mem_insertionSort] at ht
    exact List.of_mem_filter ht
  have hfilt : (pre ++ TopStmt.fndef f :: post).filter (fun t => ¬ isImportNode t) =
      pre.filter (fun t => ¬ isImportNode t) ++
        .fndef f :: post.filter (fun t => ¬ isImportNode t) := by
    rw [List.filter_append, List.filter_cons_of_pos (by simp [isImportNode])]
  rw [extract_function_def, sort_imports]
  dsimp only
  rw [hfilt, ← List.append_assoc,
    extract_split _ [] f _
      (by rw [countFnDefs_append, countFnDefs_filter_nonimport, hpre,
        countFnDefs_imports_zero _ hIs])
      (by rw [countFnDefs_filter_nonimport]; exact hpost),
    List.nil_append, importsOf_append, importsOf_filter_nonimport pre,
    importsOf_filter_nonimport post, List.append_nil, List.append_nil,
    importsOf_all _ hIs]
  rfl

theorem normalize_ok_decomp (pre post : List TopStmt) (f : FunctionDef) (lang : String)
    (hpre : countFnDefs pre = 0) (hpost : countFnDefs post = 0) :
    normalize_ast ⟨pre ++ .fndef f :: post⟩ lang =
      .ok (normCore f (sortedImportsOf ⟨pre ++ .fndef f :: post⟩)) := by
  rw [normalize_ast]
  simp only [extract_sorted_decomp pre post f hpre hpost]

theorem normalize_ok_counts (m : Module) (lang : String) (r : Normalized)
    (h : normalize_ast m lang = .ok r) : countFnDefs m.body = 1 := by
  by_contra hne
  obtain ⟨e, he⟩ := (normalize_err_iff m lang).mpr
    ((extract_err_iff (sort_imports m)).mpr (by rwa [countFnDefs_sort_imports]))
  rw [h] at he
  exact Except.noConfusion he

theorem namesStmList_append (a b : List Stm) :
    namesStmList (a ++ b) = namesStmList a ++ namesStmList b := by
  induction a with
  | nil => rfl
  | cons s r ih => rw [List.cons_append, namesStmList, namesStmList, ih, List.append_assoc]

theorem namesStmList_docStmts (d : Option String) : namesStmList (docStmts d) = [] := by
  cases d with
  | none => rfl
  | some s => rfl

theorem occNames_fnWithDoc (name : String) (args : List PyArg) (d : Option String)
    (body : List Stm) :
    occNames (fnWithDoc name args d body) = occNames ⟨name, args, body⟩ := by
  rw [occNames, occNames, fnWithDoc]
  dsimp only
  rw [namesStmList_append, namesStmList_docStmts, List.nil_append]

theorem create_name_mapping_congr (f1 f2 : FunctionDef) (imps : List TopStmt)
    (al : List String) (hn : f1.name = f2.name) (ho : occNames f1 = occNames f2) :
    create_name_mapping f1 imps al = create_name_mapping f2 imps al := by
  have hsl : sortedLocals f1 imps al = sortedLocals f2 imps al := by
    rw [sortedLocals, sortedLocals, collectedNames, collectedNames, ho, hn]
  rw [create_name_mapping, create_name_mapping, hsl, hn]

theorem extract_docstring_fnWithDoc_some (name : String) (args : List PyArg) (s : String)
    (body : List Stm) :
    (extract_docstring (fnWithDoc name args (some s) body)).2 = ⟨name, args, body⟩ := by
  rw [extract_docstring, fnWithDoc, docStmts]
  dsimp only
  rw [List.cons_append, stripDoc, List.nil_append]

/-! ### C2 -/

/-- C2: two units identical except for the text of the leading docstring
(including one having no docstring at all) yield byte-identical
without-docstring renderings from `normalize_ast`, and hence the same
content hash from `compute_hash`. -/
theorem C2_docstring_invariance (pre post : List TopStmt) (name : String)
    (args : List PyArg) (doc1 doc2 : Option String) (body : List Stm) (lang : String)
    (r1 r2 : Normalized)
    (hbody : doc1 = none ∨ doc2 = none → stripDoc body = body)
    (h1 : normalize_ast ⟨pre ++ .fndef (fnWithDoc name args doc1 body) :: post⟩ lang = .ok r1)
    (h2 : normalize_ast ⟨pre ++ .fndef (fnWithDoc name args doc2 body) :: post⟩ lang = .ok r2) :
    r1.withoutDoc = r2.withoutDoc ∧
    compute_hash r1.withoutDoc = compute_hash r2.withoutDoc := by
  have hc1 := normalize_ok_counts _ _ _ h1
  rw [show (⟨pre ++ .fndef (fnWithDoc name args doc1 body) :: post⟩ : Module).body =
    pre ++ .fndef (fnWithDoc name args doc1 body) :: post from rfl,
    countFnDefs_append, countFnDefs_cons_fn] at hc1
  have hpre : countFnDefs pre = 0 := by omega
  have hpost : countFnDefs post = 0 := by omega
  rw [normalize_ok_decomp pre post _ lang hpre hpost] at h1 h2
  have hr1 : r1 = normCore (fnWithDoc name args doc1 body)
      (sortedImportsOf ⟨pre ++ .fndef (fnWithDoc name args doc1 body) :: post⟩) :=
    (Except.ok.injEq .. ▸ h1).symm
  have hr2 : r2 = normCore (fnWithDoc name args doc2 body)
      (sortedImportsOf ⟨pre ++ .fndef (fnWithDoc name args doc2 body) :: post⟩) :=
    (Except.ok.injEq .. ▸ h2).symm
  have hI : sortedImportsOf ⟨pre ++ .fndef (fnWithDoc name args doc1 body) :: post⟩ =
      sortedImportsOf ⟨pre ++ .fndef (fnWithDoc name args doc2 body) :: post⟩ := by
    rw [sortedImportsOf_decomp, sortedImportsOf_decomp]
  have hstrip : (extract_docstring (fnWithDoc name args doc1 body)).2 =
      (extract_docstring (fnWithDoc name args doc2 body)).2 := by
    cases doc1 with
    | some s1 =>
      cases doc2 with
      | some s2 =>
        rw [extract_docstring_fnWithDoc_some, extract_docstring_fnWithDoc_some]
      | none =>
        rw [extract_docstring_fnWithDoc_some, extract_docstring, fnWithDoc, docStmts]
        dsimp only
        rw [List.nil_append, hbody (Or.inr rfl)]
    | none =>
      cases doc2 with
      | some s2 =>
        rw [extract_docstring_fnWithDoc_some, extract_docstring, fnWithDoc, docStmts]
        dsimp only
        rw [List.nil_append, hbody (Or.inl rfl)]
      | none => rfl
  have hfwd : ∀ I, fwdMap (fnWithDoc name args doc1 body) I =
      fwdMap (fnWithDoc name args doc2 body) I := by
    intro I
    rw [fwdMap, fwdMap,
      create_name_mapping_congr (fnWithDoc name args doc1 body)
        (fnWithDoc name args doc2 body) _ _ rfl
        (by rw [occNames_fnWithDoc, occNames_fnWithDoc])]
  have hout : r1.withoutDoc = r2.withoutDoc := by
    rw [hr1, hr2, ← hI, normCore, normCore]
    dsimp only
    rw [hstrip, hfwd]
  exact ⟨hout, by rw [hout]⟩

/-- C2 witness: `def f(a): "doc" ; return a` and `def f(a): "other" ; return a`
yield the same without-docstring rendering and hash. -/
theorem C2_docstring_invariance_witness :
    ∃ r1 r2 : Normalized,
      normalize_ast ⟨[.fndef (fnWithDoc "f" [⟨"a"⟩] (some "doc")
          [.ret (some (.name "a"))])]⟩ "eng" = .ok r1 ∧
      normalize_ast ⟨[.fndef (fnWithDoc "f" [⟨"a"⟩] (some "other")
          [.ret (some (.name "a"))])]⟩ "eng" = .ok r2 ∧
      r1.withoutDoc = r2.withoutDoc ∧
      compute_hash r1.withoutDoc = compute_hash r2.withoutDoc := by
  refine ⟨_, _, rfl, rfl, ?_⟩
  exact C2_docstring_invariance [] [] "f" [⟨"a"⟩] (some "doc") (some "other")
    [.ret (some (.name "a"))] "eng" _ _
    (fun h => by rcases h with h | h <;> exact Option.noConfusion h) rfl rfl

/-! ### Renaming lemmas (C1) -/

mutual
theorem namesExp_rename (σ : String → String) :
    ∀ e, namesExp (renameExp σ e) = (namesExp e).map σ
  | .name id => rfl
  | .constant _ => rfl
  | .binop l op r => by
    rw [renameExp, namesExp, namesExp, List.map_append, namesExp_rename σ l,
      namesExp_rename σ r]
  | .call f args => by
    rw [renameExp, namesExp, namesExp, List.map_append, namesExp_rename σ f,
      namesExpList_rename σ args]
  | .attribute v a => by
    rw [renameExp, namesExp, namesExp, namesExp_rename σ v]
theorem namesExpList_rename (σ : String → String) :
    ∀ es, namesExpList (renameExpList σ es) = (namesExpList es).map σ
  | [] => rfl
  | e :: es => by
    rw [renameExpList, namesExpList, namesExpList, List.map_append,
      namesExp_rename σ e, namesExpList_rename σ es]
end

mutual
theorem namesStm_rename (σ : String → String) :
    ∀ s, namesStm (renameStm σ s) = (namesStm s).map σ
  | .ret none => rfl
  | .ret (some e) => by rw [renameStm, namesStm, namesStm, namesExp_rename]
  | .assign ts v => by
    rw [renameStm, namesStm, namesStm, List.map_append, namesExpList_rename,
      namesExp_rename]
  | .exprStmt e => by rw [renameStm, namesStm, namesStm, namesExp_rename]
  | .passStmt => rfl
  | .ifStmt t b o => by
    rw [renameStm, namesStm, namesStm, List.map_append, List.map_append,
      namesExp_rename, namesStmList_rename σ b, namesStmList_rename σ o]
theorem namesStmList_rename (σ : String → String) :
    ∀ ss, namesStmList (renameStmList σ ss) = (namesStmList ss).map σ
  | [] => rfl
  | s :: ss => by
    rw [renameStmList, namesStmList, namesStmList, List.map_append,
      namesStm_rename σ s, namesStmList_rename σ ss]
end

theorem occNames_rename (σ : String → String) (f : FunctionDef) :
    occNames (renameFunc σ f) = (occNames f).map σ := by
  rw [occNames, occNames, renameFunc]
  dsimp only
  rw [List.map_append, namesStmList_rename, List.map_map, List.map_map]
  rfl

theorem stripDoc_rename (σ : String → String) (b : List Stm) :
    stripDoc (renameStmList σ b) = renameStmList σ (stripDoc b) := by
  match b with
  | [] => rfl
  | .exprStmt (.constant (.pystr s)) :: rest => rfl
  | .exprStmt (.constant .pynone) :: rest => rfl
  | .exprStmt (.constant (.pybool v)) :: rest => rfl
  | .exprStmt (.constant (.pyint n)) :: rest => rfl
  | .exprStmt (.name id) :: rest => rfl
  | .exprStmt (.binop l op r) :: rest => rfl
  | .exprStmt (.call f args) :: rest => rfl
  | .exprStmt (.attribute v a) :: rest => rfl
  | .ret none :: rest => rfl
  | .ret (some e) :: rest => rfl
  | .assign ts v :: rest => rfl
  | .passStmt :: rest => rfl
  | .ifStmt t bb o :: rest => rfl

theorem extract_docstring_rename_snd (σ : String → String) (f : FunctionDef) :
    (extract_docstring (renameFunc σ f)).2 = renameFunc σ (extract_docstring f).2 := by
  rw [extract_docstring, extract_docstring, renameFunc, renameFunc]
  dsimp only
  rw [stripDoc_rename]

mutual
theorem replaceExp_nil : ∀ e, replaceExp [] e = e
  | .name id => rfl
  | .constant _ => rfl
  | .binop l op r => by rw [replaceExp, replaceExp_nil l, replaceExp_nil r]
  | .call f args => by rw [replaceExp, replaceExp_nil f, replaceExpList_nil args]
  | .attribute v a => by rw [replaceExp, replaceExp_nil v]
theorem replaceExpList_nil : ∀ es, replaceExpList [] es = es
  | [] => rfl
  | e :: es => by rw [replaceExpList, replaceExp_nil e, replaceExpList_nil es]
end

mutual
theorem replaceStm_nil : ∀ s, replaceStm [] s = s
  | .ret none => rfl
  | .ret (some e) => by rw [replaceStm, replaceExp_nil]
  | .assign ts v => by rw [replaceStm, replaceExpList_nil, replaceExp_nil]
  | .exprStmt e => by rw [replaceStm, replaceExp_nil]
  | .passStmt => rfl
  | .ifStmt t b o => by
    rw [replaceStm, replaceExp_nil, replaceStmList_nil b, replaceStmList_nil o]
theorem replaceStmList_nil : ∀ ss, replaceStmList [] ss = ss
  | [] => rfl
  | s :: ss => by rw [replaceStmList, replaceStm_nil s, replaceStmList_nil ss]
end

theorem replaceTop_nil (t : TopStmt) : replaceTop [] t = t := by
  cases t with
  | imp ns => rfl
  | impFrom md ns l => rfl
  | fndef f => rw [replaceTop, replaceFunctionDef, replaceStmList_nil]
  | topStm s => rw [replaceTop, replaceStm_nil]

theorem replace_ouverture_calls_nil (mo : Module) : replace_ouverture_calls [] mo = mo := by
  rw [replace_ouverture_calls]
  congr 1
  exact List.map_congr_left (fun t _ => replaceTop_nil t) |>.trans (List.map_id _)

theorem rewrite_no_ouv (l : List TopStmt) (h : noOuvImports l = true) :
    rewrite_ouverture_imports l = (l, []) := by
  induction l with
  | nil => rfl
  | cons t r ih =>
    cases t with
    | imp ns =>
      rw [noOuvImports] at h
      rw [rewrite_ouverture_imports, ih h]
    | impFrom md ns lv =>
      cases md with
      | none =>
        rw [noOuvImports] at h
        rw [rewrite_ouverture_imports, if_neg (by simp), ih h]
      | some m =>
        rw [noOuvImports, Bool.and_eq_true] at h
        have hm : m ≠ "ouverture" := by simpa using h.1
        rw [rewrite_ouverture_imports, if_neg (by simpa using hm), ih h.2]
    | fndef f =>
      rw [noOuvImports] at h
      rw [rewrite_ouverture_imports, ih h]
    | topStm s =>
      rw [noOuvImports] at h
      rw [rewrite_ouverture_imports, ih h]

theorem numberFrom_lookup_none : ∀ (L : List String) (i : Nat) (x : String),
    x ∉ L → dlookup (numberFrom i L) x = none := by
  intro L
  induction L with
  | nil => intro i x _; rfl
  | cons a rest ih =>
    intro i x hx
    have hne : a ≠ x := fun hc => hx (hc ▸ List.mem_cons_self a rest)
    rw [numberFrom, dlookup, if_neg hne]
    exact ih (i + 1) x (fun hm => hx (List.mem_cons_of_mem a hm))

theorem dlookup_numberFrom_map (σ : String → String) :
    ∀ (L : List String) (i : Nat) (x : String),
      (∀ a ∈ L, (σ a = σ x ↔ a = x)) →
      dlookup (numberFrom i (L.map σ)) (σ x) = dlookup (numberFrom i L) x := by
  intro L
  induction L with
  | nil => intro i x _; rfl
  | cons a rest ih =>
    intro i x hx
    rw [List.map_cons, numberFrom, numberFrom, dlookup, dlookup]
    by_cases ha : a = x
    · rw [if_pos ((hx a (List.mem_cons_self a rest)).mpr ha), if_pos ha]
    · rw [if_neg (fun hc => ha ((hx a (List.mem_cons_self a rest)).mp hc)), if_neg ha]
      exact ih (i + 1) x (fun b hb => hx b (List.mem_cons_of_mem a hb))

theorem dedup_map_inj (σ : String → String) :
    ∀ L : List String, (∀ a ∈ L, ∀ b ∈ L, σ a = σ b → a = b) →
      (L.map σ).dedup = L.dedup.map σ := by
  intro L
  induction L with
  | nil => intro _; rfl
  | cons a rest ih =>
    intro hi
    have ihr := ih fun x hx y hy =>
      hi x (List.mem_cons_of_mem a hx) y (List.mem_cons_of_mem a hy)
    by_cases hm : a ∈ rest
    · rw [List.map_cons, List.dedup_cons_of_mem (List.mem_map_of_mem σ hm),
        List.dedup_cons_of_mem hm, ihr]
    · have hm' : σ a ∉ rest.map σ := by
        intro hc
        obtain ⟨b, hb, hba⟩ := List.mem_map.mp hc
        exact hm ((hi b (List.mem_cons_of_mem a hb) a (List.mem_cons_self a rest) hba) ▸ hb)
      rw [List.map_cons, List.dedup_cons_of_not_mem hm', List.dedup_cons_of_not_mem hm,
        List.map_cons, ihr]

theorem renameTop_nonfn (σ : String → String) (t : TopStmt) (h : isFnDef t = false) :
    renameTop σ t = t := by
  cases t with
  | fndef f => simp [isFnDef] at h
  | imp ns => rfl
  | impFrom md ns l => rfl
  | topStm s => rfl

theorem renameModule_nofn (σ : String → String) (l : List TopStmt)
    (h : countFnDefs l = 0) : l.map (renameTop σ) = l := by
  induction l with
  | nil => rfl
  | cons t r ih =>
    cases ht : isFnDef t with
    | true =>
      cases t with
      | fndef f => rw [countFnDefs_cons_fn] at h; omega
      | imp ns => simp [isFnDef] at ht
      | impFrom md ns lv => simp [isFnDef] at ht
      | topStm s => simp [isFnDef] at ht
    | false =>
      rw [countFnDefs_cons_other t ht] at h
      rw [List.map_cons, renameTop_nonfn σ t ht, ih h]

theorem renameModule_decomp (σ : String → String) (pre post : List TopStmt)
    (f : FunctionDef) (hpre : countFnDefs pre = 0) (hpost : countFnDefs post = 0) :
    renameModule σ ⟨pre ++ .fndef f :: post⟩ =
      ⟨pre ++ .fndef (renameFunc σ f) :: post⟩ := by
  rw [renameModule]
  congr 1
  show (pre ++ TopStmt.fndef f :: post).map (renameTop σ) = _
  rw [List.map_append, List.map_cons, renameModule_nofn σ pre hpre,
    renameModule_nofn σ post hpost]
  rfl

theorem sortedLocals_subset_occ (f : FunctionDef) (I : List TopStmt) (al : List String)
    (x : String) (hx : x ∈ sortedLocals f I al) : x ∈ occNames f := by
  rw [sortedLocals, List.mem_insertionSort, List.mem_dedup] at hx
  exact List.mem_of_mem_filter (List.mem_of_mem_filter hx)

theorem sortedLocals_not_excluded (f : FunctionDef) (I : List TopStmt) (al : List String)
    (x : String) (hx : x ∈ sortedLocals f I al) :
    isExcluded (importedNames I) al x = false := by
  rw [sortedLocals, List.mem_insertionSort, List.mem_dedup] at hx
  have := List.of_mem_filter (List.mem_of_mem_filter hx : x ∈ (collectedNames f I al))
  simpa using this

theorem sortedLocals_ne_fname (f : FunctionDef) (I : List TopStmt) (al : List String)
    (x : String) (hx : x ∈ sortedLocals f I al) : x ≠ f.name := by
  rw [sortedLocals, List.mem_insertionSort, List.mem_dedup] at hx
  simpa using List.of_mem_filter hx

theorem mem_sortedLocals_of (f : FunctionDef) (I : List TopStmt) (al : List String)
    (x : String) (ho : x ∈ occNames f)
    (he : isExcluded (importedNames I) al x = false) (hn : x ≠ f.name) :
    x ∈ sortedLocals f I al := by
  rw [sortedLocals, List.mem_insertionSort, List.mem_dedup]
  exact List.mem_filter_of_mem
    (List.mem_filter_of_mem ho (by simpa using he)) (by simpa using hn)

theorem numberFrom_lookup_mem : ∀ (L : List String) (i : Nat) (x : String),
    x ∈ L → ∃ v, dlookup (numberFrom i L) x = some v := by
  intro L
  induction L with
  | nil => intro i x hx; simp at hx
  | cons a rest ih =>
    intro i x hx
    rw [numberFrom, dlookup]
    by_cases ha : a = x
    · exact ⟨ouv i, by rw [if_pos ha]⟩
    · obtain ⟨v, hv⟩ := ih (i + 1) x (by
        rcases List.mem_cons.mp hx with h | h
        · exact absurd h.symm ha
        · exact h)
      exact ⟨v, by rw [if_neg ha]; exact hv⟩

theorem exclusion_rename (σ : String → String) (f : FunctionDef) (I : List TopStmt)
    (hfix : ∀ n ∈ nameDomain f,
      isExcluded (importedNames I) [] n = true → σ n = n)
    (hfresh : ∀ n ∈ nameDomain f,
      isExcluded (importedNames I) [] n = false →
        isExcluded (importedNames I) [] (σ n) = false) :
    ∀ n ∈ nameDomain f,
      isExcluded (importedNames I) [] (σ n) = isExcluded (importedNames I) [] n := by
  intro n hn
  cases he : isExcluded (importedNames I) [] n with
  | false => exact hfresh n hn he
  | true => rw [hfix n hn he, he]

theorem sortedLocals_rename (σ : String → String) (f : FunctionDef) (I : List TopStmt)
    (hfix : ∀ n ∈ nameDomain f,
      isExcluded (importedNames I) [] n = true → σ n = n)
    (hfresh : ∀ n ∈ nameDomain f,
      isExcluded (importedNames I) [] n = false →
        isExcluded (importedNames I) [] (σ n) = false)
    (hinj : ∀ a ∈ nameDomain f, ∀ b ∈ nameDomain f, σ a = σ b → a = b)
    (hmono : ∀ a ∈ sortedLocals f I [], ∀ b ∈ sortedLocals f I [],
      (strOrd a b ↔ strOrd (σ a) (σ b))) :
    sortedLocals (renameFunc σ f) I [] = (sortedLocals f I []).map σ := by
  have hexc := exclusion_rename σ f I hfix hfresh
  have hoccsub : ∀ n ∈ occNames f, n ∈ nameDomain f :=
    fun n hn => List.mem_cons_of_mem _ hn
  have hcoll : collectedNames (renameFunc σ f) I [] =
      (collectedNames f I []).map σ := by
    rw [collectedNames, collectedNames, occNames_rename, List.filter_map]
    congr 1
    apply List.filter_congr
    intro n hn
    simp only [Function.comp_apply]
    rw [hexc n (hoccsub n hn)]
  have hcollsub : ∀ n ∈ collectedNames f I [], n ∈ nameDomain f :=
    fun n hn => hoccsub n (List.mem_of_mem_filter hn)
  have hfilt : (collectedNames (renameFunc σ f) I []).filter
        (fun n => n ≠ (renameFunc σ f).name) =
      ((collectedNames f I []).filter (fun n => n ≠ f.name)).map σ := by
    rw [hcoll, show (renameFunc σ f).name = σ f.name from rfl, List.filter_map]
    congr 1
    apply List.filter_congr
    intro n hn
    simp only [Function.comp_apply, decide_eq_decide]
    constructor
    · intro hne hc
      exact hne (hc ▸ rfl)
    · intro hne hc
      exact hne (hinj n (hcollsub n hn) f.name (List.mem_cons_self ..) hc)
  have hfsub : ∀ n ∈ (collectedNames f I []).filter (fun n => n ≠ f.name),
      n ∈ nameDomain f := fun n hn => hcollsub n (List.mem_of_mem_filter hn)
  have hdedup : ((collectedNames (renameFunc σ f) I []).filter
        (fun n => n ≠ (renameFunc σ f).name)).dedup =
      (((collectedNames f I []).filter (fun n => n ≠ f.name)).dedup).map σ := by
    rw [hfilt, dedup_map_inj σ _ (fun a ha b hb => hinj a (hfsub a ha) b (hfsub b hb))]
  rw [sortedLocals, sortedLocals, hdedup]
  exact (List.map_insertionSort strOrd strOrd σ _ (fun a ha b hb =>
    hmono a (by rw [sortedLocals, List.mem_insertionSort]; exact ha)
      b (by rw [sortedLocals, List.mem_insertionSort]; exact hb))).symm

theorem mapName_rename (σ : String → String) (f : FunctionDef) (I : List TopStmt)
    (hfix : ∀ n ∈ nameDomain f,
      isExcluded (importedNames I) [] n = true → σ n = n)
    (hfresh : ∀ n ∈ nameDomain f,
      isExcluded (importedNames I) [] n = false →
        isExcluded (importedNames I) [] (σ n) = false)
    (hinj : ∀ a ∈ nameDomain f, ∀ b ∈ nameDomain f, σ a = σ b → a = b)
    (hmono : ∀ a ∈ sortedLocals f I [], ∀ b ∈ sortedLocals f I [],
      (strOrd a b ↔ strOrd (σ a) (σ b))) :
    ∀ id ∈ nameDomain f,
      mapName (create_name_mapping (renameFunc σ f) I []).1 (σ id) =
        mapName (create_name_mapping f I []).1 id := by
  have hL := sortedLocals_rename σ f I hfix hfresh hinj hmono
  have hfd : f.name ∈ nameDomain f := List.mem_cons_self ..
  intro id hid
  rw [create_name_mapping, create_name_mapping]
  dsimp only
  rw [show (renameFunc σ f).name = σ f.name from rfl, hL]
  by_cases hidf : id = f.name
  · subst hidf
    rw [mapName, mapName, dlookup, dlookup, if_pos rfl, if_pos rfl]
  · have hidocc : id ∈ occNames f := by
      rcases List.mem_cons.mp hid with h | h
      · exact absurd h hidf
      · exact h
    have hheadne : f.name ≠ id := fun hc => hidf hc.symm
    have hheadne' : σ f.name ≠ σ id :=
      fun hc => hidf (hinj f.name hfd id hid hc).symm
    cases hexcl : isExcluded (importedNames I) [] id with
    | true =>
      have hσid : σ id = id := hfix id hid hexcl
      have hnotL : id ∉ sortedLocals f I [] := fun hm =>
        by rw [sortedLocals_not_excluded f I [] id hm] at hexcl; exact Bool.noConfusion hexcl
      have hnotL' : id ∉ (sortedLocals f I []).map σ := by
        intro hc
        obtain ⟨b, hb, hbσ⟩ := List.mem_map.mp hc
        have hbex := sortedLocals_not_excluded f I [] b hb
        have := hfresh b (List.mem_cons_of_mem _ (sortedLocals_subset_occ f I [] b hb)) hbex
        rw [hbσ, hexcl] at this
        exact Bool.noConfusion this
      rw [hσid, mapName, mapName, dlookup, dlookup, if_neg hheadne,
        if_neg (hσid ▸ hheadne'), numberFrom_lookup_none _ 1 id hnotL,
        numberFrom_lookup_none _ 1 id hnotL']
    | false =>
      have hidL : id ∈ sortedLocals f I [] :=
        mem_sortedLocals_of f I [] id hidocc hexcl hidf
      obtain ⟨v, hv⟩ := numberFrom_lookup_mem (sortedLocals f I []) 1 id hidL
      have hmap : dlookup (numberFrom 1 ((sortedLocals f I []).map σ)) (σ id) =
          dlookup (numberFrom 1 (sortedLocals f I [])) id := by
        apply dlookup_numberFrom_map
        intro a ha
        constructor
        · intro hc
          exact hinj a (List.mem_cons_of_mem _ (sortedLocals_subset_occ f I [] a ha))
            id hid hc
        · intro hc
          rw [hc]
      rw [mapName, mapName, dlookup, dlookup, if_neg hheadne, if_neg hheadne', hmap, hv]

/-! ### Normalizer commutation (generic in the two mappings) -/

mutual
theorem normExp_rename (m1 m2 : List (String × String)) (σ : String → String) :
    ∀ e, (∀ id ∈ namesExp e, mapName m2 (σ id) = mapName m1 id) →
      normExp m2 (renameExp σ e) = normExp m1 e
  | .name id, h => by
    rw [renameExp, normExp, normExp, h id (by rw [namesExp]; exact List.mem_singleton.mpr rfl)]
  | .constant v, _ => rfl
  | .binop l op r, h => by
    rw [renameExp, normExp, normExp,
      normExp_rename m1 m2 σ l (fun id hid => h id (by rw [namesExp]; exact List.mem_append_left _ hid)),
      normExp_rename m1 m2 σ r (fun id hid => h id (by rw [namesExp]; exact List.mem_append_right _ hid))]
  | .call fn args, h => by
    rw [renameExp, normExp, normExp,
      normExp_rename m1 m2 σ fn (fun id hid => h id (by rw [namesExp]; exact List.mem_append_left _ hid)),
      normExpList_rename m1 m2 σ args (fun id hid => h id (by rw [namesExp]; exact List.mem_append_right _ hid))]
  | .attribute v a, h => by
    rw [renameExp, normExp, normExp,
      normExp_rename m1 m2 σ v (fun id hid => h id (by rw [namesExp]; exact hid))]
theorem normExpList_rename (m1 m2 : List (String × String)) (σ : String → String) :
    ∀ es, (∀ id ∈ namesExpList es, mapName m2 (σ id) = mapName m1 id) →
      normExpList m2 (renameExpList σ es) = normExpList m1 es
  | [], _ => rfl
  | e :: es, h => by
    rw [renameExpList, normExpList, normExpList,
      normExp_rename m1 m2 σ e (fun id hid => h id (by rw [namesExpList]; exact List.mem_append_left _ hid)),
      normExpList_rename m1 m2 σ es (fun id hid => h id (by rw [namesExpList]; exact List.mem_append_right _ hid))]
end

mutual
theorem normStm_rename (m1 m2 : List (String × String)) (σ : String → String) :
    ∀ s, (∀ id ∈ namesStm s, mapName m2 (σ id) = mapName m1 id) →
      normStm m2 (renameStm σ s) = normStm m1 s
  | .ret none, _ => rfl
  | .ret (some e), h => by
    rw [renameStm, normStm, normStm,
      normExp_rename m1 m2 σ e (fun id hid => h id (by rw [namesStm]; exact hid))]
  | .assign ts v, h => by
    rw [renameStm, normStm, normStm,
      normExpList_rename m1 m2 σ ts (fun id hid => h id (by rw [namesStm]; exact List.mem_append_left _ hid)),
      normExp_rename m1 m2 σ v (fun id hid => h id (by rw [namesStm]; exact List.mem_append_right _ hid))]
  | .exprStmt e, h => by
    rw [renameStm, normStm, normStm,
      normExp_rename m1 m2 σ e (fun id hid => h id (by rw [namesStm]; exact hid))]
  | .passStmt, _ => rfl
  | .ifStmt t b o, h => by
    rw [renameStm, normStm, normStm,
      normExp_rename m1 m2 σ t (fun id hid => h id (by rw [namesStm]; exact List.mem_append_left _ (List.mem_append_left _ hid))),
      normStmList_rename m1 m2 σ b (fun id hid => h id (by rw [namesStm]; exact List.mem_append_left _ (List.mem_append_right _ hid))),
      normStmList_rename m1 m2 σ o (fun id hid => h id (by rw [namesStm]; exact List.mem_append_right _ hid))]
theorem normStmList_rename (m1 m2 : List (String × String)) (σ : String → String) :
    ∀ ss, (∀ id ∈ namesStmList ss, mapName m2 (σ id) = mapName m1 id) →
      normStmList m2 (renameStmList σ ss) = normStmList m1 ss
  | [], _ => rfl
  | s :: ss, h => by
    rw [renameStmList, normStmList, normStmList,
      normStm_rename m1 m2 σ s (fun id hid => h id (by rw [namesStmList]; exact List.mem_append_left _ hid)),
      normStmList_rename m1 m2 σ ss (fun id hid => h id (by rw [namesStmList]; exact List.mem_append_right _ hid))]
end

theorem normFunctionDef_rename (m1 m2 : List (String × String)) (σ : String → String)
    (f : FunctionDef)
    (hname : mapName m2 (σ f.name) = mapName m1 f.name)
    (hids : ∀ id ∈ occNames f, mapName m2 (σ id) = mapName m1 id) :
    normFunctionDef m2 (renameFunc σ f) = normFunctionDef m1 f := by
  rw [normFunctionDef, normFunctionDef, renameFunc]
  dsimp only
  rw [hname]
  congr 1
  · rw [List.map_map]
    apply List.map_congr_left
    intro a ha
    show normArg m2 ⟨σ a.arg⟩ = normArg m1 a
    rw [normArg, normArg,
      hids a.arg (by rw [occNames]; exact List.mem_append_left _ (List.mem_map_of_mem _ ha))]
  · exact normStmList_rename m1 m2 σ f.body
      (fun id hid => hids id (by rw [occNames]; exact List.mem_append_right _ hid))

theorem namesStmList_stripDoc (b : List Stm) :
    namesStmList (stripDoc b) = namesStmList b := by
  match b with
  | [] => rfl
  | .exprStmt (.constant (.pystr s)) :: rest =>
    rw [stripDoc]
    show namesStmList rest = namesStm (.exprStmt (.constant (.pystr s))) ++ namesStmList rest
    rfl
  | .exprStmt (.constant .pynone) :: rest => rfl
  | .exprStmt (.constant (.pybool v)) :: rest => rfl
  | .exprStmt (.constant (.pyint n)) :: rest => rfl
  | .exprStmt (.name id) :: rest => rfl
  | .exprStmt (.binop l op r) :: rest => rfl
  | .exprStmt (.call fn args) :: rest => rfl
  | .exprStmt (.attribute v a) :: rest => rfl
  | .ret none :: rest => rfl
  | .ret (some e) :: rest => rfl
  | .assign ts v :: rest => rfl
  | .passStmt :: rest => rfl
  | .ifStmt t bb o :: rest => rfl

theorem occNames_strip (f : FunctionDef) :
    occNames (extract_docstring f).2 = occNames f := by
  rw [extract_docstring]
  dsimp only
  rw [occNames, occNames]
  dsimp only
  rw [namesStmList_stripDoc]

theorem normTop_import_id (m : List (String × String)) (t : TopStmt)
    (h : isImportNode t = true) : normTop m t = t := by
  cases t with
  | imp ns => rfl
  | impFrom md ns l => rfl
  | fndef f => simp [isImportNode] at h
  | topStm s => simp [isImportNode] at h

theorem normModule_step (m : List (String × String)) (I : List TopStmt)
    (g : FunctionDef) (himp : ∀ t ∈ I, isImportNode t = true) :
    normModule m ⟨I ++ [.fndef g]⟩ = ⟨I ++ [.fndef (normFunctionDef m g)]⟩ := by
  rw [normModule]
  congr 1
  show (I ++ [TopStmt.fndef g]).map (normTop m) = _
  rw [List.map_append]
  congr 1
  exact (List.map_congr_left fun t ht => normTop_import_id m t (himp t ht)).trans
    (List.map_id I)

theorem sortedImportsOf_imports (mo : Module) :
    ∀ t ∈ sortedImportsOf mo, isImportNode t = true := by
  intro t ht
  rw [sortedImportsOf, List.mem_insertionSort] at ht
  exact List.of_mem_filter ht

/-! ### C1 -/

set_option maxRecDepth 100000 in
/-- C1 counterexample: swapping the two parameters `a` and `b` of
`def f(a, b): return a - b` is an injective renaming of the unit's function
name, parameters and locals, yet the without-docstring renderings (and the
hashes) of the two units differ, because designators are assigned in sorted
order of the original names. -/
theorem C1_counterexample :
    renameModule (fun s => if s = "a" then "b" else if s = "b" then "a" else s)
        ⟨[.fndef ⟨ "f", [⟨"a"⟩, ⟨"b"⟩],
          [.ret (some (.binop (.name "a") "-" (.name "b")))]⟩]⟩ =
      ⟨[.fndef ⟨ "f", [⟨"b"⟩, ⟨"a"⟩],
        [.ret (some (.binop (.name "b") "-" (.name "a")))]⟩]⟩ ∧
    (∀ x ∈ nameDomain ⟨"f", [⟨"a"⟩, ⟨"b"⟩],
        [.ret (some (.binop (.name "a") "-" (.name "b")))]⟩,
      ∀ y ∈ nameDomain ⟨"f", [⟨"a"⟩, ⟨"b"⟩],
        [.ret (some (.binop (.name "a") "-" (.name "b")))]⟩,
      (fun s => if s = "a" then "b" else if s = "b" then "a" else s) x =
        (fun s => if s = "a" then "b" else if s = "b" then "a" else s) y → x = y) ∧
    ∃ r1 r2 : Normalized,
      normalize_ast ⟨[.fndef ⟨ "f", [⟨"a"⟩, ⟨"b"⟩],
          [.ret (some (.binop (.name "a") "-" (.name "b")))]⟩]⟩ "eng" = .ok r1 ∧
      normalize_ast ⟨[.fndef ⟨ "f", [⟨"b"⟩, ⟨"a"⟩],
          [.ret (some (.binop (.name "b") "-" (.name "a")))]⟩]⟩ "eng" = .ok r2 ∧
      r1.withoutDoc ≠ r2.withoutDoc ∧
      compute_hash r1.withoutDoc ≠ compute_hash r2.withoutDoc := by
  refine ⟨rfl, by decide, _, _, rfl, rfl, by decide, by decide⟩

/-- C1 (amended): a consistent injective renaming of the function name,
parameters and locals that is the identity on imported and built-in names,
maps the renamed names outside the imported/built-in set, and preserves the
relative code-point order of the collected local names, yields a
byte-identical without-docstring rendering and hence the same content hash
(for units without pool-namespace imports). -/
theorem C1_identifier_invariance (pre post : List TopStmt) (f : FunctionDef)
    (σ : String → String) (lang : String)
    (hpre : countFnDefs pre = 0) (hpost : countFnDefs post = 0)
    (hno : noOuvImports (sortedImportsOf ⟨pre ++ .fndef f :: post⟩) = true)
    (hfix : ∀ n ∈ nameDomain f,
      isExcluded (importedNames (sortedImportsOf ⟨pre ++ .fndef f :: post⟩)) [] n = true →
        σ n = n)
    (hfresh : ∀ n ∈ nameDomain f,
      isExcluded (importedNames (sortedImportsOf ⟨pre ++ .fndef f :: post⟩)) [] n = false →
        isExcluded (importedNames (sortedImportsOf ⟨pre ++ .fndef f :: post⟩)) [] (σ n) =
          false)
    (hinj : ∀ a ∈ nameDomain f, ∀ b ∈ nameDomain f, σ a = σ b → a = b)
    (hmono : ∀ a ∈ sortedLocals f (sortedImportsOf ⟨pre ++ .fndef f :: post⟩) [],
      ∀ b ∈ sortedLocals f (sortedImportsOf ⟨pre ++ .fndef f :: post⟩) [],
        (strOrd a b ↔ strOrd (σ a) (σ b))) :
    ∃ r r' : Normalized,
      normalize_ast ⟨pre ++ .fndef f :: post⟩ lang = .ok r ∧
      normalize_ast (renameModule σ ⟨pre ++ .fndef f :: post⟩) lang = .ok r' ∧
      r'.withoutDoc = r.withoutDoc ∧
      compute_hash r'.withoutDoc = compute_hash r.withoutDoc := by
  have hIeq : sortedImportsOf ⟨pre ++ .fndef (renameFunc σ f) :: post⟩ =
      sortedImportsOf ⟨pre ++ .fndef f :: post⟩ := by
    rw [sortedImportsOf_decomp, sortedImportsOf_decomp]
  have hren : normalize_ast (renameModule σ ⟨pre ++ .fndef f :: post⟩) lang =
      .ok (normCore (renameFunc σ f) (sortedImportsOf ⟨pre ++ .fndef f :: post⟩)) := by
    rw [renameModule_decomp σ pre post f hpre hpost,
      normalize_ok_decomp pre post _ lang hpre hpost, hIeq]
  have hrw := rewrite_no_ouv _ hno
  have hri : rewrittenImports (sortedImportsOf ⟨pre ++ .fndef f :: post⟩) =
      sortedImportsOf ⟨pre ++ .fndef f :: post⟩ := by
    rw [rewrittenImports, hrw]
  have ham : aliasMapOf (sortedImportsOf ⟨pre ++ .fndef f :: post⟩) = [] := by
    rw [aliasMapOf, hrw]
  have hmapn := mapName_rename σ f (sortedImportsOf ⟨pre ++ .fndef f :: post⟩)
    hfix hfresh hinj hmono
  have hfw : ∀ g : FunctionDef,
      fwdMap g (sortedImportsOf ⟨pre ++ .fndef f :: post⟩) =
        (create_name_mapping g (sortedImportsOf ⟨pre ++ .fndef f :: post⟩) []).1 := by
    intro g
    rw [fwdMap, hri, ham, List.map_nil]
  have hfdeq : normFunctionDef
      (fwdMap (renameFunc σ f) (sortedImportsOf ⟨pre ++ .fndef f :: post⟩))
      (renameFunc σ (extract_docstring f).2) =
      normFunctionDef (fwdMap f (sortedImportsOf ⟨pre ++ .fndef f :: post⟩))
        (extract_docstring f).2 := by
    rw [hfw, hfw]
    apply normFunctionDef_rename
    · exact hmapn (extract_docstring f).2.name (List.mem_cons_self ..)
    · intro id hid
      rw [occNames_strip] at hid
      exact hmapn id (List.mem_cons_of_mem _ hid)
  have hmain : (normCore (renameFunc σ f)
        (sortedImportsOf ⟨pre ++ .fndef f :: post⟩)).withoutDoc =
      (normCore f (sortedImportsOf ⟨pre ++ .fndef f :: post⟩)).withoutDoc := by
    rw [normCore, normCore]
    dsimp only
    rw [hri, ham, replace_ouverture_calls_nil, replace_ouverture_calls_nil,
      extract_docstring_rename_snd,
      normModule_step _ _ _ (sortedImportsOf_imports _),
      normModule_step _ _ _ (sortedImportsOf_imports _), hfdeq]
  exact ⟨normCore f (sortedImportsOf ⟨pre ++ .fndef f :: post⟩),
    normCore (renameFunc σ f) (sortedImportsOf ⟨pre ++ .fndef f :: post⟩),
    normalize_ok_decomp pre post f lang hpre hpost, hren, hmain, by rw [hmain]⟩

set_option maxRecDepth 100000 in
/-- C1 witness: the order-preserving injective renaming
`f ↦ g, a ↦ u, b ↦ v` of `def f(a, b): return a + b` yields an identical
without-docstring rendering and hash. -/
theorem C1_identifier_invariance_witness :
    ∃ r r' : Normalized,
      normalize_ast ⟨[.fndef ⟨ "f", [⟨"a"⟩, ⟨"b"⟩],
          [.ret (some (.binop (.name "a") "+" (.name "b")))]⟩]⟩ "eng" = .ok r ∧
      normalize_ast (renameModule
          (fun s => if s = "a" then "u" else if s = "b" then "v" else
            if s = "f" then "g" else s)
          ⟨[.fndef ⟨ "f", [⟨"a"⟩, ⟨"b"⟩],
            [.ret (some (.binop (.name "a") "+" (.name "b")))]⟩]⟩) "eng" = .ok r' ∧
      r'.withoutDoc = r.withoutDoc ∧
      compute_hash r'.withoutDoc = compute_hash r.withoutDoc :=
  C1_identifier_invariance [] [] ⟨"f", [⟨"a"⟩, ⟨"b"⟩],
      [.ret (some (.binop (.name "a") "+" (.name "b")))]⟩
    (fun s => if s = "a" then "u" else if s = "b" then "v" else
      if s = "f" then "g" else s) "eng"
    (by decide) (by decide) (by decide) (by decide) (by decide) (by decide) (by decide)

/-! ### C4: the hash is purely structural -/

mutual
theorem structEqN_eq : ∀ a b : ANode, structEqN a b = true → a = b
  | .node t1 f1, .node t2 f2, h => by
    rw [structEqN, Bool.and_eq_true, beq_iff_eq] at h
    rw [h.1, structEqFs_eq f1 f2 h.2]
theorem structEqFs_eq : ∀ a b : List AField, structEqFs a b = true → a = b
  | [], [], _ => rfl
  | [], _ :: _, h => by simp [structEqFs] at h
  | _ :: _, [], h => by simp [structEqFs] at h
  | f :: fs, g :: gs, h => by
    rw [structEqFs, Bool.and_eq_true] at h
    rw [structEqF_eq f g h.1, structEqFs_eq fs gs h.2]
theorem structEqF_eq : ∀ a b : AField, structEqF a b = true → a = b
  | .scalar n1 v1, .scalar n2 v2, h => by
    rw [structEqF, Bool.and_eq_true, beq_iff_eq, beq_iff_eq] at h
    rw [h.1, h.2]
  | .child n1 c1, .child n2 c2, h => by
    rw [structEqF, Bool.and_eq_true, beq_iff_eq] at h
    rw [h.1, structEqN_eq c1 c2 h.2]
  | .seq n1 i1, .seq n2 i2, h => by
    rw [structEqF, Bool.and_eq_true, beq_iff_eq] at h
    rw [h.1, structEqIs_eq i1 i2 h.2]
  | .scalar _ _, .child _ _, h => by simp [structEqF] at h
  | .scalar _ _, .seq _ _, h => by simp [structEqF] at h
  | .child _ _, .scalar _ _, h => by simp [structEqF] at h
  | .child _ _, .seq _ _, h => by simp [structEqF] at h
  | .seq _ _, .scalar _ _, h => by simp [structEqF] at h
  | .seq _ _, .child _ _, h => by simp [structEqF] at h
theorem structEqIs_eq : ∀ a b : List AItem, structEqIs a b = true → a = b
  | [], [], _ => rfl
  | [], _ :: _, h => by simp [structEqIs] at h
  | _ :: _, [], h => by simp [structEqIs] at h
  | i :: is_, j :: js, h => by
    rw [structEqIs, Bool.and_eq_true] at h
    rw [structEqI_eq i j h.1, structEqIs_eq is_ js h.2]
theorem structEqI_eq : ∀ a b : AItem, structEqI a b = true → a = b
  | .inode a, .inode b, h => by
    rw [structEqI] at h
    rw [structEqN_eq a b h]
  | .ival a, .ival b, h => by
    rw [structEqI, beq_iff_eq] at h
    rw [h]
  | .inode _, .ival _, h => by simp [structEqI] at h
  | .ival _, .inode _, h => by simp [structEqI] at h
end

/-- C4: two structurally identical AST nodes — same type label, same field
names, equal scalar values, recursively structurally identical children in
the same order — receive the same `content_hash` from `ast_to_aston`: the
hash is a function of the structure alone (a shallow embedding has no object
identity or construction order to depend on). -/
theorem C4_structural_hash (a b : ANode) (h : structEqN a b = true) :
    (ast_to_aston a).1 = (ast_to_aston b).1 := by
  rw [structEqN_eq a b h]

/-- C4 witness. -/
theorem C4_structural_hash_witness :
    structEqN (.node "Name" [.scalar "id" (.astr "x")])
      (.node "Name" [.scalar "id" (.astr "x")]) = true ∧
    (ast_to_aston (.node "Name" [.scalar "id" (.astr "x")])).1 =
      (ast_to_aston (.node "Name" [.scalar "id" (.astr "x")])).1 :=
  ⟨by decide, C4_structural_hash _ _ (by decide)⟩

/-! ### C5: quad layout of `ast_to_aston` -/

theorem astonItems_spec : ∀ its : List AItem,
    astonItems its = (its.map itemVal, (its.map itemDescFn).flatten) := by
  intro its
  induction its with
  | nil => rfl
  | cons it rest ih =>
    cases it with
    | inode c =>
      rw [astonItems, ih]
      rw [List.map_cons, List.map_cons, List.flatten_cons]
      rfl
    | ival v =>
      rw [astonItems, ih]
      rw [List.map_cons, List.map_cons, List.flatten_cons]
      rfl

theorem astonFields_spec : ∀ (fs : List AField) (obj : List (String × JVal)),
    (astonFields fs obj).2.1 = fs.map (fun fl => (fieldName fl, fieldEncOf fl)) ∧
    (astonFields fs obj).2.2 = (fs.map fieldDesc).flatten := by
  intro fs
  induction fs with
  | nil => intro obj; exact ⟨rfl, rfl⟩
  | cons fl rest ih =>
    intro obj
    cases fl with
    | scalar f v =>
      rw [astonFields]
      refine ⟨?_, ?_⟩
      · show (f, FieldEnc.fscalar v) :: (astonFields rest _).2.1 = _
        rw [(ih _).1, List.map_cons]
        rfl
      · show (astonFields rest _).2.2 = _
        rw [(ih _).2, List.map_cons, List.flatten_cons, fieldDesc, List.nil_append]
    | child f c =>
      rw [astonFields]
      refine ⟨?_, ?_⟩
      · show (f, FieldEnc.fscalar (.astr (ast_to_aston c).1)) ::
            (astonFields rest _).2.1 = _
        rw [(ih _).1, List.map_cons]
        rfl
      · show (ast_to_aston c).2 ++ (astonFields rest _).2.2 = _
        rw [(ih _).2, List.map_cons, List.flatten_cons, fieldDesc]
    | seq f items =>
      rw [astonFields, astonItems_spec]
      refine ⟨?_, ?_⟩
      · show (f, FieldEnc.flist (items.map itemVal)) :: (astonFields rest _).2.1 = _
        rw [(ih _).1, List.map_cons]
        rfl
      · show (items.map itemDescFn).flatten ++ (astonFields rest _).2.2 = _
        rw [(ih _).2, List.map_cons, List.flatten_cons, fieldDesc]

theorem fieldQuads_map (h : String) : ∀ fs : List AField,
    fieldQuads h (fs.map fun fl => (fieldName fl, fieldEncOf fl)) =
      (fs.map (fieldOwn h)).flatten := by
  intro fs
  induction fs with
  | nil => rfl
  | cons fl rest ih =>
    cases fl with
    | scalar f v =>
      rw [List.map_cons, fieldName, fieldEncOf, fieldQuads, ih, List.map_cons,
        List.flatten_cons, fieldOwn]
      rfl
    | child f c =>
      rw [List.map_cons, fieldName, fieldEncOf, fieldQuads, ih, List.map_cons,
        List.flatten_cons, fieldOwn]
      rfl
    | seq f items =>
      rw [List.map_cons, fieldName, fieldEncOf, fieldQuads, ih, List.map_cons,
        List.flatten_cons, fieldOwn]

theorem seqQuads_mem_h (h f : String) : ∀ (i : Nat) (vs : List AScalar) (q : Quad),
    q ∈ seqQuads h f i vs → q.h = h := by
  intro i vs
  induction vs generalizing i with
  | nil => intro q hq; simp [seqQuads] at hq
  | cons v rest ih =>
    intro q hq
    rw [seqQuads] at hq
    rcases List.mem_cons.mp hq with hq | hq
    · rw [hq]
    · exact ih (i + 1) q hq

theorem fieldOwn_mem_h (h : String) (fl : AField) (q : Quad) (hq : q ∈ fieldOwn h fl) :
    q.h = h := by
  cases fl with
  | scalar f v =>
    rw [fieldOwn, List.mem_singleton] at hq
    rw [hq]
  | child f c =>
    rw [fieldOwn, List.mem_singleton] at hq
    rw [hq]
  | seq f items => exact seqQuads_mem_h h f 0 _ q hq

theorem ownQuads_mem_h (n : ANode) (q : Quad) (hq : q ∈ ownQuads n) :
    q.h = nodeHash n := by
  cases n with
  | node ty fields =>
    rw [ownQuads] at hq
    rcases List.mem_cons.mp hq with hq | hq
    · rw [hq]
    · obtain ⟨l, hl, hql⟩ := List.mem_flatten.mp hq
      obtain ⟨fl, _, hfl⟩ := List.mem_map.mp hl
      exact fieldOwn_mem_h _ fl q (hfl ▸ hql)

/-- C5: `ast_to_aston` emits the quads of all of a node's descendants before
the node's own quads (post-order, root quads last); in every own quad the
value for an AST-valued child is that child's `content_hash` (never the
child's raw content — see the shape of `ownQuads`/`fieldOwn`), and the index
component is an integer position exactly for the quads of list-valued fields
(`seqQuads`) and null for the `_type` quad and all scalar-valued fields. -/
theorem aston_quads_decomp (n : ANode) :
    (ast_to_aston n).2 = descQuads n ++ ownQuads n := by
  cases n with
  | node ty fields =>
    cases hE : astonFields fields [("_type", .jstr ty)] with
    | mk obj rest =>
      cases rest with
      | mk fdata ts =>
        have hspec := astonFields_spec fields [("_type", .jstr ty)]
        rw [hE] at hspec
        dsimp only at hspec
        have hval : ast_to_aston (.node ty fields) =
            (sha256hex (utf8 (jdumpObj obj)),
             ts ++ ⟨sha256hex (utf8 (jdumpObj obj)), "_type", none, .astr ty⟩ ::
               fieldQuads (sha256hex (utf8 (jdumpObj obj))) fdata) := by
          simp only [ast_to_aston, hE]
        have hh : nodeHash (.node ty fields) =
            sha256hex (utf8 (jdumpObj obj)) := by
          rw [nodeHash, hval]
        rw [hval]
        dsimp only
        rw [hspec.1, hspec.2, fieldQuads_map, descQuads, ownQuads, ← hh]

/-- C5: `ast_to_aston` emits the quads of all of a node's descendants before
the node's own quads (post-order, root quads last); in every own quad the
value for an AST-valued child is that child's `content_hash` (never the
child's raw content — see the shape of `ownQuads`/`fieldOwn`), and the index
component is an integer position exactly for the quads of list-valued fields
(`seqQuads`) and null for the `_type` quad and all scalar-valued fields. -/
theorem C5_quad_layout (n : ANode) :
    (ast_to_aston n).2 = descQuads n ++ ownQuads n ∧
    (∀ q ∈ ownQuads n, q.h = nodeHash n) ∧
    (ast_to_aston n).1 = nodeHash n :=
  ⟨aston_quads_decomp n, fun q hq => ownQuads_mem_h n q hq, rfl⟩

/-! ### C3 — shape of content hashes (a content hash is always 64 lowercase
hex characters, so it is recognised by `isHashRef`) -/

theorem hexDigit_isHex : ∀ d : Nat, isHexChar (hexDigit d) = true
  | 0 => by decide
  | 1 => by decide
  | 2 => by decide
  | 3 => by decide
  | 4 => by decide
  | 5 => by decide
  | 6 => by decide
  | 7 => by decide
  | 8 => by decide
  | 9 => by decide
  | 10 => by decide
  | 11 => by decide
  | 12 => by decide
  | 13 => by decide
  | 14 => by decide
  | _ + 15 => rfl

theorem wordHexChars_isHex (w : Nat) : ∀ c ∈ wordHexChars w, isHexChar c = true := by
  intro c hc
  rw [wordHexChars] at hc
  simp only [List.mem_cons, List.not_mem_nil, or_false] at hc
  rcases hc with rfl | rfl | rfl | rfl | rfl | rfl | rfl | rfl <;> exact hexDigit_isHex _

theorem wordHexChars_length (w : Nat) : (wordHexChars w).length = 8 := rfl

theorem sha256Block_length (st b : List Nat) : (sha256Block st b).length = 8 := by
  simp [sha256Block]

theorem sha256Words_length (msg : List Nat) : (sha256Words msg).length = 8 := by
  rw [sha256Words]
  have key : ∀ (bs : List (List Nat)) (st : List Nat), st.length = 8 →
      (bs.foldl sha256Block st).length = 8 := by
    intro bs
    induction bs with
    | nil => intro st h; exact h
    | cons b rest ih =>
      intro st _
      rw [List.foldl_cons]
      exact ih _ (sha256Block_length st b)
  exact key _ _ rfl

theorem hexChars_flatten_length : ∀ ws : List Nat,
    ((ws.map wordHexChars).flatten).length = 8 * ws.length := by
  intro ws
  induction ws with
  | nil => rfl
  | cons w rest ih =>
    rw [List.map_cons, List.flatten_cons, List.length_append, ih,
      wordHexChars_length, List.length_cons]
    ring

theorem sha256hex_length (msg : List Nat) : (sha256hex msg).data.length = 64 := by
  show ((sha256Words msg).map wordHexChars).flatten.length = 64
  rw [hexChars_flatten_length, sha256Words_length]

theorem sha256hex_isHex (msg : List Nat) :
    ∀ c ∈ (sha256hex msg).data, isHexChar c = true := by
  intro c hc
  have hc' : c ∈ ((sha256Words msg).map wordHexChars).flatten := hc
  obtain ⟨l, hl, hcl⟩ := List.mem_flatten.mp hc'
  obtain ⟨w, _, hw⟩ := List.mem_map.mp hl
  exact wordHexChars_isHex w c (hw ▸ hcl)

theorem isHashRef_sha (msg : List Nat) : isHashRef (.astr (sha256hex msg)) = true := by
  simp only [isHashRef, Bool.and_eq_true, beq_iff_eq, List.all_eq_true]
  exact ⟨sha256hex_length msg, fun c hc => sha256hex_isHex msg c hc⟩

theorem nodeHash_sha (n : ANode) : ∃ msg, nodeHash n = sha256hex msg := by
  cases n with
  | node ty fields =>
    rcases hE : astonFields fields [("_type", .jstr ty)] with ⟨obj, fdata, ts⟩
    refine ⟨utf8 (jdumpObj obj), ?_⟩
    rw [nodeHash]
    simp only [ast_to_aston, hE]

theorem isHashRef_nodeHash (n : ANode) : isHashRef (.astr (nodeHash n)) = true := by
  obtain ⟨msg, hm⟩ := nodeHash_sha n
  rw [hm]
  exact isHashRef_sha msg

/-! ### C3 — hash injectivity on the subtrees, from `collisionFree` -/

theorem pairwiseB_forall {α : Type} (p : α → α → Bool) :
    ∀ l : List α, pairwiseB p l = true →
      ∀ a ∈ l, ∀ b ∈ l, a = b ∨ p a b = true ∨ p b a = true := by
  intro l
  induction l with
  | nil => intro _ a ha; simp at ha
  | cons x rest ih =>
    intro hp a ha b hb
    rw [pairwiseB, Bool.and_eq_true, List.all_eq_true] at hp
    rcases List.mem_cons.mp ha with hax | ha
    · rcases List.mem_cons.mp hb with hbx | hb
      · left; rw [hax, hbx]
      · right; left; rw [hax]; exact hp.1 b hb
    · rcases List.mem_cons.mp hb with hbx | hb
      · right; right; rw [hbx]; exact hp.1 a ha
      · exact ih hp.2 a ha b hb

theorem collisionFree_inj (t : ANode) (hcf : collisionFree t = true) :
    ∀ a ∈ subtreesN t, ∀ b ∈ subtreesN t, nodeHash a = nodeHash b → a = b := by
  intro a ha b hb hh
  rcases pairwiseB_forall _ _ hcf a ha b hb with rfl | hp | hp
  · rfl
  · rw [Bool.or_eq_true] at hp
    rcases hp with hp | hp
    · rw [Bool.not_eq_true', beq_eq_false_iff_ne] at hp
      exact absurd hh hp
    · exact structEqN_eq a b hp
  · rw [Bool.or_eq_true] at hp
    rcases hp with hp | hp
    · rw [Bool.not_eq_true', beq_eq_false_iff_ne] at hp
      exact absurd hh.symm hp
    · exact (structEqN_eq b a hp).symm

/-! ### C3 — structure of a sequence field's quads -/

theorem seqQuads_length (h f : String) : ∀ (i : Nat) (vs : List AScalar),
    (seqQuads h f i vs).length = vs.length := by
  intro i vs
  induction vs generalizing i with
  | nil => rfl
  | cons v rest ih => rw [seqQuads, List.length_cons, ih, List.length_cons]

theorem seqQuads_mem_key (h f : String) : ∀ (i : Nat) (vs : List AScalar) (q : Quad),
    q ∈ seqQuads h f i vs → q.key = f := by
  intro i vs
  induction vs generalizing i with
  | nil => intro q hq; simp [seqQuads] at hq
  | cons v rest ih =>
    intro q hq
    rw [seqQuads] at hq
    rcases List.mem_cons.mp hq with rfl | hq
    · rfl
    · exact ih (i + 1) q hq

theorem seqQuads_mem_idx (h f : String) : ∀ (i : Nat) (vs : List AScalar) (q : Quad),
    q ∈ seqQuads h f i vs → ∃ j, j < vs.length ∧ q.idx = some (i + j) := by
  intro i vs
  induction vs generalizing i with
  | nil => intro q hq; simp [seqQuads] at hq
  | cons v rest ih =>
    intro q hq
    rw [seqQuads] at hq
    rcases List.mem_cons.mp hq with rfl | hq
    · exact ⟨0, by simp⟩
    · obtain ⟨j, hj, hidx⟩ := ih (i + 1) q hq
      exact ⟨j + 1, by rw [List.length_cons]; omega, by rw [hidx]; congr 1; omega⟩

theorem seqQuads_nodup (h f : String) : ∀ (i : Nat) (vs : List AScalar),
    (seqQuads h f i vs).Nodup := by
  intro i vs
  induction vs generalizing i with
  | nil => exact List.nodup_nil
  | cons v rest ih =>
    rw [seqQuads]
    refine List.nodup_cons.mpr ⟨?_, ih (i + 1)⟩
    intro hmem
    obtain ⟨j, _, hidx⟩ := seqQuads_mem_idx h f (i + 1) rest _ hmem
    have h2 : some i = some (i + 1 + j) := hidx
    have h3 := Option.some.inj h2
    omega

theorem seqQuads_map_key (h f : String) : ∀ (i : Nat) (vs : List AScalar),
    (seqQuads h f i vs).map Quad.key = List.replicate vs.length f := by
  intro i vs
  induction vs generalizing i with
  | nil => rfl
  | cons v rest ih =>
    rw [seqQuads, List.map_cons, ih, List.length_cons, List.replicate_succ]

theorem seqQuads_find (h f : String) : ∀ (vs : List AScalar) (i j : Nat)
    (hj : j < vs.length),
    (seqQuads h f i vs).find? (fun q => q.idx == some (i + j)) =
      some ⟨h, f, some (i + j), vs.get ⟨j, hj⟩⟩ := by
  intro vs
  induction vs with
  | nil => intro i j hj; simp at hj
  | cons v rest ih =>
    intro i j hj
    cases j with
    | zero =>
      rw [seqQuads]
      refine List.find?_cons_of_pos _ ?_
      simp
    | succ j' =>
      rw [seqQuads]
      rw [List.find?_cons_of_neg _ (by simp)]
      have hj' : j' < rest.length := Nat.lt_of_succ_lt_succ hj
      have := ih (i + 1) j' hj'
      have harith : i + 1 + j' = i + (j' + 1) := by omega
      rw [harith] at this
      rw [show (v :: rest).get ⟨j' + 1, hj⟩ = rest.get ⟨j', hj'⟩ from rfl]
      exact this

/-! ### C3 — subtrees: self-membership, transitivity, well-formedness
propagation -/

theorem mem_subtreesN_self (s : ANode) : s ∈ subtreesN s := by
  cases s with
  | node ty fields => rw [subtreesN]; exact List.mem_cons_self _ _

mutual
theorem subtrees_transN : ∀ u : ANode, ∀ s ∈ subtreesN u, ∀ x ∈ subtreesN s, x ∈ subtreesN u
  | .node ty fields, s, hs, x, hx => by
    rw [subtreesN] at hs ⊢
    rcases List.mem_cons.mp hs with hsu | hs
    · rw [hsu] at hx
      rw [subtreesN] at hx
      exact hx
    · exact List.mem_cons_of_mem _ (subtrees_transFs fields s hs x hx)
theorem subtrees_transFs :
    ∀ fs : List AField, ∀ s ∈ subtreesFs fs, ∀ x ∈ subtreesN s, x ∈ subtreesFs fs
  | [], s, hs, x, hx => by rw [subtreesFs] at hs; exact absurd hs (List.not_mem_nil s)
  | .scalar f v :: rest, s, hs, x, hx => by
    rw [subtreesFs] at hs ⊢
    exact subtrees_transFs rest s hs x hx
  | .child f c :: rest, s, hs, x, hx => by
    rw [subtreesFs] at hs ⊢
    rcases List.mem_append.mp hs with hs | hs
    · exact List.mem_append_left _ (subtrees_transN c s hs x hx)
    · exact List.mem_append_right _ (subtrees_transFs rest s hs x hx)
  | .seq f items :: rest, s, hs, x, hx => by
    rw [subtreesFs] at hs ⊢
    rcases List.mem_append.mp hs with hs | hs
    · exact List.mem_append_left _ (subtrees_transIs items s hs x hx)
    · exact List.mem_append_right _ (subtrees_transFs rest s hs x hx)
theorem subtrees_transIs :
    ∀ its : List AItem, ∀ s ∈ subtreesIs its, ∀ x ∈ subtreesN s, x ∈ subtreesIs its
  | [], s, hs, x, hx => by rw [subtreesIs] at hs; exact absurd hs (List.not_mem_nil s)
  | .inode c :: rest, s, hs, x, hx => by
    rw [subtreesIs] at hs ⊢
    rcases List.mem_append.mp hs with hs | hs
    · exact List.mem_append_left _ (subtrees_transN c s hs x hx)
    · exact List.mem_append_right _ (subtrees_transIs rest s hs x hx)
  | .ival v :: rest, s, hs, x, hx => by
    rw [subtreesIs] at hs ⊢
    exact subtrees_transIs rest s hs x hx
end

mutual
theorem wf_subtreeN : ∀ u : ANode, wfN u = true → ∀ s ∈ subtreesN u, wfN s = true
  | .node ty fields, hwf, s, hs => by
    rw [subtreesN] at hs
    rcases List.mem_cons.mp hs with hsu | hs
    · rw [hsu]; exact hwf
    · rw [wfN, Bool.and_eq_true, Bool.and_eq_true] at hwf
      exact wf_subtreeFs fields hwf.2 s hs
theorem wf_subtreeFs : ∀ fs : List AField, wfFs fs = true → ∀ s ∈ subtreesFs fs, wfN s = true
  | [], _, s, hs => by rw [subtreesFs] at hs; exact absurd hs (List.not_mem_nil s)
  | .scalar f v :: rest, hwf, s, hs => by
    rw [subtreesFs] at hs
    rw [wfFs, Bool.and_eq_true] at hwf
    exact wf_subtreeFs rest hwf.2 s hs
  | .child f c :: rest, hwf, s, hs => by
    rw [subtreesFs] at hs
    rw [wfFs, Bool.and_eq_true] at hwf
    rcases List.mem_append.mp hs with hs | hs
    · exact wf_subtreeN c hwf.1 s hs
    · exact wf_subtreeFs rest hwf.2 s hs
  | .seq f items :: rest, hwf, s, hs => by
    rw [subtreesFs] at hs
    rw [wfFs, Bool.and_eq_true, Bool.and_eq_true] at hwf
    rcases List.mem_append.mp hs with hs | hs
    · exact wf_subtreeIs items hwf.1.2 s hs
    · exact wf_subtreeFs rest hwf.2 s hs
theorem wf_subtreeIs : ∀ its : List AItem, wfIs its = true → ∀ s ∈ subtreesIs its, wfN s = true
  | [], _, s, hs => by rw [subtreesIs] at hs; exact absurd hs (List.not_mem_nil s)
  | .inode c :: rest, hwf, s, hs => by
    rw [subtreesIs] at hs
    rw [wfIs, Bool.and_eq_true] at hwf
    rcases List.mem_append.mp hs with hs | hs
    · exact wf_subtreeN c hwf.1 s hs
    · exact wf_subtreeIs rest hwf.2 s hs
  | .ival v :: rest, hwf, s, hs => by
    rw [subtreesIs] at hs
    rw [wfIs, Bool.and_eq_true] at hwf
    exact wf_subtreeIs rest hwf.2 s hs
end

/-! ### C3 — structure of a node's own quads: keys, duplicate-freeness -/

theorem fieldOwn_key (H : String) (fl : AField) : ∀ q ∈ fieldOwn H fl, q.key = fieldName fl := by
  intro q hq
  cases fl with
  | scalar f v =>
    rw [fieldOwn, List.mem_singleton] at hq
    rw [hq]; rfl
  | child f c =>
    rw [fieldOwn, List.mem_singleton] at hq
    rw [hq]; rfl
  | seq f items => exact seqQuads_mem_key H f 0 _ q hq

theorem fieldOwn_nodup (H : String) (fl : AField) : (fieldOwn H fl).Nodup := by
  cases fl with
  | scalar f v => exact List.nodup_singleton _
  | child f c => exact List.nodup_singleton _
  | seq f items => exact seqQuads_nodup H f 0 _

theorem fieldOwn_map_key (H : String) (fl : AField) :
    (fieldOwn H fl).map Quad.key = List.replicate (fieldOwn H fl).length (fieldName fl) := by
  cases fl with
  | scalar f v => rfl
  | child f c => rfl
  | seq f items => rw [fieldOwn, seqQuads_map_key, seqQuads_length]; rfl

theorem wfN_parts (ty : String) (fields : List AField) (hwf : wfN (.node ty fields) = true) :
    (fields.map fieldName).Nodup ∧ (∀ k ∈ fields.map fieldName, k ≠ "_type") ∧
      wfFs fields = true := by
  rw [wfN, Bool.and_eq_true, Bool.and_eq_true] at hwf
  refine ⟨of_decide_eq_true hwf.1.1, ?_, hwf.2⟩
  intro k hk
  have := List.all_eq_true.mp hwf.1.2 k hk
  exact of_decide_eq_true this

theorem wfFs_own_ne_nil (H : String) : ∀ fs : List AField, wfFs fs = true →
    ∀ fl ∈ fs, fieldOwn H fl ≠ [] := by
  intro fs
  induction fs with
  | nil => intro _ fl hfl; exact absurd hfl (List.not_mem_nil fl)
  | cons g rest ih =>
    intro hwf fl hfl
    rcases List.mem_cons.mp hfl with hflg | hfl2
    · rw [hflg]
      cases g with
      | scalar f v => rw [fieldOwn]; exact List.cons_ne_nil _ _
      | child f c => rw [fieldOwn]; exact List.cons_ne_nil _ _
      | seq f items =>
        rw [wfFs, Bool.and_eq_true, Bool.and_eq_true] at hwf
        cases items with
        | nil => simp [List.isEmpty] at hwf
        | cons it its =>
          rw [fieldOwn, List.map_cons, seqQuads]
          exact List.cons_ne_nil _ _
    · cases g with
      | scalar f v =>
        rw [wfFs, Bool.and_eq_true] at hwf
        exact ih hwf.2 fl hfl2
      | child f c =>
        rw [wfFs, Bool.and_eq_true] at hwf
        exact ih hwf.2 fl hfl2
      | seq f items =>
        rw [wfFs, Bool.and_eq_true, Bool.and_eq_true] at hwf
        exact ih hwf.2 fl hfl2

theorem ownQuads_nodup (ty : String) (fields : List AField)
    (hwf : wfN (.node ty fields) = true) : (ownQuads (.node ty fields)).Nodup := by
  obtain ⟨hnd, hnt, _⟩ := wfN_parts ty fields hwf
  rw [ownQuads]
  refine List.nodup_cons.mpr ⟨?_, ?_⟩
  · intro hmem
    obtain ⟨l, hl, hql⟩ := List.mem_flatten.mp hmem
    obtain ⟨fl, hfl, hfo⟩ := List.mem_map.mp hl
    have hk := fieldOwn_key (nodeHash (.node ty fields)) fl _ (hfo ▸ hql)
    exact hnt (fieldName fl) (List.mem_map_of_mem fieldName hfl) hk.symm
  · rw [List.nodup_join]
    refine ⟨?_, ?_⟩
    · intro l hl
      obtain ⟨fl, _, hfo⟩ := List.mem_map.mp hl
      rw [← hfo]
      exact fieldOwn_nodup _ fl
    · refine List.Pairwise.map _ ?_ (List.pairwise_map.mp hnd)
      intro a b hne q hqa hqb
      have ha := fieldOwn_key _ a q hqa
      have hb := fieldOwn_key _ b q hqb
      exact hne (ha ▸ hb ▸ rfl)

/-! ### C3 — deduplication machinery (`List.dedup` keeps the last occurrence
of every element; the decoder deduplicates the quad stream into a quad set) -/

theorem dedup_append_left_subset {α : Type} [DecidableEq α] :
    ∀ (A L : List α), (∀ x ∈ A, x ∈ L) → (A ++ L).dedup = L.dedup := by
  intro A
  induction A with
  | nil => intro L _; rfl
  | cons a A2 ih =>
    intro L h
    rw [List.cons_append,
      List.dedup_cons_of_mem (List.mem_append_right A2 (h a (List.mem_cons_self a A2)))]
    exact ih L (fun x hx => h x (List.mem_cons_of_mem a hx))

theorem dedup_replicate_append {α : Type} [DecidableEq α] :
    ∀ (c : Nat) (n : α) (R : List α), n ∉ R →
      (List.replicate (c + 1) n ++ R).dedup = n :: R.dedup := by
  intro c
  induction c with
  | zero =>
    intro n R h
    rw [List.replicate_succ, List.replicate_zero, List.singleton_append,
      List.dedup_cons_of_not_mem h]
  | succ c ih =>
    intro n R h
    rw [List.replicate_succ, List.cons_append,
      List.dedup_cons_of_mem
        (List.mem_append_left R (List.mem_replicate.mpr ⟨Nat.succ_ne_zero c, rfl⟩))]
    exact ih n R h

theorem filter_dedup {α : Type} [DecidableEq α] (p : α → Bool) :
    ∀ l : List α, (l.dedup).filter p = (l.filter p).dedup := by
  intro l
  induction l with
  | nil => rfl
  | cons a l ih =>
    by_cases ha : a ∈ l
    · rw [List.dedup_cons_of_mem ha]
      cases hp : p a
      · rw [List.filter_cons_of_neg (by simp [hp])]
        exact ih
      · rw [List.filter_cons_of_pos (by simp [hp]),
          List.dedup_cons_of_mem (List.mem_filter.mpr ⟨ha, hp⟩)]
        exact ih
    · rw [List.dedup_cons_of_not_mem ha]
      cases hp : p a
      · rw [List.filter_cons_of_neg (by simp [hp]), List.filter_cons_of_neg (by simp [hp])]
        exact ih
      · rw [List.filter_cons_of_pos (by simp [hp]), List.filter_cons_of_pos (by simp [hp]),
          List.dedup_cons_of_not_mem (fun hmem => ha (List.mem_of_mem_filter hmem))]
        rw [ih]

/-! ### C3 — segment structure of the encoded stream with respect to one
target hash: filtering the stream by a subtree's hash yields copies of that
subtree's own-quad block, so deduplication recovers the block exactly -/

theorem SegList_append (tgt : String) (B : List Quad) :
    ∀ L1 L2, SegList tgt B L1 → SegList tgt B L2 → SegList tgt B (L1 ++ L2) := by
  intro L1 L2 h1 h2
  induction h1 with
  | nil => exact h2
  | seg A L hA _ ih =>
    rw [List.append_assoc]
    exact SegList.seg A (L ++ L2) hA ih
  | block L _ ih =>
    rw [List.append_assoc]
    exact SegList.block (L ++ L2) ih

theorem SegList_filter (tgt : String) (B : List Quad) (hB : ∀ q ∈ B, q.h = tgt) :
    ∀ L, SegList tgt B L → Reps B (L.filter fun q => q.h == tgt) := by
  intro L hL
  induction hL with
  | nil => exact Reps.nil
  | seg A L hA _ ih =>
    have hAnil : A.filter (fun q => q.h == tgt) = [] :=
      List.filter_eq_nil_iff.mpr (fun q hq => by simp [hA q hq])
    rw [List.filter_append, hAnil, List.nil_append]
    exact ih
  | block L _ ih =>
    have hBf : B.filter (fun q => q.h == tgt) = B :=
      List.filter_eq_self.mpr (fun q hq => by simp [hB q hq])
    rw [List.filter_append, hBf]
    exact Reps.block _ ih

theorem Reps_dedup (B : List Quad) (hnd : B.Nodup) :
    ∀ L, Reps B L → L ≠ [] → L.dedup = B := by
  intro L h
  induction h with
  | nil => intro hne; exact absurd rfl hne
  | block L2 hL2 ih =>
    intro _
    by_cases h0 : L2 = []
    · rw [h0, List.append_nil]
      exact List.Nodup.dedup hnd
    · have hsub : ∀ x ∈ B, x ∈ L2 := by
        cases hL2 with
        | nil => exact absurd rfl h0
        | block M hM => intro x hx; exact List.mem_append_left M hx
      rw [dedup_append_left_subset B L2 hsub]
      exact ih h0

/-! ### C3 — every subtree's own quads appear in the whole encoding -/

mutual
theorem ownSubN : ∀ u : ANode, ∀ s ∈ subtreesN u, ∀ q ∈ ownQuads s, q ∈ (ast_to_aston u).2
  | .node ty fields, s, hs, q, hq => by
    rw [aston_quads_decomp]
    rw [subtreesN] at hs
    rcases List.mem_cons.mp hs with hsu | hs
    · refine List.mem_append_right _ ?_
      rw [← hsu]
      exact hq
    · refine List.mem_append_left _ ?_
      rw [descQuads]
      exact ownSubFs fields s hs q hq
theorem ownSubFs : ∀ fs : List AField, ∀ s ∈ subtreesFs fs, ∀ q ∈ ownQuads s,
    q ∈ (fs.map fieldDesc).flatten
  | [], s, hs, _, _ => by rw [subtreesFs] at hs; exact absurd hs (List.not_mem_nil s)
  | .scalar f v :: rest, s, hs, q, hq => by
    rw [subtreesFs] at hs
    rw [List.map_cons, List.flatten_cons, fieldDesc, List.nil_append]
    exact ownSubFs rest s hs q hq
  | .child f c :: rest, s, hs, q, hq => by
    rw [subtreesFs] at hs
    rw [List.map_cons, List.flatten_cons, fieldDesc]
    rcases List.mem_append.mp hs with hs | hs
    · exact List.mem_append_left _ (ownSubN c s hs q hq)
    · exact List.mem_append_right _ (ownSubFs rest s hs q hq)
  | .seq f items :: rest, s, hs, q, hq => by
    rw [subtreesFs] at hs
    rw [List.map_cons, List.flatten_cons, fieldDesc]
    rcases List.mem_append.mp hs with hs | hs
    · exact List.mem_append_left _ (ownSubIs items s hs q hq)
    · exact List.mem_append_right _ (ownSubFs rest s hs q hq)
theorem ownSubIs : ∀ its : List AItem, ∀ s ∈ subtreesIs its, ∀ q ∈ ownQuads s,
    q ∈ (its.map itemDescFn).flatten
  | [], s, hs, _, _ => by rw [subtreesIs] at hs; exact absurd hs (List.not_mem_nil s)
  | .inode c :: rest, s, hs, q, hq => by
    rw [subtreesIs] at hs
    rw [List.map_cons, List.flatten_cons, itemDescFn]
    rcases List.mem_append.mp hs with hs | hs
    · exact List.mem_append_left _ (ownSubN c s hs q hq)
    · exact List.mem_append_right _ (ownSubIs rest s hs q hq)
  | .ival v :: rest, s, hs, q, hq => by
    rw [subtreesIs] at hs
    rw [List.map_cons, List.flatten_cons, itemDescFn, List.nil_append]
    exact ownSubIs rest s hs q hq
end

mutual
theorem segN (tgt : String) (B : List Quad) :
    ∀ u : ANode, (∀ s ∈ subtreesN u, nodeHash s = tgt → ownQuads s = B) →
      SegList tgt B (ast_to_aston u).2
  | .node ty fields, hyp => by
    rw [aston_quads_decomp]
    refine SegList_append tgt B _ _ ?_ ?_
    · rw [descQuads]
      exact segFs tgt B fields
        (fun s hs hh => hyp s (by rw [subtreesN]; exact List.mem_cons_of_mem _ hs) hh)
    · by_cases hh : nodeHash (.node ty fields) = tgt
      · have hB : ownQuads (.node ty fields) = B := hyp _ (mem_subtreesN_self _) hh
        rw [hB]
        have hblk : SegList tgt B (B ++ []) := SegList.block [] SegList.nil
        rw [List.append_nil] at hblk
        exact hblk
      · have hseg : ∀ q ∈ ownQuads (.node ty fields), q.h ≠ tgt := fun q hq => by
          rw [ownQuads_mem_h _ q hq]
          exact hh
        have hsg : SegList tgt B (ownQuads (.node ty fields) ++ []) :=
          SegList.seg _ _ hseg SegList.nil
        rw [List.append_nil] at hsg
        exact hsg
theorem segFs (tgt : String) (B : List Quad) :
    ∀ fs : List AField, (∀ s ∈ subtreesFs fs, nodeHash s = tgt → ownQuads s = B) →
      SegList tgt B (fs.map fieldDesc).flatten
  | [], _ => SegList.nil
  | .scalar f v :: rest, hyp => by
    rw [List.map_cons, List.flatten_cons, fieldDesc, List.nil_append]
    exact segFs tgt B rest (fun s hs hh => hyp s (by rw [subtreesFs]; exact hs) hh)
  | .child f c :: rest, hyp => by
    rw [List.map_cons, List.flatten_cons, fieldDesc]
    refine SegList_append tgt B _ _ ?_ ?_
    · exact segN tgt B c
        (fun s hs hh => hyp s (by rw [subtreesFs]; exact List.mem_append_left _ hs) hh)
    · exact segFs tgt B rest
        (fun s hs hh => hyp s (by rw [subtreesFs]; exact List.mem_append_right _ hs) hh)
  | .seq f items :: rest, hyp => by
    rw [List.map_cons, List.flatten_cons, fieldDesc]
    refine SegList_append tgt B _ _ ?_ ?_
    · exact segIs tgt B items
        (fun s hs hh => hyp s (by rw [subtreesFs]; exact List.mem_append_left _ hs) hh)
    · exact segFs tgt B rest
        (fun s hs hh => hyp s (by rw [subtreesFs]; exact List.mem_append_right _ hs) hh)
theorem segIs (tgt : String) (B : List Quad) :
    ∀ its : List AItem, (∀ s ∈ subtreesIs its, nodeHash s = tgt → ownQuads s = B) →
      SegList tgt B (its.map itemDescFn).flatten
  | [], _ => SegList.nil
  | .inode c :: rest, hyp => by
    rw [List.map_cons, List.flatten_cons, itemDescFn]
    refine SegList_append tgt B _ _ ?_ ?_
    · exact segN tgt B c
        (fun s hs hh => hyp s (by rw [subtreesIs]; exact List.mem_append_left _ hs) hh)
    · exact segIs tgt B rest
        (fun s hs hh => hyp s (by rw [subtreesIs]; exact List.mem_append_right _ hs) hh)
  | .ival v :: rest, hyp => by
    rw [List.map_cons, List.flatten_cons, itemDescFn, List.nil_append]
    exact segIs tgt B rest (fun s hs hh => hyp s (by rw [subtreesIs]; exact hs) hh)
end

/-- Filtering the encoded stream by a subtree's hash and deduplicating
yields exactly that subtree's own-quad block. -/
theorem group_filter_char (t : ANode) (hwf : wfN t = true) (hcf : collisionFree t = true)
    (s : ANode) (hs : s ∈ subtreesN t) :
    (((ast_to_aston t).2).filter fun q => q.h == nodeHash s).dedup = ownQuads s := by
  have hyp : ∀ s2 ∈ subtreesN t, nodeHash s2 = nodeHash s → ownQuads s2 = ownQuads s := by
    intro s2 hs2 hh
    rw [collisionFree_inj t hcf s2 hs2 s hs hh]
  have hseg : SegList (nodeHash s) (ownQuads s) (ast_to_aston t).2 := segN _ _ t hyp
  have hreps : Reps (ownQuads s) (((ast_to_aston t).2).filter fun q => q.h == nodeHash s) :=
    SegList_filter _ _ (fun q hq => ownQuads_mem_h s q hq) _ hseg
  have hne : ((ast_to_aston t).2).filter (fun q => q.h == nodeHash s) ≠ [] := by
    cases s with
    | node ty2 fields2 =>
      have hq0 : (⟨nodeHash (.node ty2 fields2), "_type", none, .astr ty2⟩ : Quad) ∈
          ownQuads (.node ty2 fields2) := by
        rw [ownQuads]
        exact List.mem_cons_self _ _
      have hq0enc := ownSubN t _ hs _ hq0
      exact List.ne_nil_of_mem (List.mem_filter.mpr ⟨hq0enc, by simp⟩)
  have hnodup : (ownQuads s).Nodup := by
    have hwfs := wf_subtreeN t hwf s hs
    cases s with
    | node ty2 fields2 => exact ownQuads_nodup ty2 fields2 hwfs
  exact Reps_dedup _ hnodup _ hreps hne

/-- The decoder's group of a subtree's hash, over the deduplicated encoded
stream, is exactly that subtree's own-quad block. -/
theorem group_char (t : ANode) (hwf : wfN t = true) (hcf : collisionFree t = true)
    (s : ANode) (hs : s ∈ subtreesN t) :
    groupOf ((ast_to_aston t).2).dedup (nodeHash s) = ownQuads s := by
  rw [groupOf, filter_dedup]
  exact group_filter_char t hwf hcf s hs

/-! ### C3 — the decoder's view of one group: its field keys in emission
order, and the quads of each single field -/

theorem own_map_key (ty : String) (fields : List AField) :
    (ownQuads (.node ty fields)).map Quad.key =
      "_type" :: (fields.map fun fl =>
        List.replicate ((fieldOwn (nodeHash (.node ty fields)) fl).length)
          (fieldName fl)).flatten := by
  rw [ownQuads, List.map_cons]
  congr 1
  rw [List.map_flatten, List.map_map]
  congr 1
  exact List.map_congr_left (fun fl _ => fieldOwn_map_key _ fl)

theorem keys_flatten_dedup (H : String) : ∀ fields : List AField,
    (fields.map fieldName).Nodup → (∀ fl ∈ fields, fieldOwn H fl ≠ []) →
    ((fields.map fun fl =>
      List.replicate ((fieldOwn H fl).length) (fieldName fl)).flatten).dedup
      = fields.map fieldName := by
  intro fields
  induction fields with
  | nil => intro _ _; rfl
  | cons fl rest ih =>
    intro hnd hne
    rw [List.map_cons] at hnd
    rw [List.map_cons, List.flatten_cons]
    have hlen : (fieldOwn H fl).length ≠ 0 := by
      intro h0
      exact hne fl (List.mem_cons_self _ _) (List.length_eq_zero.mp h0)
    obtain ⟨c, hc⟩ : ∃ c, (fieldOwn H fl).length = c + 1 :=
      ⟨(fieldOwn H fl).length - 1, by omega⟩
    rw [hc]
    have hnotmem : fieldName fl ∉
        (rest.map fun fl2 =>
          List.replicate ((fieldOwn H fl2).length) (fieldName fl2)).flatten := by
      intro hmem
      obtain ⟨l, hl, hxl⟩ := List.mem_flatten.mp hmem
      obtain ⟨fl2, hfl2, hrep⟩ := List.mem_map.mp hl
      have heq := List.eq_of_mem_replicate (hrep ▸ hxl)
      exact (List.nodup_cons.mp hnd).1 (heq ▸ List.mem_map_of_mem fieldName hfl2)
    rw [dedup_replicate_append c _ _ hnotmem, List.map_cons,
      ih (List.nodup_cons.mp hnd).2 (fun g hg => hne g (List.mem_cons_of_mem fl hg))]

theorem groupKeys_own (ty : String) (fields : List AField)
    (hwf : wfN (.node ty fields) = true) :
    groupKeys (ownQuads (.node ty fields)) = fields.map fieldName := by
  obtain ⟨hnd, hnt, hfs⟩ := wfN_parts ty fields hwf
  rw [groupKeys, own_map_key]
  have hne := wfFs_own_ne_nil (nodeHash (.node ty fields)) fields hfs
  have hnotmem : "_type" ∉ (fields.map fun fl =>
      List.replicate ((fieldOwn (nodeHash (.node ty fields)) fl).length)
        (fieldName fl)).flatten := by
    intro hmem
    obtain ⟨l, hl, hxl⟩ := List.mem_flatten.mp hmem
    obtain ⟨fl2, hfl2, hrep⟩ := List.mem_map.mp hl
    have heq := List.eq_of_mem_replicate (hrep ▸ hxl)
    exact hnt (fieldName fl2) (List.mem_map_of_mem fieldName hfl2) heq.symm
  rw [List.dedup_cons_of_not_mem hnotmem, keys_flatten_dedup _ fields hnd hne,
    List.filter_cons_of_neg (by simp)]
  exact List.filter_eq_self.mpr (fun k hk => by simpa using hnt k hk)

theorem filter_flatten_unique (H : String) (k : String) :
    ∀ (fs : List AField) (fl : AField), fl ∈ fs → k = fieldName fl →
      (fs.map fieldName).Nodup →
      (fs.map fun g => (fieldOwn H g).filter (fun q => q.key == k)).flatten =
        fieldOwn H fl := by
  intro fs
  induction fs with
  | nil => intro fl hfl _ _; exact absurd hfl (List.not_mem_nil fl)
  | cons g rest ih =>
    intro fl hfl hk hnd
    rw [List.map_cons] at hnd
    rw [List.map_cons, List.flatten_cons]
    rcases List.mem_cons.mp hfl with hflg | hfl2
    · subst hflg
      have hhead : (fieldOwn H fl).filter (fun q => q.key == k) = fieldOwn H fl :=
        List.filter_eq_self.mpr (fun q hq => by
          rw [fieldOwn_key H fl q hq, hk]
          simp)
      have hrest : (rest.map fun g2 =>
          (fieldOwn H g2).filter (fun q => q.key == k)).flatten = [] := by
        rw [List.flatten_eq_nil_iff]
        intro l hl
        obtain ⟨g2, hg2, hfil⟩ := List.mem_map.mp hl
        rw [← hfil]
        refine List.filter_eq_nil_iff.mpr (fun q hq => ?_)
        have h1 : fieldName g2 ≠ fieldName fl := by
          intro he
          exact (List.nodup_cons.mp hnd).1 (he ▸ List.mem_map_of_mem fieldName hg2)
        simp [fieldOwn_key H g2 q hq, hk, h1]
      rw [hhead, hrest, List.append_nil]
    · have hh : fieldName g ≠ fieldName fl := fun he =>
        (List.nodup_cons.mp hnd).1 (he ▸ List.mem_map_of_mem fieldName hfl2)
      have hhead : (fieldOwn H g).filter (fun q => q.key == k) = [] :=
        List.filter_eq_nil_iff.mpr (fun q hq => by
          simp [fieldOwn_key H g q hq, hk, hh])
      rw [hhead, List.nil_append]
      exact ih fl hfl2 hk (List.nodup_cons.mp hnd).2

theorem own_filter_key (ty : String) (fields : List AField)
    (hwf : wfN (.node ty fields) = true) :
    ∀ fl ∈ fields,
      (ownQuads (.node ty fields)).filter (fun q => q.key == fieldName fl) =
        fieldOwn (nodeHash (.node ty fields)) fl := by
  obtain ⟨hnd, hnt, _⟩ := wfN_parts ty fields hwf
  intro fl hfl
  have hname := hnt (fieldName fl) (List.mem_map_of_mem fieldName hfl)
  rw [ownQuads, List.filter_cons_of_neg (by
    simp only [beq_iff_eq]
    exact fun h => hname h.symm), List.filter_flatten, List.map_map]
  exact filter_flatten_unique _ _ fields fl hfl rfl hnd

/-! ### C3 — stepping the decoder: unfolding lemmas for `buildNode` and
`buildField` on the quad shapes the encoder produces -/

theorem buildNode_succ (qs : List Quad) (fuel : Nat) (h : String) :
    buildNode qs (fuel + 1) h =
      match (groupOf qs h).find? (fun q => q.key == "_type" && q.idx == none) with
      | none => .error ("SchemaError: missing node " ++ h)
      | some tq =>
        match tq.val with
        | .astr ty =>
          (buildFields (buildNode qs fuel) (groupOf qs h)
            (groupKeys (groupOf qs h))).map (fun fields => ANode.node ty fields)
        | _ => .error "SchemaError: malformed type quad" := rfl

theorem buildField_scalar (rec : String → Except String ANode) (k H kq : String)
    (v : AScalar) (hv : isHashRef v = false) :
    buildField rec k [⟨H, kq, none, v⟩] = .ok (.scalar k v) := by
  rw [buildField.eq_def, if_pos (by rfl)]
  cases v with
  | astr s =>
    dsimp only
    rw [hv, if_neg (by simp)]
    rfl
  | anull => rfl
  | abool b => rfl
  | aint n => rfl

theorem buildField_child (rec : String → Except String ANode) (k H kq s : String)
    (hs : isHashRef (.astr s) = true) :
    buildField rec k [⟨H, kq, none, .astr s⟩] = (rec s).map (fun c => .child k c) := by
  rw [buildField.eq_def, if_pos (by rfl)]
  dsimp only
  rw [hs, if_pos rfl]

theorem buildField_seq (rec : String → Except String ANode) (k H f : String)
    (vs : List AScalar) (hvs : vs ≠ []) :
    buildField rec k (seqQuads H f 0 vs) =
      (buildField.buildItems rec (seqQuads H f 0 vs) 0 (seqQuads H f 0 vs).length).map
        (fun items => .seq k items) := by
  cases vs with
  | nil => exact absurd rfl hvs
  | cons v0 vs2 =>
    have hcond : ¬ ((seqQuads H f 0 (v0 :: vs2)).all (fun q => q.idx = none) = true) := by
      rw [seqQuads, List.all_cons]
      simp
    rw [buildField.eq_def, if_neg hcond]

/-! ### C3 — the decoder rebuilds every subtree exactly, by structural
induction over the tree (fuel is only required to cover the nesting depth) -/

mutual
theorem buildNodeOk (dq : List Quad) (t : ANode)
    (hg : ∀ s2 ∈ subtreesN t, groupOf dq (nodeHash s2) = ownQuads s2) :
    ∀ s : ANode, s ∈ subtreesN t → wfN s = true → ∀ fuel, depthN s ≤ fuel →
      buildNode dq fuel (nodeHash s) = .ok s
  | .node ty fields, hmem, hwf, fuel, hfuel => by
    have h1 : depthFs fields + 1 ≤ fuel := by
      rw [depthN] at hfuel
      exact hfuel
    obtain ⟨fuel2, rfl⟩ : ∃ k, fuel = k + 1 := ⟨fuel - 1, by omega⟩
    have hgs : groupOf dq (nodeHash (.node ty fields)) = ownQuads (.node ty fields) :=
      hg _ hmem
    rw [buildNode_succ, hgs]
    have hfind : (ownQuads (.node ty fields)).find?
        (fun q => q.key == "_type" && q.idx == none) =
        some ⟨nodeHash (.node ty fields), "_type", none, .astr ty⟩ := by
      rw [ownQuads]
      exact List.find?_cons_of_pos _ (by simp)
    rw [hfind]
    dsimp only
    rw [groupKeys_own ty fields hwf]
    have hbf : buildFields (buildNode dq fuel2) (ownQuads (.node ty fields))
        (fields.map fieldName) = .ok fields :=
      buildFieldsOk dq t hg fields
        (fun x hx => subtrees_transN t _ hmem x
          (by rw [subtreesN]; exact List.mem_cons_of_mem _ hx))
        (wfN_parts ty fields hwf).2.2 (nodeHash (.node ty fields))
        (ownQuads (.node ty fields)) (own_filter_key ty fields hwf) fuel2 (by omega)
    rw [hbf]
    rfl
theorem buildFieldsOk (dq : List Quad) (t : ANode)
    (hg : ∀ s2 ∈ subtreesN t, groupOf dq (nodeHash s2) = ownQuads s2) :
    ∀ fs : List AField, (∀ x ∈ subtreesFs fs, x ∈ subtreesN t) → wfFs fs = true →
      ∀ (H : String) (g : List Quad),
        (∀ fl ∈ fs, g.filter (fun q => q.key == fieldName fl) = fieldOwn H fl) →
        ∀ fuel, depthFs fs ≤ fuel →
        buildFields (buildNode dq fuel) g (fs.map fieldName) = .ok fs
  | [], _, _, H, g, _, fuel, _ => rfl
  | .scalar f v :: rest, hsub, hwf, H, g, hfil, fuel, hfuel => by
    rw [wfFs, Bool.and_eq_true] at hwf
    rw [List.map_cons, buildFields, hfil _ (List.mem_cons_self _ _), fieldOwn]
    have hbv : isHashRef v = false := by
      have hx := hwf.1
      rw [Bool.not_eq_true'] at hx
      exact hx
    rw [buildField_scalar _ _ _ _ _ hbv]
    have hrest : buildFields (buildNode dq fuel) g (rest.map fieldName) = .ok rest :=
      buildFieldsOk dq t hg rest (fun x hx => hsub x (by rw [subtreesFs]; exact hx))
        hwf.2 H g (fun fl2 hfl2 => hfil fl2 (List.mem_cons_of_mem _ hfl2)) fuel
        (by rw [depthFs] at hfuel; exact hfuel)
    rw [hrest]
    rfl
  | .child f c :: rest, hsub, hwf, H, g, hfil, fuel, hfuel => by
    rw [wfFs, Bool.and_eq_true] at hwf
    rw [List.map_cons, buildFields, hfil _ (List.mem_cons_self _ _), fieldOwn]
    rw [buildField_child _ _ _ _ _ (isHashRef_nodeHash c)]
    have hrec : buildNode dq fuel (nodeHash c) = .ok c :=
      buildNodeOk dq t hg c
        (hsub c (by rw [subtreesFs]; exact List.mem_append_left _ (mem_subtreesN_self c)))
        hwf.1 fuel (le_trans (by rw [depthFs]; exact le_max_left _ _) hfuel)
    rw [hrec]
    have hrest : buildFields (buildNode dq fuel) g (rest.map fieldName) = .ok rest :=
      buildFieldsOk dq t hg rest
        (fun x hx => hsub x (by rw [subtreesFs]; exact List.mem_append_right _ hx))
        hwf.2 H g (fun fl2 hfl2 => hfil fl2 (List.mem_cons_of_mem _ hfl2)) fuel
        (le_trans (by rw [depthFs]; exact le_max_right _ _) hfuel)
    rw [hrest]
    rfl
  | .seq f items :: rest, hsub, hwf, H, g, hfil, fuel, hfuel => by
    rw [wfFs, Bool.and_eq_true, Bool.and_eq_true] at hwf
    obtain ⟨⟨hne0, hwits⟩, hwrest⟩ := hwf
    cases items with
    | nil => simp [List.isEmpty] at hne0
    | cons it its =>
      rw [List.map_cons, buildFields, hfil _ (List.mem_cons_self _ _), fieldOwn]
      rw [buildField_seq _ _ _ _ _ (by simp)]
      have hlen : (seqQuads H f 0 ((it :: its).map itemVal)).length = (it :: its).length := by
        rw [seqQuads_length, List.length_map]
      rw [hlen]
      have hfind : ∀ (j : Nat) (hj : j < (it :: its).length),
          ∃ q, (seqQuads H f 0 ((it :: its).map itemVal)).find?
            (fun q2 => q2.idx == some (0 + j)) = some q ∧
            q.val = itemVal ((it :: its).get ⟨j, hj⟩) := by
        intro j hj
        have hj2 : j < ((it :: its).map itemVal).length := by
          rw [List.length_map]
          exact hj
        refine ⟨_, seqQuads_find H f ((it :: its).map itemVal) 0 j hj2, ?_⟩
        show ((it :: its).map itemVal).get ⟨j, hj2⟩ = itemVal ((it :: its).get ⟨j, hj⟩)
        simp only [List.get_eq_getElem, List.getElem_map]
      have hbi : buildField.buildItems (buildNode dq fuel)
          (seqQuads H f 0 ((it :: its).map itemVal)) 0 ((it :: its).length) =
          .ok (it :: its) :=
        buildItemsOk dq t hg (it :: its)
          (fun x hx => hsub x (by rw [subtreesFs]; exact List.mem_append_left _ hx))
          hwits (seqQuads H f 0 ((it :: its).map itemVal)) 0 hfind fuel
          (le_trans (by rw [depthFs]; exact le_max_left _ _) hfuel)
      rw [hbi]
      have hrest : buildFields (buildNode dq fuel) g (rest.map fieldName) = .ok rest :=
        buildFieldsOk dq t hg rest
          (fun x hx => hsub x (by rw [subtreesFs]; exact List.mem_append_right _ hx))
          hwrest H g (fun fl2 hfl2 => hfil fl2 (List.mem_cons_of_mem _ hfl2)) fuel
          (le_trans (by rw [depthFs]; exact le_max_right _ _) hfuel)
      rw [hrest]
      rfl
theorem buildItemsOk (dq : List Quad) (t : ANode)
    (hg : ∀ s2 ∈ subtreesN t, groupOf dq (nodeHash s2) = ownQuads s2) :
    ∀ its : List AItem, (∀ x ∈ subtreesIs its, x ∈ subtreesN t) → wfIs its = true →
      ∀ (fq : List Quad) (i : Nat),
        (∀ (j : Nat) (hj : j < its.length),
          ∃ q, fq.find? (fun q2 => q2.idx == some (i + j)) = some q ∧
            q.val = itemVal (its.get ⟨j, hj⟩)) →
        ∀ fuel, depthIs its ≤ fuel →
        buildField.buildItems (buildNode dq fuel) fq i its.length = .ok its
  | [], _, _, fq, i, _, fuel, _ => rfl
  | .inode c :: rest, hsub, hwf, fq, i, hfind, fuel, hfuel => by
    rw [wfIs, Bool.and_eq_true] at hwf
    rw [List.length_cons, buildField.buildItems]
    obtain ⟨q, hq, hv⟩ := hfind 0 (by rw [List.length_cons]; omega)
    rw [Nat.add_zero] at hq
    rw [hq]
    dsimp only
    have hv2 : q.val = .astr (nodeHash c) := hv
    rw [hv2]
    dsimp only
    rw [isHashRef_nodeHash c, if_pos rfl]
    have hrec : buildNode dq fuel (nodeHash c) = .ok c :=
      buildNodeOk dq t hg c
        (hsub c (by rw [subtreesIs]; exact List.mem_append_left _ (mem_subtreesN_self c)))
        hwf.1 fuel (le_trans (by rw [depthIs]; exact le_max_left _ _) hfuel)
    rw [hrec]
    have hfind2 : ∀ (j : Nat) (hj : j < rest.length),
        ∃ q2, fq.find? (fun q3 => q3.idx == some (i + 1 + j)) = some q2 ∧
          q2.val = itemVal (rest.get ⟨j, hj⟩) := by
      intro j hj
      obtain ⟨q2, hq2, hv3⟩ := hfind (j + 1) (by rw [List.length_cons]; omega)
      have harith : i + (j + 1) = i + 1 + j := by omega
      rw [harith] at hq2
      exact ⟨q2, hq2, hv3⟩
    have hih : buildField.buildItems (buildNode dq fuel) fq (i + 1) rest.length = .ok rest :=
      buildItemsOk dq t hg rest
        (fun x hx => hsub x (by rw [subtreesIs]; exact List.mem_append_right _ hx))
        hwf.2 fq (i + 1) hfind2 fuel
        (le_trans (by rw [depthIs]; exact le_max_right _ _) hfuel)
    rw [hih]
    rfl
  | .ival v :: rest, hsub, hwf, fq, i, hfind, fuel, hfuel => by
    rw [wfIs, Bool.and_eq_true] at hwf
    rw [List.length_cons, buildField.buildItems]
    obtain ⟨q, hq, hv⟩ := hfind 0 (by rw [List.length_cons]; omega)
    rw [Nat.add_zero] at hq
    rw [hq]
    dsimp only
    have hfind2 : ∀ (j : Nat) (hj : j < rest.length),
        ∃ q2, fq.find? (fun q3 => q3.idx == some (i + 1 + j)) = some q2 ∧
          q2.val = itemVal (rest.get ⟨j, hj⟩) := by
      intro j hj
      obtain ⟨q2, hq2, hv3⟩ := hfind (j + 1) (by rw [List.length_cons]; omega)
      have harith : i + (j + 1) = i + 1 + j := by omega
      rw [harith] at hq2
      exact ⟨q2, hq2, hv3⟩
    have hih : buildField.buildItems (buildNode dq fuel) fq (i + 1) rest.length = .ok rest :=
      buildItemsOk dq t hg rest
        (fun x hx => hsub x (by rw [subtreesIs]; exact hx))
        hwf.2 fq (i + 1) hfind2 fuel (by rw [depthIs] at hfuel; exact hfuel)
    have hv2 : q.val = v := hv
    cases v with
    | astr s =>
      rw [hv2]
      dsimp only
      have hbv : isHashRef (.astr s) = false := by
        have hx := hwf.1
        rw [Bool.not_eq_true'] at hx
        exact hx
      rw [hbv, if_neg (by simp), hih]
      rfl
    | anull =>
      rw [hv2]
      dsimp only
      rw [hih]
      rfl
    | abool b =>
      rw [hv2]
      dsimp only
      rw [hih]
      rfl
    | aint n =>
      rw [hv2]
      dsimp only
      rw [hih]
      rfl
end

/-! ### C3 — the encoded stream is at least as long as the nesting depth, so
the decoder's fuel (the stream length) always suffices -/

mutual
theorem encLenN : ∀ n : ANode, depthN n ≤ (ast_to_aston n).2.length
  | .node ty fields => by
    rw [aston_quads_decomp, List.length_append, depthN, descQuads]
    have h1 := encLenFs fields
    have h2 : 1 ≤ (ownQuads (.node ty fields)).length := by
      rw [ownQuads, List.length_cons]
      omega
    omega
theorem encLenFs : ∀ fs : List AField, depthFs fs ≤ ((fs.map fieldDesc).flatten).length
  | [] => by rw [depthFs]; exact Nat.zero_le _
  | .scalar f v :: rest => by
    rw [depthFs, List.map_cons, List.flatten_cons, fieldDesc, List.nil_append]
    exact encLenFs rest
  | .child f c :: rest => by
    rw [depthFs, List.map_cons, List.flatten_cons, fieldDesc, List.length_append]
    have h1 := encLenN c
    have h2 := encLenFs rest
    omega
  | .seq f items :: rest => by
    rw [depthFs, List.map_cons, List.flatten_cons, fieldDesc, List.length_append]
    have h1 := encLenIs items
    have h2 := encLenFs rest
    omega
theorem encLenIs : ∀ its : List AItem, depthIs its ≤ ((its.map itemDescFn).flatten).length
  | [] => by rw [depthIs]; exact Nat.zero_le _
  | .inode c :: rest => by
    rw [depthIs, List.map_cons, List.flatten_cons, itemDescFn, List.length_append]
    have h1 := encLenN c
    have h2 := encLenIs rest
    omega
  | .ival v :: rest => by
    rw [depthIs, List.map_cons, List.flatten_cons, itemDescFn, List.nil_append]
    exact encLenIs rest
end

/-- The round trip itself: decoding the encoded quad stream of a
well-formed, collision-free tree returns exactly that tree. -/
theorem aston_read_encode (t : ANode) (hwf : wfN t = true) (hcf : collisionFree t = true) :
    aston_read (ast_to_aston t).2 = .ok t := by
  obtain ⟨qL, hqL⟩ : ∃ qL, (ownQuads t).getLast? = some qL := by
    cases t with
    | node ty fields =>
      rw [ownQuads]
      exact ⟨_, List.getLast?_eq_getLast _ (List.cons_ne_nil _ _)⟩
  have hqLh : qL.h = nodeHash t := ownQuads_mem_h t qL (List.mem_of_mem_getLast? hqL)
  have hgl : ((ast_to_aston t).2).getLast? = some qL := by
    rw [aston_quads_decomp, List.getLast?_append, hqL]
    rfl
  rw [aston_read.eq_def, hgl]
  dsimp only
  rw [hqLh]
  exact buildNodeOk ((ast_to_aston t).2).dedup t (fun s hs => group_char t hwf hcf s hs)
    t (mem_subtreesN_self t) hwf ((ast_to_aston t).2).length (encLenN t)

/-! ### C3 — inversion of a successful decode: every field key, and every
hash-shaped value the decoder meets, must have resolved -/

theorem ebind_ok {α β : Type} (a : α) (f : α → Except String β) :
    (Except.ok a >>= f) = f a := rfl

theorem ebind_error {α β : Type} (e : String) (f : α → Except String β) :
    ((Except.error e : Except String α) >>= f) = Except.error e := rfl

theorem emap_ok {α β : Type} (a : α) (f : α → β) :
    (Except.ok a : Except String α).map f = Except.ok (f a) := rfl

theorem emap_error {α β : Type} (e : String) (f : α → β) :
    (Except.error e : Except String α).map f = Except.error e := rfl

theorem buildFields_ok_mem (rec : String → Except String ANode) :
    ∀ (ks : List String) (g : List Quad) (fs2 : List AField),
      buildFields rec g ks = .ok fs2 →
      ∀ k ∈ ks, ∃ fl, buildField rec k (g.filter fun q => q.key == k) = .ok fl := by
  intro ks
  induction ks with
  | nil => intro g fs2 _ k hk; exact absurd hk (List.not_mem_nil k)
  | cons k0 rest ih =>
    intro g fs2 hok k hk
    rw [buildFields] at hok
    cases h1 : buildField rec k0 (g.filter fun q => q.key == k0) with
    | error e =>
      rw [h1, ebind_error] at hok
      exact Except.noConfusion hok
    | ok fl0 =>
      rw [h1, ebind_ok] at hok
      cases h2 : buildFields rec g rest with
      | error e =>
        rw [h2, ebind_error] at hok
        exact Except.noConfusion hok
      | ok fs3 =>
        rcases List.mem_cons.mp hk with hkk | hk2
        · exact ⟨fl0, hkk ▸ h1⟩
        · exact ih g fs3 h2 k hk2

theorem buildField_child_ok (rec : String → Except String ANode) (k H kq s : String)
    (hs : isHashRef (.astr s) = true) (fl : AField)
    (hok : buildField rec k [⟨H, kq, none, .astr s⟩] = .ok fl) :
    ∃ c, rec s = .ok c := by
  rw [buildField_child rec k H kq s hs] at hok
  cases h1 : rec s with
  | error e =>
    rw [h1, emap_error] at hok
    exact Except.noConfusion hok
  | ok c => exact ⟨c, rfl⟩

theorem buildItems_ok_ref (rec : String → Except String ANode) :
    ∀ (n : Nat) (fq : List Quad) (i : Nat) (its2 : List AItem),
      buildField.buildItems rec fq i n = .ok its2 →
      ∀ (j : Nat), j < n →
        ∀ (q : Quad), fq.find? (fun q2 => q2.idx == some (i + j)) = some q →
        ∀ (s : String), q.val = .astr s → isHashRef (.astr s) = true →
          ∃ c, rec s = .ok c := by
  intro n
  induction n with
  | zero => intro fq i its2 _ j hj; exact absurd hj (Nat.not_lt_zero j)
  | succ n ih =>
    intro fq i its2 hok j hj q hfq s hval hhash
    rw [buildField.buildItems] at hok
    cases hfind0 : fq.find? (fun q2 => q2.idx == some i) with
    | none =>
      rw [hfind0] at hok
      exact Except.noConfusion hok
    | some q0 =>
      rw [hfind0] at hok
      dsimp only at hok
      cases j with
      | zero =>
        rw [Nat.add_zero] at hfq
        rw [hfq] at hfind0
        have hq0 : q0 = q := (Option.some.inj hfind0).symm
        rw [hq0, hval] at hok
        dsimp only at hok
        rw [hhash, if_pos rfl] at hok
        cases hrec : rec s with
        | error e =>
          rw [hrec, ebind_error] at hok
          exact Except.noConfusion hok
        | ok c => exact ⟨c, rfl⟩
      | succ j2 =>
        have harith : i + (j2 + 1) = i + 1 + j2 := by omega
        rw [harith] at hfq
        cases hv0 : q0.val with
        | astr s0 =>
          rw [hv0] at hok
          dsimp only at hok
          cases hh0 : isHashRef (.astr s0) with
          | true =>
            rw [hh0, if_pos rfl] at hok
            cases hrec : rec s0 with
            | error e =>
              rw [hrec, ebind_error] at hok
              exact Except.noConfusion hok
            | ok c0 =>
              rw [hrec, ebind_ok] at hok
              cases hbi : buildField.buildItems rec fq (i + 1) n with
              | error e =>
                rw [hbi, ebind_error] at hok
                exact Except.noConfusion hok
              | ok rest =>
                exact ih fq (i + 1) rest hbi j2 (by omega) q hfq s hval hhash
          | false =>
            rw [hh0, if_neg (by simp)] at hok
            cases hbi : buildField.buildItems rec fq (i + 1) n with
            | error e =>
              rw [hbi, ebind_error] at hok
              exact Except.noConfusion hok
            | ok rest =>
              exact ih fq (i + 1) rest hbi j2 (by omega) q hfq s hval hhash
        | anull =>
          rw [hv0] at hok
          dsimp only at hok
          cases hbi : buildField.buildItems rec fq (i + 1) n with
          | error e =>
            rw [hbi, ebind_error] at hok
            exact Except.noConfusion hok
          | ok rest =>
            exact ih fq (i + 1) rest hbi j2 (by omega) q hfq s hval hhash
        | abool b =>
          rw [hv0] at hok
          dsimp only at hok
          cases hbi : buildField.buildItems rec fq (i + 1) n with
          | error e =>
            rw [hbi, ebind_error] at hok
            exact Except.noConfusion hok
          | ok rest =>
            exact ih fq (i + 1) rest hbi j2 (by omega) q hfq s hval hhash
        | aint n2 =>
          rw [hv0] at hok
          dsimp only at hok
          cases hbi : buildField.buildItems rec fq (i + 1) n with
          | error e =>
            rw [hbi, ebind_error] at hok
            exact Except.noConfusion hok
          | ok rest =>
            exact ih fq (i + 1) rest hbi j2 (by omega) q hfq s hval hhash

theorem buildNode_error_empty (dq : List Quad) (h2 : String)
    (hempty : groupOf dq h2 = []) : ∀ fuel : Nat, ∃ e, buildNode dq fuel h2 = .error e
  | 0 => ⟨_, rfl⟩
  | fuel + 1 => by
    rw [buildNode_succ, hempty]
    exact ⟨_, rfl⟩

/-! ### C3 — the hashes a root's own quads reference are exactly the direct
children's hashes; each one belongs to a strictly shallower subtree -/

theorem rootChild_spec (ty : String) (fields : List AField) :
    ∀ h2 ∈ rootChildHashes (.node ty fields),
      ∃ fl ∈ fields, ∃ c : ANode, nodeHash c = h2 ∧
        ((∃ k, fl = .child k c) ∨ (∃ k items, fl = .seq k items ∧ .inode c ∈ items)) := by
  rw [rootChildHashes]
  intro h2 hmem
  obtain ⟨l, hl, hh⟩ := List.mem_flatten.mp hmem
  obtain ⟨fl, hfl, hflval⟩ := List.mem_map.mp hl
  refine ⟨fl, hfl, ?_⟩
  cases fl with
  | scalar k v =>
    rw [← hflval] at hh
    exact absurd hh (List.not_mem_nil h2)
  | child k c =>
    rw [← hflval, List.mem_singleton] at hh
    exact ⟨c, hh.symm, Or.inl ⟨k, rfl⟩⟩
  | seq k items =>
    rw [← hflval] at hh
    obtain ⟨l2, hl2, hh2⟩ := List.mem_flatten.mp hh
    obtain ⟨it, hit, hitval⟩ := List.mem_map.mp hl2
    cases it with
    | inode c =>
      rw [← hitval, List.mem_singleton] at hh2
      exact ⟨c, hh2.symm, Or.inr ⟨k, items, rfl, hit⟩⟩
    | ival v =>
      rw [← hitval] at hh2
      exact absurd hh2 (List.not_mem_nil h2)

theorem inode_mem_subIs : ∀ (items : List AItem) (c : ANode), .inode c ∈ items →
    c ∈ subtreesIs items ∧ depthN c ≤ depthIs items := by
  intro items
  induction items with
  | nil => intro c hc; exact absurd hc (List.not_mem_nil _)
  | cons it rest ih =>
    intro c hc
    rcases List.mem_cons.mp hc with hceq | hc2
    · subst hceq
      constructor
      · rw [subtreesIs]
        exact List.mem_append_left _ (mem_subtreesN_self c)
      · rw [depthIs]
        exact le_max_left _ _
    · obtain ⟨h1, h2⟩ := ih c hc2
      cases it with
      | inode c2 =>
        exact ⟨by rw [subtreesIs]; exact List.mem_append_right _ h1,
          by rw [depthIs]; exact le_trans h2 (le_max_right _ _)⟩
      | ival v =>
        exact ⟨by rw [subtreesIs]; exact h1, by rw [depthIs]; exact h2⟩

theorem child_mem_subFs : ∀ (fields : List AField) (fl : AField), fl ∈ fields →
    ∀ c : ANode,
      ((∃ k, fl = .child k c) ∨ (∃ k items, fl = .seq k items ∧ .inode c ∈ items)) →
      c ∈ subtreesFs fields ∧ depthN c ≤ depthFs fields := by
  intro fields
  induction fields with
  | nil => intro fl hfl; exact absurd hfl (List.not_mem_nil fl)
  | cons g rest ih =>
    intro fl hfl c hcase
    rcases List.mem_cons.mp hfl with hflg | hfl2
    · subst hflg
      rcases hcase with ⟨k, rfl⟩ | ⟨k, items, rfl, hit⟩
      · constructor
        · rw [subtreesFs]
          exact List.mem_append_left _ (mem_subtreesN_self c)
        · rw [depthFs]
          exact le_max_left _ _
      · obtain ⟨h1, h2⟩ := inode_mem_subIs items c hit
        constructor
        · rw [subtreesFs]
          exact List.mem_append_left _ h1
        · rw [depthFs]
          exact le_trans h2 (le_max_left _ _)
    · obtain ⟨h1, h2⟩ := ih fl hfl2 c hcase
      cases g with
      | scalar k v =>
        exact ⟨by rw [subtreesFs]; exact h1, by rw [depthFs]; exact h2⟩
      | child k c2 =>
        exact ⟨by rw [subtreesFs]; exact List.mem_append_right _ h1,
          by rw [depthFs]; exact le_trans h2 (le_max_right _ _)⟩
      | seq k items =>
        exact ⟨by rw [subtreesFs]; exact List.mem_append_right _ h1,
          by rw [depthFs]; exact le_trans h2 (le_max_right _ _)⟩

/-- Removing every quad of one referenced direct-child hash from the encoded
stream makes decoding fail with a SchemaError (no partial tree comes back). -/
theorem aston_read_missing (t : ANode) (hwf : wfN t = true) (hcf : collisionFree t = true)
    (h2 : String) (hh2 : h2 ∈ rootChildHashes t) :
    ∃ e, aston_read (((ast_to_aston t).2).filter fun q => !(q.h == h2)) = .error e := by
  cases t with
  | node ty fields =>
    obtain ⟨fl, hfl, c, hch, hcase⟩ := rootChild_spec ty fields h2 hh2
    obtain ⟨hcmem, hcdepth⟩ := child_mem_subFs fields fl hfl c hcase
    have hcsub : c ∈ subtreesN (.node ty fields) := by
      rw [subtreesN]
      exact List.mem_cons_of_mem _ hcmem
    have hct : c ≠ ANode.node ty fields := by
      intro he
      have hlt : depthN c < depthN (ANode.node ty fields) := by
        rw [depthN]
        omega
      rw [he] at hlt
      omega
    have hhne : nodeHash (ANode.node ty fields) ≠ h2 := by
      intro he
      exact hct (collisionFree_inj _ hcf c hcsub (ANode.node ty fields)
        (mem_subtreesN_self _) (by rw [hch, he]))
    have hownP : (ownQuads (ANode.node ty fields)).filter (fun q => !(q.h == h2)) =
        ownQuads (ANode.node ty fields) :=
      List.filter_eq_self.mpr (fun q hq => by
        rw [ownQuads_mem_h _ q hq]
        simp [beq_eq_false_iff_ne.mpr hhne])
    obtain ⟨qL, hqL⟩ : ∃ qL, (ownQuads (ANode.node ty fields)).getLast? = some qL := by
      rw [ownQuads]
      exact ⟨_, List.getLast?_eq_getLast _ (List.cons_ne_nil _ _)⟩
    have hqLh : qL.h = nodeHash (ANode.node ty fields) :=
      ownQuads_mem_h _ qL (List.mem_of_mem_getLast? hqL)
    have hgl2 : (((ast_to_aston (ANode.node ty fields)).2).filter
        fun q => !(q.h == h2)).getLast? = some qL := by
      rw [aston_quads_decomp, List.filter_append, hownP, List.getLast?_append, hqL]
      rfl
    cases hres : aston_read (((ast_to_aston (ANode.node ty fields)).2).filter
        fun q => !(q.h == h2)) with
    | error e => exact ⟨e, rfl⟩
    | ok n =>
      exfalso
      rw [aston_read.eq_def, hgl2] at hres
      dsimp only at hres
      rw [hqLh] at hres
      have hgroot : groupOf ((((ast_to_aston (ANode.node ty fields)).2).filter
          fun q => !(q.h == h2)).dedup) (nodeHash (ANode.node ty fields)) =
          ownQuads (ANode.node ty fields) := by
        rw [groupOf, filter_dedup]
        have hff : ((((ast_to_aston (ANode.node ty fields)).2).filter
            fun q => !(q.h == h2)).filter
              (fun q => q.h == nodeHash (ANode.node ty fields))) =
            (((ast_to_aston (ANode.node ty fields)).2).filter
              (fun q => q.h == nodeHash (ANode.node ty fields))) := by
          rw [List.filter_filter]
          refine List.filter_congr (fun q hq => ?_)
          cases hqh : (q.h == nodeHash (ANode.node ty fields)) with
          | false => rfl
          | true =>
            have hq2 : (q.h == h2) = false := by
              rw [eq_of_beq hqh]
              exact beq_eq_false_iff_ne.mpr hhne
            rw [Bool.true_and, hq2]
            rfl
        rw [hff]
        exact group_filter_char (ANode.node ty fields) hwf hcf (ANode.node ty fields)
          (mem_subtreesN_self _)
      have hempty : groupOf ((((ast_to_aston (ANode.node ty fields)).2).filter
          fun q => !(q.h == h2)).dedup) h2 = [] := by
        rw [groupOf]
        refine List.filter_eq_nil_iff.mpr (fun q hq => ?_)
        have hq2 := List.of_mem_filter (List.mem_dedup.mp hq)
        simp only [Bool.not_eq_true'] at hq2
        simp [hq2]
      cases hfu : ((((ast_to_aston (ANode.node ty fields)).2).filter
          fun q => !(q.h == h2))).length with
      | zero =>
        rw [hfu, buildNode] at hres
        exact Except.noConfusion hres
      | succ fuel2 =>
        rw [hfu, buildNode_succ, hgroot] at hres
        rw [show (ownQuads (ANode.node ty fields)).find?
            (fun q => q.key == "_type" && q.idx == none) =
            some ⟨nodeHash (ANode.node ty fields), "_type", none, .astr ty⟩ from by
          rw [ownQuads]
          exact List.find?_cons_of_pos _ (by simp)] at hres
        dsimp only at hres
        rw [groupKeys_own ty fields hwf] at hres
        cases hbfs : buildFields
            (buildNode ((((ast_to_aston (ANode.node ty fields)).2).filter
              fun q => !(q.h == h2)).dedup) fuel2)
            (ownQuads (ANode.node ty fields)) (fields.map fieldName) with
        | error e =>
          rw [hbfs, emap_error] at hres
          exact Except.noConfusion hres
        | ok fs2 =>
          obtain ⟨fl2, hfl2⟩ := buildFields_ok_mem _ _ _ _ hbfs (fieldName fl)
            (List.mem_map_of_mem fieldName hfl)
          rw [own_filter_key ty fields hwf fl hfl] at hfl2
          have hrecerr := buildNode_error_empty _ _ hempty
          rcases hcase with ⟨k, rfl⟩ | ⟨k, items, rfl, hit⟩
          · rw [fieldOwn, hch] at hfl2
            obtain ⟨c2, hc2⟩ := buildField_child_ok _ _ _ _ _
              (by rw [← hch]; exact isHashRef_nodeHash c) fl2 hfl2
            obtain ⟨e2, he2⟩ := hrecerr fuel2
            rw [he2] at hc2
            exact Except.noConfusion hc2
          · rw [fieldOwn] at hfl2
            have hitsne : (items.map itemVal) ≠ [] := fun he => by
              rw [List.map_eq_nil_iff.mp he] at hit
              exact List.not_mem_nil _ hit
            rw [buildField_seq _ _ _ _ _ hitsne] at hfl2
            cases hbi : buildField.buildItems
                (buildNode ((((ast_to_aston (ANode.node ty fields)).2).filter
                  fun q => !(q.h == h2)).dedup) fuel2)
                (seqQuads (nodeHash (ANode.node ty fields)) k 0 (items.map itemVal)) 0
                (seqQuads (nodeHash (ANode.node ty fields)) k 0 (items.map itemVal)).length with
            | error e =>
              rw [hbi, emap_error] at hfl2
              exact Except.noConfusion hfl2
            | ok its2 =>
              obtain ⟨⟨j, hj⟩, hget⟩ := List.mem_iff_get.mp hit
              have hj2 : j < (items.map itemVal).length := by
                rw [List.length_map]
                exact hj
              have hfq := seqQuads_find (nodeHash (ANode.node ty fields)) k
                (items.map itemVal) 0 j hj2
              have hvq : (items.map itemVal).get ⟨j, hj2⟩ = .astr h2 := by
                have hstep : (items.map itemVal).get ⟨j, hj2⟩ =
                    itemVal (items.get ⟨j, hj⟩) := by
                  simp only [List.get_eq_getElem, List.getElem_map]
                rw [hstep, hget, itemVal, hch]
              obtain ⟨c2, hc2⟩ := buildItems_ok_ref _ _ _ _ _ hbi j
                (by rw [seqQuads_length]; exact hj2) _ hfq h2 hvq
                (by rw [← hch]; exact isHashRef_nodeHash c)
              obtain ⟨e2, he2⟩ := hrecerr fuel2
              rw [he2] at hc2
              exact Except.noConfusion hc2

set_option maxRecDepth 100000 in
/-- C3 (counterexample): the round trip is not the identity for every tree
built from supported shapes. An empty list-valued field — e.g. a `Module`
with an empty `body`, a shape `ast.parse` produces for an empty file —
emits no quads at all in the flat format, so the decoder cannot see it:
decoding the encoding of `Module(body=[])` yields a `Module` with no
fields, which is not structurally identical to the original (and decoding
succeeds, returning this silently different tree rather than failing). -/
theorem C3_counterexample :
    aston_read (ast_to_aston (ANode.node "Module" [.seq "body" []])).2 =
      .ok (ANode.node "Module" []) ∧
    structEqN (ANode.node "Module" []) (ANode.node "Module" [.seq "body" []]) = false ∧
    ANode.node "Module" [] ≠ ANode.node "Module" [.seq "body" []] := by
  refine ⟨rfl, rfl, ?_⟩
  intro h
  injection h with h1 h2
  exact List.noConfusion h2

/-- C3 (amended): for a well-formed tree (duplicate-free field names, no
field named `_type`, no empty list-valued field, no scalar string shaped
like a content hash) whose subtrees are hashed without collisions, decoding
the encoded quad stream reconstructs exactly the original tree; and when all
quads of a referenced direct-child hash are removed from the stream,
decoding fails with a `SchemaError` (every error of the modelled decoder is
a `SchemaError`) instead of returning a partial tree. -/
theorem C3_round_trip (t : ANode) (hwf : wfN t = true) (hcf : collisionFree t = true) :
    aston_read (ast_to_aston t).2 = .ok t ∧
    ∀ h2 ∈ rootChildHashes t,
      ∃ e, aston_read (((ast_to_aston t).2).filter fun q => !(q.h == h2)) = .error e :=
  ⟨aston_read_encode t hwf hcf, fun h2 hh2 => aston_read_missing t hwf hcf h2 hh2⟩

set_option maxRecDepth 100000 in
/-- Witness for C3: a concrete two-node tree (`Module` whose `body` holds
one `Pass` node) satisfies both hypotheses, and the theorem applies. -/
theorem C3_round_trip_witness :
    wfN (ANode.node "Module" [.seq "body" [.inode (ANode.node "Pass" [])]]) = true ∧
    collisionFree (ANode.node "Module" [.seq "body" [.inode (ANode.node "Pass" [])]]) = true ∧
    (aston_read
        (ast_to_aston (ANode.node "Module" [.seq "body" [.inode (ANode.node "Pass" [])]])).2 =
      .ok (ANode.node "Module" [.seq "body" [.inode (ANode.node "Pass" [])]]) ∧
     ∀ h2 ∈ rootChildHashes (ANode.node "Module" [.seq "body" [.inode (ANode.node "Pass" [])]]),
      ∃ e, aston_read
          (((ast_to_aston
              (ANode.node "Module" [.seq "body" [.inode (ANode.node "Pass" [])]])).2).filter
            fun q => !(q.h == h2)) = .error e) :=
  ⟨by decide, by decide, C3_round_trip _ (by decide) (by decide)⟩

end Mobius
